import Mathlib

/-!
# A verification development for the beniget def-use chain analyzer

This file gives a shallow embedding of the core of `beniget.py` — the
`DefUseChains` visitor, its scope/definition stack machine, the `defs`
name resolver, and the `UseDefChains` inverse-chain builder — restricted
to a representative fragment of the analyzed language (module, assignment,
augmented assignment, if, function/class definitions, lambda, nonlocal,
global, delete, raise, from-import, names, attributes, constants and
binary operations).

Mutable Python objects are modelled with explicit arenas:
`Def` records live in a `Def` arena addressed by `DefId`; each
`ordered_set` of definitions is a cell in a cell arena addressed by
`CellId`; each definition layer (a Python `dict` mapping a name to an
`ordered_set`) is an association list of `(name, CellId)` pairs living in
a layer arena addressed by `LayerId`.  This reproduces Python's
shallow-copy semantics: `dict.copy()` duplicates the association list but
shares the cells, and `list(self._definitions)` shares the layers.
-/

namespace Beniget

abbrev DefId := Nat
abbrev CellId := Nat
abbrev LayerId := Nat

/-- Payload of a `Def` record: the AST node (or synthetic object) it wraps.
Mirrors the possible values of `Def.node` in `beniget.py` for the fragment:
AST nodes (each carrying the stable identity `id`), the string
`"__class__"` installed in class scopes, and builtin values. -/
inductive DNode where
  | nameNode (id : Nat) (s : String)
  | funcNode (id : Nat) (s : String)
  | classNode (id : Nat) (s : String)
  | aliasNode (id : Nat) (nm : String) (asn : Option String)
  | constNode (id : Nat)
  | binopNode (id : Nat)
  | attrNode (id : Nat)
  | lambdaNode (id : Nat)
  | strNode (s : String)
  | builtinNode (s : String)
deriving DecidableEq, Repr

/-- `Def.name()` from `beniget.py`: identifier text for named nodes, the
`asname or base` for import aliases, and the type name otherwise
(a plain string wraps to its type name `"str"`; builtin values are
builtin functions/types). -/
def dnodeName : DNode → String
  | .nameNode _ s => s
  | .funcNode _ s => s
  | .classNode _ s => s
  | .aliasNode _ nm asn => asn.getD ((nm.splitOn ".").headD nm)
  | .constNode _ => "Constant"
  | .binopNode _ => "BinOp"
  | .attrNode _ => "Attribute"
  | .lambdaNode _ => "Lambda"
  | .strNode _ => "str"
  | .builtinNode _ => "builtin_function_or_method"

/-- A `Def` record: the wrapped node and the insertion-ordered,
deduplicated set of `Def`s that use it (`Def._users`), stored as arena
indices. -/
structure DefRec where
  node : DNode
  users : List DefId
deriving DecidableEq, Repr

/-- Insertion-ordered set addition (`ordered_set.add`): appends the value
unless already present, keeping the first position. -/
def osetAdd (l : List Nat) (x : Nat) : List Nat :=
  if x ∈ l then l else l ++ [x]

/-- Insertion-ordered set update (`ordered_set.update`). -/
def osetUpdate (l : List Nat) (xs : List Nat) : List Nat :=
  xs.foldl osetAdd l

/-- `ordered_set(elements)`: deduplicate a list keeping first positions. -/
def osetOf (xs : List Nat) : List Nat :=
  osetUpdate [] xs

/-- `ordered_set.__add__`: left operand's entries, then the fresh ones of
the right operand. -/
def osetUnion (a b : List Nat) : List Nat :=
  osetUpdate a b

/-- Association-list lookup (Python `dict.__getitem__` when present). -/
def aFind {α : Type} (l : List (Nat × α)) (k : Nat) : Option α :=
  match l.find? (fun p => p.1 = k) with
  | some p => some p.2
  | none => none

/-- Association-list lookup keyed by strings. -/
def sFind {α : Type} (l : List (String × α)) (k : String) : Option α :=
  match l.find? (fun p => p.1 = k) with
  | some p => some p.2
  | none => none

/-- Python `dict.__setitem__`: update in place (keeping the key's
position) or append a new entry. -/
def sSet {α : Type} (l : List (String × α)) (k : String) (v : α) :
    List (String × α) :=
  if (l.find? (fun p => p.1 = k)).isSome then
    l.map (fun p => if p.1 = k then (k, v) else p)
  else
    l ++ [(k, v)]

/-- `dict.__setitem__` for `Nat`-keyed dicts (the `chains` table). -/
def nSet {α : Type} (l : List (Nat × α)) (k : Nat) (v : α) :
    List (Nat × α) :=
  if (l.find? (fun p => p.1 = k)).isSome then
    l.map (fun p => if p.1 = k then (k, v) else p)
  else
    l ++ [(k, v)]

/-- Python stack top `l[-1]` (with a default, stacks are non-empty at all
use sites during analysis). -/
def topD {α : Type} (l : List α) (d : α) : α := l.getLastD d

/-- Replace the top element of a stack. -/
def setTop {α : Type} (l : List α) (x : α) : List α :=
  l.dropLast ++ [x]

/-- Python slice index normalization: negative indices count from the
end, results are clamped to `[0, n]`. -/
def pyIdx (n : Nat) (i : Int) : Nat :=
  (max 0 (min (n : Int) (if i < 0 then (n : Int) + i else i))).toNat

/-- Python list slice `l[a:b]`. -/
def pySlice {α : Type} (l : List α) (a b : Int) : List α :=
  (l.take (pyIdx l.length b)).drop (pyIdx l.length a)

/-! ## The AST fragment

Every node carries a `Nat` identity standing for the Python object
identity used as the key of `chains`.  Expression contexts mirror
`gast`'s `Load`/`Store`/`Del`/`Param`. -/

inductive Ctx where
  | load | store | del | param
deriving DecidableEq, Repr

mutual
inductive Expr where
  | name (id : Nat) (s : String) (ctx : Ctx)
  | const (id : Nat)
  | binop (id : Nat) (l r : Expr)
  | attribute (id : Nat) (value : Expr)
  | lam (id : Nat) (args : List (Nat × String)) (defaults : List Expr)
      (body : Expr)

inductive Stmt where
  | assign (value : Expr) (targets : List Expr)
  | augAssign (target : Expr) (value : Expr)
  | exprStmt (e : Expr)
  | ifStmt (test : Expr) (body orelse : List Stmt)
  | functionDef (id : Nat) (nm : String) (args : List (Nat × String))
      (defaults : List Expr) (body : List Stmt)
  | classDef (id : Nat) (nm : String) (bases : List Expr)
      (body : List Stmt)
  | nonlocalStmt (id : Nat) (names : List String)
  | globalStmt (names : List String)
  | delete (targets : List Expr)
  | raiseStmt (exc : Option Expr)
  | importFrom (aliases : List (Nat × String × Option String))
  | pass
end

/-- A module: the scope-introducing root node with its body. -/
structure Mod where
  id : Nat
  body : List Stmt

/-- A scope stack entry: the scope node's identity and whether it is a
`ClassDef` (the only property `isinstance(scope, ast.ClassDef)` reads). -/
structure ScopeRef where
  id : Nat
  isClass : Bool
deriving DecidableEq, Repr

/-- A deferred-function queue entry: the function node together with the
snapshots `list(self._definitions)`, `list(self._scopes)`,
`list(self._scope_depths)` and `list(self._precomputed_locals)`.
Copying the outer lists shares the layer dicts, which the `LayerId`
indirection reproduces. -/
structure Defered where
  fnode : Stmt
  defs : List LayerId
  scopes : List ScopeRef
  depths : List Int
  plocals : List (List String)

/-- The `DefUseChains` analyzer state. -/
structure St where
  /-- Arena of `Def` records. -/
  defArena : List DefRec
  /-- Arena of `ordered_set` cells (contents are `DefId`s). -/
  cellArena : List (List DefId)
  /-- Arena of definition-layer dicts (`name -> ordered_set`). -/
  layerArena : List (List (String × CellId))
  /-- `self.chains`: AST node identity to its `Def`. -/
  chains : List (Nat × DefId)
  /-- `self.locals`: scope node identity to locally introduced `Def`s. -/
  localTab : List (Nat × List DefId)
  /-- `self._builtins`: builtin name to its synthetic `Def`. -/
  builtins : List (String × DefId)
  /-- `self._defered`. -/
  defered : List Defered
  /-- `self._definitions` (bottom of the stack first). -/
  definitions : List LayerId
  /-- `self._scope_depths`. -/
  scopeDepths : List Int
  /-- `self._globals`. -/
  globalsStk : List (List String)
  /-- `self._precomputed_locals`. -/
  precompLocals : List (List String)
  /-- `self._undefs`: frames of `name -> list of (Def, stars)`. -/
  undefs : List (List (String × List (DefId × List DefId)))
  /-- `self._scopes`. -/
  scopes : List ScopeRef
  /-- `self._deadcode`. -/
  deadcode : Nat
  /-- Diagnostic sink: `(name, node identity)` pairs emitted by
  `unbound_identifier`. -/
  diags : List (String × Nat)
  /-- `self.module` (the module node's identity). -/
  moduleId : Nat

/-! ## Primitive operations on the state -/

/-- Read a `Def` record. -/
def getDef (st : St) (d : DefId) : DefRec :=
  st.defArena.getD d ⟨.strNode "", []⟩

/-- The users of a `Def` (`Def.users()`). -/
def usersOf (st : St) (d : DefId) : List DefId :=
  (getDef st d).users

/-- Allocate a fresh `Def` record (`Def(node)`). -/
def newDef (st : St) (n : DNode) : DefId × St :=
  (st.defArena.length, { st with defArena := st.defArena ++ [⟨n, []⟩] })

/-- `d.add_user(u)`: insert `u` into `d`'s ordered user set. -/
def addUser (st : St) (d u : DefId) : St :=
  match st.defArena.get? d with
  | some r => { st with defArena := st.defArena.set d ⟨r.node, osetAdd r.users u⟩ }
  | none => st

/-- Read a cell of the cell arena. -/
def getCell (st : St) (c : CellId) : List DefId :=
  st.cellArena.getD c []

/-- Allocate a cell holding `ordered_set(contents)`. -/
def newCell (st : St) (contents : List DefId) : CellId × St :=
  (st.cellArena.length, { st with cellArena := st.cellArena ++ [osetOf contents] })

/-- Mutate a cell in place (`ordered_set.add` / `.update`). -/
def cellExtend (st : St) (c : CellId) (ds : List DefId) : St :=
  match st.cellArena.get? c with
  | some l => { st with cellArena := st.cellArena.set c (osetUpdate l ds) }
  | none => st

/-- Read a layer dict of the layer arena. -/
def getLayer (st : St) (l : LayerId) : List (String × CellId) :=
  st.layerArena.getD l []

/-- Allocate a fresh empty layer (`defaultdict(ordered_set)`). -/
def newLayer (st : St) : LayerId × St :=
  (st.layerArena.length, { st with layerArena := st.layerArena ++ [[]] })

/-- Allocate a shallow copy of a layer (`dict.copy()`): same association
list, shared cells. -/
def copyLayer (st : St) (l : LayerId) : LayerId × St :=
  (st.layerArena.length, { st with layerArena := st.layerArena ++ [getLayer st l] })

/-- `layer[name] = cell` (dict item assignment). -/
def layerSetItem (st : St) (l : LayerId) (k : String) (c : CellId) : St :=
  match st.layerArena.get? l with
  | some lay => { st with layerArena := st.layerArena.set l (sSet lay k c) }
  | none => st

/-- `name in layer`. -/
def layerHasKey (st : St) (l : LayerId) (k : String) : Bool :=
  (sFind (getLayer st l) k).isSome

/-- `layer[name]` dereferenced down to the list of `Def`s. -/
def layerEntry (st : St) (l : LayerId) (k : String) : List DefId :=
  match sFind (getLayer st l) k with
  | some c => getCell st c
  | none => []

/-- The source argument of `set_definition`/`extend_*`: either a single
`Def` or a collection of `Def`s (`dnode_or_dnodes`). -/
inductive DSrc where
  | one (d : DefId)
  | many (ds : List DefId)
deriving DecidableEq, Repr

def DSrc.toList : DSrc → List DefId
  | .one d => [d]
  | .many ds => ds

/-- `DefUseChains.add_to_definition`: union-add into a layer's entry,
creating the entry through the `defaultdict` if absent. -/
def addToDefinition (st : St) (l : LayerId) (k : String) (src : DSrc) : St :=
  match sFind (getLayer st l) k with
  | some c => cellExtend st c src.toList
  | none =>
      let c := (newCell st []).1
      let st := layerSetItem (newCell st []).2 l k c
      cellExtend st c src.toList

/-- `DefUseChains.set_definition`: overwrite the top layer's entry with a
fresh `ordered_set`; a no-op in dead code. -/
def setDefinition (st : St) (k : String) (src : DSrc) : St :=
  if st.deadcode ≠ 0 then st
  else
    let c := (newCell st src.toList).1
    let st := (newCell st src.toList).2
    layerSetItem st (topD st.definitions 0) k c

/-- `DefUseChains.extend_definition`: union-add into the top layer; a
no-op in dead code. -/
def extendDefinition (st : St) (k : String) (src : DSrc) : St :=
  if st.deadcode ≠ 0 then st
  else addToDefinition st (topD st.definitions 0) k src

/-- `DefUseChains.extend_global`: union-add into the module scope's base
layer (`self._definitions[0]`); a no-op in dead code. -/
def extendGlobal (st : St) (k : String) (src : DSrc) : St :=
  if st.deadcode ≠ 0 then st
  else addToDefinition st (st.definitions.headD 0) k src

/-- `self.locals[scope].append(dnode)` (a `defaultdict(list)`). -/
def localsAppend (st : St) (scopeId : Nat) (d : DefId) : St :=
  let entry := (aFind st.localTab scopeId).getD [] ++ [d]
  { st with localTab := nSet st.localTab scopeId entry }

/-- `DefUseChains.set_or_extend_global`; a no-op in dead code. -/
def setOrExtendGlobal (st : St) (k : String) (d : DefId) : St :=
  if st.deadcode ≠ 0 then st
  else
    let st :=
      if (sFind (getLayer st (st.definitions.headD 0)) k).isSome then st
      else localsAppend st st.moduleId d
    addToDefinition st (st.definitions.headD 0) k (.one d)

/-- `self.chains.setdefault(node, Def(node))`. -/
def chainsSetdefault (st : St) (nid : Nat) (n : DNode) : DefId × St :=
  match aFind st.chains nid with
  | some d => (d, st)
  | none =>
      let d := (newDef st n).1
      let st := (newDef st n).2
      (d, { st with chains := st.chains ++ [(nid, d)] })

/-- `self.unbound_identifier(name, node)`: deliver a diagnostic. -/
def emitDiag (st : St) (nm : String) (nid : Nat) : St :=
  { st with diags := st.diags ++ [(nm, nid)] }

/-! ## Local-name precomputation (`CollectLocals` / `collect_locals`)

The pre-pass walks a scope node's children without descending into
nested functions, classes or lambdas, collecting Store-context names,
function/class names and import aliases, and excluding names already
declared `global`/`nonlocal` at the time the store is seen.  Parameter
(`Param`-context) names contribute nothing, exactly as in the source
where `visit_Name` only reacts to `Store` contexts. -/

/-- Add to a name set (`set.add`). -/
def addStr (l : List String) (s : String) : List String :=
  if s ∈ l then l else l ++ [s]

mutual
def clStmt : Stmt → List String × List String → List String × List String
  | .functionDef _ nm _ _ _, acc => (addStr acc.1 nm, acc.2)
  | .classDef _ nm _ _, acc => (addStr acc.1 nm, acc.2)
  | .nonlocalStmt _ ns, acc => (acc.1, ns.foldl addStr acc.2)
  | .globalStmt ns, acc => (acc.1, ns.foldl addStr acc.2)
  | .assign v ts, acc => clExpr v (clExprList ts acc)
  | .augAssign t v, acc => clExpr v (clExpr t acc)
  | .exprStmt e, acc => clExpr e acc
  | .ifStmt t b o, acc => clStmtList o (clStmtList b (clExpr t acc))
  | .delete ts, acc => clExprList ts acc
  | .raiseStmt (some e), acc => clExpr e acc
  | .raiseStmt none, acc => acc
  | .importFrom aliases, acc =>
      (aliases.foldl (fun l p => addStr l (p.2.2.getD p.2.1)) acc.1, acc.2)
  | .pass, acc => acc

def clStmtList : List Stmt → List String × List String → List String × List String
  | [], acc => acc
  | s :: rest, acc => clStmtList rest (clStmt s acc)

def clExpr : Expr → List String × List String → List String × List String
  | .name _ s ctx, acc =>
      if ctx = .store ∧ s ∉ acc.2 then (addStr acc.1 s, acc.2) else acc
  | .const _, acc => acc
  | .binop _ l r, acc => clExpr r (clExpr l acc)
  | .attribute _ v, acc => clExpr v acc
  | .lam _ _ _ _, acc => acc

def clExprList : List Expr → List String × List String → List String × List String
  | [], acc => acc
  | e :: rest, acc => clExprList rest (clExpr e acc)
end

/-- `collect_locals` on a `Module` node: walk the body. -/
def collectLocalsBody (stmts : List Stmt) : List String :=
  (clStmtList stmts ([], [])).1

/-- `collect_locals` on a `FunctionDef` node: the generic walk reaches the
default expressions and the body (parameters are `Param` names and
contribute nothing). -/
def collectLocalsFunc (defaults : List Expr) (body : List Stmt) : List String :=
  (clStmtList body (clExprList defaults ([], []))).1

/-- `collect_locals` on a `ClassDef` node: bases then body. -/
def collectLocalsClass (bases : List Expr) (body : List Stmt) : List String :=
  (clStmtList body (clExprList bases ([], []))).1

/-! ## Scope and definition contexts -/

/-- `ScopeContext.__enter__`: push scope node, depth `-1`, a fresh empty
layer, an empty `global` set and the precomputed locals. -/
def scopePush (st : St) (sref : ScopeRef) (pls : List String) : St :=
  let l := (newLayer st).1
  let st := (newLayer st).2
  { st with scopes := st.scopes ++ [sref],
            scopeDepths := st.scopeDepths ++ [(-1 : Int)],
            definitions := st.definitions ++ [l],
            globalsStk := st.globalsStk ++ [[]],
            precompLocals := st.precompLocals ++ [pls] }

/-- `ScopeContext.__exit__`: pop the five stacks. -/
def scopePop (st : St) : St :=
  { st with scopes := st.scopes.dropLast,
            scopeDepths := st.scopeDepths.dropLast,
            definitions := st.definitions.dropLast,
            globalsStk := st.globalsStk.dropLast,
            precompLocals := st.precompLocals.dropLast }

/-- `DefinitionContext.__enter__`: push the given layer and decrement the
current scope depth. -/
def defCtxEnter (st : St) (l : LayerId) : St :=
  { st with definitions := st.definitions ++ [l],
            scopeDepths := setTop st.scopeDepths (topD st.scopeDepths 0 - 1) }

/-- `DefinitionContext.__exit__`. -/
def defCtxExit (st : St) : St :=
  { st with definitions := st.definitions.dropLast,
            scopeDepths := setTop st.scopeDepths (topD st.scopeDepths 0 + 1) }

/-! ## The name resolver (`DefUseChains.defs`) -/

/-- `DefUseChains.invalid_name_lookup`. -/
def invalidNameLookup (st : St) (nm : String) (scope : ScopeRef)
    (pls : List String) (localDefs : List LayerId) : Bool :=
  if nm ∉ pls then false
  else
    let islocal := localDefs.any
      (fun l => layerHasKey st l nm || layerHasKey st l "*")
    if scope.isClass then
      let topLevel := pySlice st.definitions 0 (-(st.scopeDepths.headD 0))
      let isglobal := topLevel.any
        (fun l => layerHasKey st l nm || layerHasKey st l "*")
      !islocal && !isglobal
    else !islocal

/-- The inner loop of `defs` that walks the enclosing scopes (already
reversed), skipping class scopes, with the early `clear(); break` on an
invalid local read. -/
def lookedLoop (st : St) (nm : String) (baseScope : ScopeRef) :
    Int → List LayerId → List (ScopeRef × Int × List String) → List LayerId
  | _, acc, [] => acc
  | lvl, acc, (scope, depth, pls) :: rest =>
      if scope.isClass then lookedLoop st nm baseScope (lvl + depth) acc rest
      else
        let seg := pySlice st.definitions (lvl + depth) lvl
        if invalidNameLookup st nm baseScope pls seg then []
        else lookedLoop st nm baseScope (lvl + depth) (acc ++ seg.reverse) rest

/-- The list of definition layers `defs` searches
(`looked_up_definitions`), in search order. -/
def lookedUp (st : St) (nm : String) : List LayerId :=
  if st.globalsStk.any (fun g => nm ∈ g) then
    pySlice st.definitions 0 (-(st.scopeDepths.headD 0))
  else
    match st.scopeDepths.reverse, st.precompLocals.reverse,
        st.scopes.reverse with
    | depth :: depthsRest, pls :: plsRest, baseScope :: scopesRest =>
        let seg := pySlice st.definitions depth st.definitions.length
        if invalidNameLookup st nm baseScope pls seg then []
        else
          lookedLoop st nm baseScope depth seg.reverse
            (scopesRest.zip (depthsRest.zip plsRest))
    | _, _, _ => []

/-- A definition layer materialized down to `Def` lists. -/
def matLayer (st : St) (l : LayerId) : List (String × List DefId) :=
  (getLayer st l).map (fun p => (p.1, getCell st p.2))

/-- The search loop of `defs` over the materialized searched layers:
return the first explicit binding (prepended with the star-wildcards
accumulated so far), extending the accumulator whenever a `*` wildcard is
met; fall through with the final accumulator otherwise. -/
def lookupLoop (nm : String) :
    List DefId → List (List (String × List DefId)) →
    Sum (List DefId) (List DefId)
  | stars, [] => .inr stars
  | stars, l :: rest =>
      match sFind l nm with
      | some ds => .inl (if stars.isEmpty then ds else stars ++ ds)
      | none =>
          match sFind l "*" with
          | some ws => lookupLoop nm (stars ++ ws) rest
          | none => lookupLoop nm stars rest

/-- The pure outcome of a `defs` lookup: either the reaching set of an
explicit binding (`.inl`) or the accumulated wildcards of a fall-through
(`.inr`). -/
def defsResolution (st : St) (nm : String) : Sum (List DefId) (List DefId) :=
  lookupLoop nm [] ((lookedUp st nm).map (matLayer st))

/-- `DefUseChains.defs`: resolve `node.id` in the current context,
returning the reaching `Def` list; on a fall-through, create the
use-site `Def`, register a pending undef inside loops, and otherwise emit
the unbound-identifier diagnostic (unless `quiet`). -/
def defsLookup (st : St) (nid : Nat) (nm : String) (quiet : Bool) :
    List DefId × St :=
  match defsResolution st nm with
  | .inl ds => (ds, st)
  | .inr stars =>
      let d := (chainsSetdefault st nid (.nameNode nid nm)).1
      let st := (chainsSetdefault st nid (.nameNode nid nm)).2
      let st :=
        if st.undefs.isEmpty then st
        else
          let frame := topD st.undefs []
          let entry := (sFind frame nm).getD [] ++ [(d, stars)]
          { st with undefs := setTop st.undefs (sSet frame nm entry) }
      if stars.isEmpty then
        let st := if st.undefs.isEmpty && !quiet then emitDiag st nm nid else st
        ([d], st)
      else (stars ++ [d], st)

/-! ## `visit_Name` and other non-recursive visitors -/

/-- `DefUseChains.visit_Name`.  `Param` and `Store` contexts define;
`Load` and `Del` contexts are handled by one and the same branch that
resolves the reaching `Def`s and adds the use-site as their user. -/
def visitNameF (st : St) (nid : Nat) (s : String) (ctx : Ctx) : DefId × St :=
  match ctx with
  | .param | .store =>
      let dnode := (chainsSetdefault st nid (.nameNode nid s)).1
      let st := (chainsSetdefault st nid (.nameNode nid s)).2
      let st :=
        if st.globalsStk.any (fun g => s ∈ g) then setOrExtendGlobal st s dnode
        else
          let st := setDefinition st s (.one dnode)
          let scopeId := (topD st.scopes ⟨0, false⟩).id
          if dnode ∈ (aFind st.localTab scopeId).getD [] then st
          else localsAppend st scopeId dnode
      (dnode, st)
  | .load | .del =>
      let inChains := (aFind st.chains nid).isSome
      let dnode :=
        match aFind st.chains nid with
        | some d => d
        | none => (newDef st (.nameNode nid s)).1
      let st :=
        match aFind st.chains nid with
        | some _ => st
        | none => (newDef st (.nameNode nid s)).2
      let ds := (defsLookup st nid s false).1
      let st := (defsLookup st nid s false).2
      let st := ds.foldl (fun st d => addUser st d dnode) st
      let st := if inChains then st else { st with chains := nSet st.chains nid dnode }
      (dnode, st)

/-- `DefUseChains.visit_Nonlocal` for one declared name: scan the layers
below the top one, innermost first; alias the first binding found into
the top layer, or report the name unbound. -/
def nonlocalOne (st : St) (nid : Nat) (nm : String) : St :=
  match (st.definitions.dropLast.reverse).find?
      (fun l => layerHasKey st l nm) with
  | some l => setDefinition st nm (.many (layerEntry st l nm))
  | none => emitDiag st nm nid

/-- `DefUseChains.visit_Nonlocal`. -/
def visitNonlocal (st : St) (nid : Nat) (names : List String) : St :=
  names.foldl (fun st nm => nonlocalOne st nid nm) st

/-- `DefUseChains.visit_Global`. -/
def visitGlobal (st : St) (names : List String) : St :=
  let g := names.foldl addStr (topD st.globalsStk [])
  { st with globalsStk := setTop st.globalsStk g }

/-- `DefUseChains.visit_ImportFrom`. -/
def visitAliases (st : St) (aliases : List (Nat × String × Option String)) :
    St :=
  aliases.foldl (fun st p =>
    let dalias := (chainsSetdefault st p.1 (.aliasNode p.1 p.2.1 p.2.2)).1
    let st := (chainsSetdefault st p.1 (.aliasNode p.1 p.2.1 p.2.2)).2
    let st := setDefinition st (p.2.2.getD p.2.1) (.one dalias)
    localsAppend st (topD st.scopes ⟨0, false⟩).id dalias) st

/-- Visiting the parameter list in the definition step
(`visit_skip_annotation` on each argument `Name`). -/
def visitArgsList (st : St) (args : List (Nat × String)) : St :=
  args.foldl (fun st a => (visitNameF st a.1 a.2 .param).2) st

/-- The merge step of `visit_If`: for each name of the body layer, either
replace the top entry by the union of the two branch entries (when the
orelse layer binds it too) or extend the top entry; then extend with the
names only the orelse layer binds. -/
def ifMerge (st : St) (bl ol : LayerId) : St :=
  let bkeys := (getLayer st bl).map (fun p => p.1)
  let st := bkeys.foldl (fun st d =>
    if layerHasKey st ol d then
      setDefinition st d (.many (osetUnion (layerEntry st bl d) (layerEntry st ol d)))
    else
      extendDefinition st d (.many (layerEntry st bl d))) st
  let okeys := (getLayer st ol).map (fun p => p.1)
  okeys.foldl (fun st d =>
    if layerHasKey st bl d then st
    else extendDefinition st d (.many (layerEntry st ol d))) st

/-- Statements that start dead code in `process_body`
(`Break`/`Continue`/`Raise`; only `Raise` exists in the fragment). -/
def isDeadStarter : Stmt → Bool
  | .raiseStmt _ => true
  | _ => false

/-! ## The statement/expression walker -/

/- Termination measures for the mutual visitor recursion. -/
mutual
def esz : Expr → Nat
  | .name _ _ _ => 1
  | .const _ => 1
  | .binop _ l r => 1 + esz l + esz r
  | .attribute _ v => 1 + esz v
  | .lam _ _ _ _ => 1

def eszList : List Expr → Nat
  | [] => 0
  | e :: rest => 1 + esz e + eszList rest

def ssz : Stmt → Nat
  | .assign v ts => 1 + esz v + eszList ts
  | .augAssign t v => 1 + esz t + esz v
  | .exprStmt e => 1 + esz e
  | .ifStmt t b o => 2 + esz t + sszList b + sszList o
  | .functionDef _ _ _ defaults body => 2 + eszList defaults + sszList body
  | .classDef _ _ bases body => 2 + eszList bases + sszList body
  | .nonlocalStmt _ _ => 1
  | .globalStmt _ => 1
  | .delete ts => 1 + eszList ts
  | .raiseStmt (some e) => 1 + esz e
  | .raiseStmt none => 1
  | .importFrom _ => 1
  | .pass => 1

def sszList : List Stmt → Nat
  | [] => 0
  | s :: rest => 1 + ssz s + sszList rest
end

mutual
/-- Expression visitors of `DefUseChains` (each returns the expression's
`Def`).  `visit_Lambda` is the declaration step of the source: it only
allocates the lambda's `Def`. -/
def visitExpr : Expr → St → DefId × St
  | .name nid s ctx, st => visitNameF st nid s ctx
  | .const nid, st => chainsSetdefault st nid (.constNode nid)
  | .binop nid l r, st =>
      let dnode := (chainsSetdefault st nid (.binopNode nid)).1
      let st := (chainsSetdefault st nid (.binopNode nid)).2
      let dl := (visitExpr l st).1
      let st := addUser (visitExpr l st).2 dl dnode
      let dr := (visitExpr r st).1
      let st := addUser (visitExpr r st).2 dr dnode
      (dnode, st)
  | .attribute nid v, st =>
      let dnode := (chainsSetdefault st nid (.attrNode nid)).1
      let st := (chainsSetdefault st nid (.attrNode nid)).2
      let dv := (visitExpr v st).1
      (dnode, addUser (visitExpr v st).2 dv dnode)
  | .lam nid _ _ _, st => chainsSetdefault st nid (.lambdaNode nid)
termination_by e st => esz e
decreasing_by
  all_goals try simp only [esz, eszList, ssz, sszList]
  all_goals omega

/-- Visit a list of expressions for their side effects (assignment and
delete targets). -/
def visitExprList : List Expr → St → St
  | [], st => st
  | e :: rest, st => visitExprList rest (visitExpr e st).2
termination_by es st => eszList es
decreasing_by
  all_goals try simp only [esz, eszList, ssz, sszList]
  all_goals omega

/-- Visit a list of expressions, linking each resulting `Def` as a user of
`dnode` (`self.visit(x).add_user(dnode)`: used for function default
values and class bases). -/
def visitExprsAddUser : List Expr → DefId → St → St
  | [], _, st => st
  | e :: rest, dnode, st =>
      let d := (visitExpr e st).1
      visitExprsAddUser rest dnode (addUser (visitExpr e st).2 d dnode)
termination_by es d st => eszList es
decreasing_by
  all_goals try simp only [esz, eszList, ssz, sszList]
  all_goals omega

/-- Statement visitors of `DefUseChains`. -/
def visitStmt : Stmt → St → St
  | .assign v ts, st =>
      visitExprList ts (visitExpr v st).2
  | .augAssign tgt v, st =>
      let dvalue := (visitExpr v st).1
      let st := (visitExpr v st).2
      match tgt with
      | .name nid s _ =>
          let dtarget := (visitExpr (.name nid s .load) st).1
          let st := addUser (visitExpr (.name nid s .load) st).2 dvalue dtarget
          if st.globalsStk.any (fun g => s ∈ g) then
            extendGlobal st s (.one dtarget)
          else
            let ds := (defsLookup st nid s true).1
            let st := (defsLookup st nid s true).2
            let loadedFrom := ds.map (fun d => dnodeName (getDef st d).node)
            let st := setDefinition st s (.one dtarget)
            if "*" ∈ loadedFrom then
              localsAppend st (topD st.scopes ⟨0, false⟩).id dtarget
            else st
      | _ =>
          let dt := (visitExpr tgt st).1
          addUser (visitExpr tgt st).2 dt dvalue
  | .exprStmt e, st => (visitExpr e st).2
  | .ifStmt t b o, st => visitIf t b o st
  | .functionDef nid nm args defaults body, st =>
      visitFunctionDefDecl nid nm args defaults body st
  | .classDef nid nm bases body, st => visitClassDef nid nm bases body st
  | .nonlocalStmt nid names, st => visitNonlocal st nid names
  | .globalStmt names, st => visitGlobal st names
  | .delete ts, st => visitExprList ts st
  | .raiseStmt (some e), st => (visitExpr e st).2
  | .raiseStmt none, st => st
  | .importFrom aliases, st => visitAliases st aliases
  | .pass, st => st
termination_by s st => ssz s
decreasing_by
  all_goals try simp only [esz, eszList, ssz, sszList]
  all_goals omega

/-- `DefUseChains.visit_If`: visit the test, run each arm in a
`DefinitionContext` holding a copy of the current top layer, then merge
the two branch layers into the outer layer. -/
def visitIf (t : Expr) (b o : List Stmt) (st : St) : St :=
  let st := (visitExpr t st).2
  let bl := (copyLayer st (topD st.definitions 0)).1
  let st := (copyLayer st (topD st.definitions 0)).2
  let st := defCtxEnter st bl
  let st := processBodyGo b false st
  let st := defCtxExit st
  let ol := (copyLayer st (topD st.definitions 0)).1
  let st := (copyLayer st (topD st.definitions 0)).2
  let st := defCtxEnter st ol
  let st := processBodyGo o false st
  let st := defCtxExit st
  ifMerge st bl ol
termination_by 1 + esz t + sszList b + sszList o
decreasing_by
  all_goals try simp only [esz, eszList, ssz, sszList]
  all_goals omega

/-- `DefUseChains.visit_FunctionDef` in the declaration step: create the
function's `Def`, register it in the enclosing locals, visit defaults in
the enclosing scope as users of the function `Def`, define the name and
queue the node with a snapshot of the whole stack. -/
def visitFunctionDefDecl (nid : Nat) (nm : String)
    (args : List (Nat × String)) (defaults : List Expr)
    (body : List Stmt) (st : St) : St :=
  let dnode := (chainsSetdefault st nid (.funcNode nid nm)).1
  let st := (chainsSetdefault st nid (.funcNode nid nm)).2
  let st := localsAppend st (topD st.scopes ⟨0, false⟩).id dnode
  let st := visitExprsAddUser defaults dnode st
  let st := setDefinition st nm (.one dnode)
  let entry : Defered := ⟨.functionDef nid nm args defaults body,
    st.definitions, st.scopes, st.scopeDepths, st.precompLocals⟩
  { st with defered := st.defered ++ [entry] }
termination_by 1 + eszList defaults
decreasing_by
  all_goals try simp only [esz, eszList, ssz, sszList]
  all_goals omega

/-- `DefUseChains.visit_FunctionDef` in the definition step: enter the
function's scope, visit the parameters, process the body. -/
def visitFunctionDefDefn (nid : Nat) (nm : String)
    (args : List (Nat × String)) (defaults : List Expr)
    (body : List Stmt) (st : St) : St :=
  let st := scopePush st ⟨nid, false⟩ (collectLocalsFunc defaults body)
  let st := visitArgsList st args
  let st := processBodyGo body false st
  scopePop st

/-- `DefUseChains.visit_ClassDef`: create the class `Def`, register it in
the enclosing locals, link bases as its users, process the body eagerly in
a class scope seeded with a synthetic `__class__` definition, then define
the class name in the enclosing scope. -/
def visitClassDef (nid : Nat) (nm : String) (bases : List Expr)
    (body : List Stmt) (st : St) : St :=
  let dnode := (chainsSetdefault st nid (.classNode nid nm)).1
  let st := (chainsSetdefault st nid (.classNode nid nm)).2
  let st := localsAppend st (topD st.scopes ⟨0, false⟩).id dnode
  let st := visitExprsAddUser bases dnode st
  let st := scopePush st ⟨nid, true⟩ (collectLocalsClass bases body)
  let cd := (newDef st (.strNode "__class__")).1
  let st := setDefinition (newDef st (.strNode "__class__")).2 "__class__" (.one cd)
  let st := processBodyGo body false st
  let st := scopePop st
  setDefinition st nm (.one dnode)
termination_by 1 + eszList bases + sszList body
decreasing_by
  all_goals try simp only [esz, eszList, ssz, sszList]
  all_goals omega

/-- `DefUseChains.process_body`: visit the statements of a body, entering
dead code after the first `Break`/`Continue`/`Raise` and restoring the
counter when the body ends.  The flag is the local `deadcode` boolean of
the source. -/
def processBodyGo : List Stmt → Bool → St → St
  | [], flag, st =>
      if flag then { st with deadcode := st.deadcode - 1 } else st
  | s :: rest, flag, st =>
      if isDeadStarter s && !flag then
        processBodyGo rest true
          (visitStmt s { st with deadcode := st.deadcode + 1 })
      else
        processBodyGo rest flag (visitStmt s st)
termination_by stmts flag st => sszList stmts
decreasing_by
  all_goals try simp only [esz, eszList, ssz, sszList]
  all_goals omega
end

/-- `DefUseChains.process_body`. -/
def processBody (stmts : List Stmt) (st : St) : St :=
  processBodyGo stmts false st

/-! ## `visit_Module` and the deferred-function drain -/

/-- `SwitchScopeContext.__enter__`: swap in the snapshot stacks (the
globals stack is not switched). -/
def switchSt (st : St) (e : Defered) : St :=
  { st with definitions := e.defs, scopes := e.scopes,
            scopeDepths := e.depths, precompLocals := e.plocals }

/-- `SwitchScopeContext.__exit__`: swap the saved stacks back. -/
def restoreSt (st saved : St) : St :=
  { st with definitions := saved.definitions, scopes := saved.scopes,
            scopeDepths := saved.scopeDepths,
            precompLocals := saved.precompLocals }

/-- One iteration of the deferred-function loop of `visit_Module`:
restore the snapshot with `SwitchScopeContext`, run the definition step,
and swap back. -/
def drainStep (st : St) (e : Defered) : St :=
  let st1 := switchSt st e
  let st2 :=
    match e.fnode with
    | .functionDef nid nm args defaults body =>
        visitFunctionDefDefn nid nm args defaults body st1
    | _ => st1
  restoreSt st2 st

/-- The deferred-function loop: `for fnode, ... in self._defered`.  The
Python loop iterates over a list that grows while being iterated, so the
model walks it by index; the fuel bounds the number of iterations and is
immaterial whenever it exceeds the final queue length. -/
def drain : Nat → Nat → St → St
  | 0, _, st => st
  | fuel + 1, i, st =>
      match st.defered.get? i with
      | some e => drain fuel (i + 1) (drainStep st e)
      | none => st

/-- The analyzer's initial state (`DefUseChains.__init__` with the given
builtin names: a fresh `Def` per builtin, every table and stack empty). -/
def initSt (bnames : List String) : St :=
  let arena := bnames.map (fun s => (⟨.builtinNode s, []⟩ : DefRec))
  { defArena := arena
    cellArena := []
    layerArena := []
    chains := []
    localTab := []
    builtins := bnames.zip (List.range bnames.length)
    defered := []
    definitions := []
    scopeDepths := []
    globalsStk := []
    precompLocals := []
    undefs := []
    scopes := []
    deadcode := 0
    diags := []
    moduleId := 0 }

/-- `DefUseChains.visit_Module`: enter the module scope, seed the builtin
definitions into its base layer, process the body, drain the deferred
functions inside their saved stack snapshots, and leave the scope. -/
def visitModule (fuel : Nat) (bnames : List String) (m : Mod) : St :=
  let st := initSt bnames
  let st := { st with moduleId := m.id }
  let st := scopePush st ⟨m.id, false⟩ (collectLocalsBody m.body)
  let bs := st.builtins
  let st := bs.foldl (fun st p =>
    layerSetItem (newCell st [p.2]).2 (topD st.definitions 0) p.1
      (newCell st [p.2]).1) st
  let st := processBody m.body st
  let st := drain fuel 0 st
  scopePop st

/-- Run the analyzer on a module with ample fuel for the drain loop
(one unit per statement is more than one per possible queue entry). -/
def runModule (bnames : List String) (m : Mod) : St :=
  visitModule (sszList m.body + 1) bnames m

/-! ## The inverse chain builder (`UseDefChains`) -/

/-- `dict.setdefault(k, [])` on the inverse table. -/
def udSetdefault (m : List (DNode × List DefId)) (k : DNode) :
    List (DNode × List DefId) :=
  if (m.find? (fun p => p.1 = k)).isSome then m else m ++ [(k, [])]

/-- `self.chains.setdefault(use.node, []).append(chain)`. -/
def udAppend (m : List (DNode × List DefId)) (k : DNode) (v : DefId) :
    List (DNode × List DefId) :=
  let m := udSetdefault m k
  m.map (fun p => if p.1 = k then (p.1, p.2 ++ [v]) else p)

/-- Whether a wrapped node is an `ast.Name`. -/
def isNameNode : DNode → Bool
  | .nameNode _ _ => true
  | _ => false

/-- `UseDefChains.__init__`: transpose def→users into use→defs, keying
by the user's node.  Every `Name`-node `Def` of `chains` gets an entry
even without recorded defining `Def`s; builtin `Def`s' users are folded
in afterwards. -/
def useDefChains (st : St) : List (DNode × List DefId) :=
  let m := st.chains.foldl (fun m p =>
    let chainNode := (getDef st p.2).node
    let m := if isNameNode chainNode then udSetdefault m chainNode else m
    (usersOf st p.2).foldl
      (fun m u => udAppend m (getDef st u).node p.2) m) []
  st.builtins.foldl (fun m p =>
    (usersOf st p.2).foldl
      (fun m u => udAppend m (getDef st u).node p.2) m) m

/-! ## Basic lemmas about the primitive operations -/

/-- The `Def` values recorded in `chains`. -/
def chainVals (st : St) : List DefId := st.chains.map (fun p => p.2)

/-- The `Def` values recorded in `locals`. -/
def localVals (st : St) : List DefId := st.localTab.flatMap (fun p => p.2)

/-- The reachability invariant of the def-use graph: every user of any
`Def` of the arena is a value of `chains`, and every `Def` of a `locals`
list is a value of `chains`. -/
def Inv (st : St) : Prop :=
  (∀ i u, u ∈ usersOf st i → u ∈ chainVals st) ∧
  (∀ d, d ∈ localVals st → d ∈ chainVals st)

/-- Fields untouched by an operation: the three tables (`Def` arena,
`chains`, `locals`), the five analysis stacks and the dead-code counter. -/
def Keep (a b : St) : Prop :=
  b.defArena = a.defArena ∧ b.chains = a.chains ∧ b.localTab = a.localTab ∧
  b.definitions = a.definitions ∧ b.scopes = a.scopes ∧
  b.scopeDepths = a.scopeDepths ∧ b.globalsStk = a.globalsStk ∧
  b.precompLocals = a.precompLocals ∧ b.deadcode = a.deadcode

theorem keep_refl (a : St) : Keep a a := by
  unfold Keep; exact ⟨rfl, rfl, rfl, rfl, rfl, rfl, rfl, rfl, rfl⟩

theorem keep_trans {a b c : St} (h1 : Keep a b) (h2 : Keep b c) : Keep a c := by
  unfold Keep at *
  obtain ⟨p1, p2, p3, p4, p5, p6, p7, p8, p9⟩ := h1
  obtain ⟨q1, q2, q3, q4, q5, q6, q7, q8, q9⟩ := h2
  exact ⟨q1.trans p1, q2.trans p2, q3.trans p3, q4.trans p4, q5.trans p5,
    q6.trans p6, q7.trans p7, q8.trans p8, q9.trans p9⟩

theorem inv_of_keep {a b : St} (h : Keep a b) (hi : Inv a) : Inv b := by
  unfold Keep at h
  unfold Inv at *
  unfold usersOf getDef chainVals localVals at *
  rw [h.1, h.2.1, h.2.2.1]
  exact hi

theorem chainVals_of_keep {a b : St} (h : Keep a b) : chainVals b = chainVals a := by
  unfold chainVals; rw [h.2.1]

theorem keep_newCell (st : St) (c : List DefId) : Keep st (newCell st c).2 := by
  unfold Keep newCell; simp

theorem keep_cellExtend (st : St) (c : CellId) (ds : List DefId) :
    Keep st (cellExtend st c ds) := by
  unfold cellExtend
  cases st.cellArena.get? c <;> simp [Keep]

theorem keep_newLayer (st : St) : Keep st (newLayer st).2 := by
  unfold Keep newLayer; simp

theorem keep_copyLayer (st : St) (l : LayerId) : Keep st (copyLayer st l).2 := by
  unfold Keep copyLayer; simp

theorem keep_layerSetItem (st : St) (l : LayerId) (k : String) (c : CellId) :
    Keep st (layerSetItem st l k c) := by
  unfold layerSetItem
  cases st.layerArena.get? l <;> simp [Keep]

theorem keep_addToDefinition (st : St) (l : LayerId) (k : String) (src : DSrc) :
    Keep st (addToDefinition st l k src) := by
  unfold addToDefinition
  cases sFind (getLayer st l) k with
  | some c => exact keep_cellExtend ..
  | none =>
      exact keep_trans (keep_newCell ..)
        (keep_trans (keep_layerSetItem ..) (keep_cellExtend ..))

theorem keep_setDefinition (st : St) (k : String) (src : DSrc) :
    Keep st (setDefinition st k src) := by
  unfold setDefinition
  split
  · exact keep_refl st
  · exact keep_trans (keep_newCell ..) (keep_layerSetItem ..)

theorem keep_extendDefinition (st : St) (k : String) (src : DSrc) :
    Keep st (extendDefinition st k src) := by
  unfold extendDefinition
  split
  · exact keep_refl st
  · exact keep_addToDefinition ..

theorem keep_extendGlobal (st : St) (k : String) (src : DSrc) :
    Keep st (extendGlobal st k src) := by
  unfold extendGlobal
  split
  · exact keep_refl st
  · exact keep_addToDefinition ..

theorem keep_emitDiag (st : St) (nm : String) (nid : Nat) :
    Keep st (emitDiag st nm nid) := by
  unfold Keep emitDiag; simp

theorem keep_nonlocalOne (st : St) (nid : Nat) (nm : String) :
    Keep st (nonlocalOne st nid nm) := by
  unfold nonlocalOne
  cases (st.definitions.dropLast.reverse).find? (fun l => layerHasKey st l nm) with
  | some l => exact keep_setDefinition ..
  | none => exact keep_emitDiag ..

theorem keep_visitNonlocal (st : St) (nid : Nat) (names : List String) :
    Keep st (visitNonlocal st nid names) := by
  unfold visitNonlocal
  induction names generalizing st with
  | nil => exact keep_refl st
  | cons n rest ih => exact keep_trans (keep_nonlocalOne ..) (ih _)

theorem keep_foldl {α : Type} (f : St → α → St)
    (h : ∀ s x, Keep s (f s x)) :
    ∀ (l : List α) (s : St), Keep s (l.foldl f s) := by
  intro l
  induction l with
  | nil => intro s; exact keep_refl s
  | cons x rest ih => intro s; exact keep_trans (h s x) (ih (f s x))

theorem keep_ifMerge (st : St) (bl ol : LayerId) : Keep st (ifMerge st bl ol) := by
  unfold ifMerge
  refine keep_trans (keep_foldl _ ?_ _ _) (keep_foldl _ ?_ _ _)
  · intro s x
    split
    · exact keep_setDefinition ..
    · exact keep_extendDefinition ..
  · intro s x
    split
    · exact keep_refl s
    · exact keep_extendDefinition ..

/-! ## Invariant-step lemmas -/

/-- One analysis step seen from the reachability invariant: the recorded
chain values only grow and the invariant is preserved. -/
def InvStep (a b : St) : Prop :=
  (∀ v, v ∈ chainVals a → v ∈ chainVals b) ∧ (Inv a → Inv b)

theorem invStep_refl (a : St) : InvStep a a := ⟨fun _ h => h, fun h => h⟩

theorem invStep_trans {a b c : St} (h1 : InvStep a b) (h2 : InvStep b c) :
    InvStep a c :=
  ⟨fun v hv => h2.1 v (h1.1 v hv), fun h => h2.2 (h1.2 h)⟩

theorem invStep_of_keep {a b : St} (h : Keep a b) : InvStep a b := by
  refine ⟨?_, inv_of_keep h⟩
  intro v hv
  rw [chainVals_of_keep h]
  exact hv

theorem usersOf_eq (st : St) (i : Nat) :
    usersOf st i = (st.defArena[i]?.getD ⟨.strNode "", []⟩).users := by
  unfold usersOf getDef
  rw [List.getD_eq_getElem?_getD]

theorem usersOf_mem_newDef {st : St} {n : DNode} {i u : Nat}
    (h : u ∈ usersOf (newDef st n).2 i) : u ∈ usersOf st i := by
  rw [usersOf_eq] at h ⊢
  unfold newDef at h
  simp only [List.getElem?_append] at h
  split at h
  · exact h
  · cases hj : i - st.defArena.length with
    | zero => rw [hj] at h; simp at h
    | succ j => rw [hj] at h; simp at h

theorem usersOf_mem_addUser {st : St} {d u' : DefId} {i u : Nat}
    (h : u ∈ usersOf (addUser st d u') i) : u ∈ usersOf st i ∨ u = u' := by
  unfold addUser at h
  cases hg : st.defArena.get? d with
  | none => rw [hg] at h; exact .inl h
  | some r =>
      rw [hg] at h
      have hg2 : st.defArena[d]? = some r := by
        rw [← List.get?_eq_getElem?]; exact hg
      have hd : d < st.defArena.length := (List.getElem?_eq_some_iff.mp hg2).1
      rw [usersOf_eq] at h ⊢
      simp only [List.getElem?_set] at h
      split at h
      next heq =>
        subst heq
        simp only [if_pos hd, Option.getD_some] at h
        unfold osetAdd at h
        rw [hg2]
        split at h
        · exact .inl h
        · rcases List.mem_append.mp h with h1 | h1
          · exact .inl h1
          · right; simpa using h1
      · exact .inl h

theorem addUser_rest (st : St) (d u : DefId) :
    (addUser st d u).chains = st.chains ∧
    (addUser st d u).localTab = st.localTab ∧
    (addUser st d u).definitions = st.definitions ∧
    (addUser st d u).scopes = st.scopes ∧
    (addUser st d u).scopeDepths = st.scopeDepths ∧
    (addUser st d u).globalsStk = st.globalsStk ∧
    (addUser st d u).precompLocals = st.precompLocals ∧
    (addUser st d u).deadcode = st.deadcode ∧
    (addUser st d u).cellArena = st.cellArena ∧
    (addUser st d u).layerArena = st.layerArena ∧
    (addUser st d u).undefs = st.undefs ∧
    (addUser st d u).diags = st.diags ∧
    (addUser st d u).builtins = st.builtins ∧
    (addUser st d u).defered = st.defered ∧
    (addUser st d u).moduleId = st.moduleId := by
  unfold addUser
  cases st.defArena.get? d <;> simp

theorem invStep_addUser {st : St} {d u : DefId} (hu : u ∈ chainVals st) :
    InvStep st (addUser st d u) := by
  have hr := addUser_rest st d u
  have hc : chainVals (addUser st d u) = chainVals st := by
    unfold chainVals; rw [hr.1]
  refine ⟨fun v hv => by rw [hc]; exact hv, ?_⟩
  intro hi
  constructor
  · intro i v hv
    rw [hc]
    rcases usersOf_mem_addUser hv with h | h
    · exact hi.1 i v h
    · subst h; exact hu
  · intro v hv
    rw [hc]
    refine hi.2 v ?_
    unfold localVals at *
    rw [hr.2.1] at hv
    exact hv

/-- The five analysis stacks and the dead-code counter, untouched. -/
def SameStacks (a b : St) : Prop :=
  b.definitions = a.definitions ∧ b.scopes = a.scopes ∧
  b.scopeDepths = a.scopeDepths ∧ b.globalsStk = a.globalsStk ∧
  b.precompLocals = a.precompLocals ∧ b.deadcode = a.deadcode

theorem sameStacks_refl (a : St) : SameStacks a a :=
  ⟨rfl, rfl, rfl, rfl, rfl, rfl⟩

theorem sameStacks_trans {a b c : St} (h1 : SameStacks a b)
    (h2 : SameStacks b c) : SameStacks a c := by
  unfold SameStacks at *
  obtain ⟨p1, p2, p3, p4, p5, p6⟩ := h1
  obtain ⟨q1, q2, q3, q4, q5, q6⟩ := h2
  exact ⟨q1.trans p1, q2.trans p2, q3.trans p3, q4.trans p4, q5.trans p5,
    q6.trans p6⟩

theorem sameStacks_of_keep {a b : St} (h : Keep a b) : SameStacks a b := by
  unfold Keep at h
  exact ⟨h.2.2.2.1, h.2.2.2.2.1, h.2.2.2.2.2.1, h.2.2.2.2.2.2.1,
    h.2.2.2.2.2.2.2.1, h.2.2.2.2.2.2.2.2⟩

theorem aFind_val_mem {α : Type} {l : List (Nat × α)} {k : Nat} {v : α}
    (h : aFind l k = some v) : v ∈ l.map (fun p => p.2) := by
  unfold aFind at h
  cases hf : l.find? (fun p => p.1 = k) with
  | none => rw [hf] at h; cases h
  | some p =>
      rw [hf] at h
      cases h
      exact List.mem_map_of_mem _ (List.mem_of_find?_eq_some hf)

theorem aFind_none_keys {α : Type} {l : List (Nat × α)} {k : Nat}
    (h : aFind l k = none) : ∀ p ∈ l, p.1 ≠ k := by
  unfold aFind at h
  cases hf : l.find? (fun p => p.1 = k) with
  | none =>
      intro p hp
      have := List.find?_eq_none.mp hf p hp
      simpa using this
  | some p => rw [hf] at h; cases h

theorem newDef_rest (st : St) (n : DNode) :
    (newDef st n).2.chains = st.chains ∧
    (newDef st n).2.localTab = st.localTab ∧
    SameStacks st (newDef st n).2 := by
  unfold newDef SameStacks; simp

theorem invStep_newDef (st : St) (n : DNode) : InvStep st (newDef st n).2 := by
  have hr := newDef_rest st n
  have hc : chainVals (newDef st n).2 = chainVals st := by
    unfold chainVals; rw [hr.1]
  refine ⟨fun v hv => by rw [hc]; exact hv, ?_⟩
  intro hi
  constructor
  · intro i u hu
    rw [hc]
    exact hi.1 i u (usersOf_mem_newDef hu)
  · intro v hv
    rw [hc]
    refine hi.2 v ?_
    unfold localVals at *
    rw [hr.2.1] at hv
    exact hv

theorem mem_localVals_of {st : St} {p : Nat × List DefId} {v : Nat}
    (hp : p ∈ st.localTab) (hv : v ∈ p.2) : v ∈ localVals st := by
  unfold localVals
  rw [List.mem_flatMap]
  exact ⟨p, hp, hv⟩

theorem mem_localVals_aFind {st : St} {k : Nat} {l : List DefId} {v : Nat}
    (hfa : aFind st.localTab k = some l) (hv : v ∈ l) : v ∈ localVals st := by
  unfold aFind at hfa
  cases hff : st.localTab.find? (fun p => p.1 = k) with
  | none => rw [hff] at hfa; cases hfa
  | some p0 =>
      rw [hff] at hfa
      cases hfa
      exact mem_localVals_of (List.mem_of_find?_eq_some hff) hv

theorem chainsSetdefault_spec (st : St) (nid : Nat) (n : DNode) :
    InvStep st (chainsSetdefault st nid n).2 ∧
    (chainsSetdefault st nid n).1 ∈ chainVals (chainsSetdefault st nid n).2 ∧
    (chainsSetdefault st nid n).2.localTab = st.localTab ∧
    SameStacks st (chainsSetdefault st nid n).2 ∧
    (∀ i u, u ∈ usersOf (chainsSetdefault st nid n).2 i → u ∈ usersOf st i) ∧
    ((chainsSetdefault st nid n).2.chains = st.chains ∨
      (aFind st.chains nid = none ∧
       (chainsSetdefault st nid n).2.chains =
         st.chains ++ [(nid, st.defArena.length)])) ∧
    (chainsSetdefault st nid n).2.cellArena = st.cellArena ∧
    (chainsSetdefault st nid n).2.layerArena = st.layerArena ∧
    (chainsSetdefault st nid n).2.undefs = st.undefs ∧
    (chainsSetdefault st nid n).2.diags = st.diags := by
  cases hf : aFind st.chains nid with
  | some d =>
      have he : chainsSetdefault st nid n = (d, st) := by
        unfold chainsSetdefault; rw [hf]
      rw [he]
      exact ⟨invStep_refl st, aFind_val_mem hf, rfl, sameStacks_refl st,
        fun _ _ h => h, .inl rfl, rfl, rfl, rfl, rfl⟩
  | none =>
      have he : chainsSetdefault st nid n =
          ((newDef st n).1, { (newDef st n).2 with
            chains := (newDef st n).2.chains ++ [(nid, (newDef st n).1)] }) := by
        unfold chainsSetdefault; rw [hf]
      have hr := newDef_rest st n
      have h1 : (newDef st n).1 = st.defArena.length := rfl
      rw [he]
      set B := (newDef st n).2 with hB
      have hcv : ∀ v, v ∈ chainVals B → v ∈
          chainVals { B with chains := B.chains ++ [(nid, (newDef st n).1)] } := by
        intro v hv
        unfold chainVals at *
        simp only [List.map_append]
        exact List.mem_append_left _ hv
      constructor
      · -- InvStep
        refine invStep_trans (invStep_newDef st n) ?_
        refine ⟨hcv, ?_⟩
        intro hi
        constructor
        · intro i u hu
          exact hcv u (hi.1 i u hu)
        · intro v hv
          exact hcv v (hi.2 v hv)
      · refine ⟨?_, hr.2.1, hr.2.2, ?_,
          .inr ⟨rfl, by rw [hr.1, h1]⟩, ?_, ?_, ?_, ?_⟩
        · unfold chainVals
          simp only [List.map_append]
          refine List.mem_append_right _ ?_
          simp
        · intro i u hu
          exact usersOf_mem_newDef hu
        all_goals simp [hB, newDef]

theorem mem_entry_localsAppend {st : St} {sid d v : Nat}
    (h : v ∈ (aFind st.localTab sid).getD [] ++ [d]) :
    v ∈ localVals st ∨ v = d := by
  rcases List.mem_append.mp h with h1 | h1
  · cases hfa : aFind st.localTab sid with
    | none => rw [hfa] at h1; simp at h1
    | some l =>
        rw [hfa] at h1
        simp only [Option.getD_some] at h1
        exact .inl (mem_localVals_aFind hfa h1)
  · right; simpa using h1

theorem localVals_mem_localsAppend {st : St} {sid d v : Nat}
    (h : v ∈ localVals (localsAppend st sid d)) : v ∈ localVals st ∨ v = d := by
  unfold localsAppend localVals nSet at h
  simp only at h
  split at h
  · rw [List.mem_flatMap] at h
    obtain ⟨p, hp, hv⟩ := h
    rw [List.mem_map] at hp
    obtain ⟨q, hq, hpq⟩ := hp
    by_cases hqk : q.1 = sid
    · rw [if_pos hqk] at hpq
      subst hpq
      simp only at hv
      exact mem_entry_localsAppend hv
    · rw [if_neg hqk] at hpq
      subst hpq
      exact .inl (mem_localVals_of hq hv)
  · rw [List.mem_flatMap] at h
    obtain ⟨p, hp, hv⟩ := h
    rcases List.mem_append.mp hp with h1 | h1
    · exact .inl (mem_localVals_of h1 hv)
    · simp only [List.mem_singleton] at h1
      subst h1
      simp only at hv
      exact mem_entry_localsAppend hv

theorem localsAppend_rest (st : St) (sid d : Nat) :
    (localsAppend st sid d).defArena = st.defArena ∧
    (localsAppend st sid d).chains = st.chains ∧
    SameStacks st (localsAppend st sid d) := by
  unfold localsAppend SameStacks; simp

theorem invStep_localsAppend {st : St} {sid d : Nat} (hd : d ∈ chainVals st) :
    InvStep st (localsAppend st sid d) := by
  have hr := localsAppend_rest st sid d
  have hc : chainVals (localsAppend st sid d) = chainVals st := by
    unfold chainVals; rw [hr.2.1]
  have hu : ∀ i u, u ∈ usersOf (localsAppend st sid d) i → u ∈ usersOf st i := by
    intro i u h
    rw [usersOf_eq] at h ⊢
    rw [hr.1] at h
    exact h
  refine ⟨fun v hv => by rw [hc]; exact hv, ?_⟩
  intro hi
  constructor
  · intro i u h
    rw [hc]
    exact hi.1 i u (hu i u h)
  · intro v hv
    rw [hc]
    rcases localVals_mem_localsAppend hv with h | h
    · exact hi.2 v h
    · subst h; exact hd

theorem inv_congr {a b : St} (h1 : b.defArena = a.defArena)
    (h2 : b.chains = a.chains) (h3 : b.localTab = a.localTab) :
    Inv a → Inv b := by
  intro hi
  unfold Inv usersOf getDef chainVals localVals at *
  rw [h1, h2, h3]
  exact hi

theorem invStep_congr {a b : St} (h1 : b.defArena = a.defArena)
    (h2 : b.chains = a.chains) (h3 : b.localTab = a.localTab) :
    InvStep a b := by
  refine ⟨?_, inv_congr h1 h2 h3⟩
  intro v hv
  unfold chainVals at *
  rw [h2]
  exact hv

theorem setOrExtendGlobal_spec {st : St} {k : String} {d : DefId}
    (hd : d ∈ chainVals st) :
    InvStep st (setOrExtendGlobal st k d) ∧
    SameStacks st (setOrExtendGlobal st k d) ∧
    (setOrExtendGlobal st k d).chains = st.chains ∧
    (setOrExtendGlobal st k d).defArena = st.defArena := by
  unfold setOrExtendGlobal
  split
  · exact ⟨invStep_refl st, sameStacks_refl st, rfl, rfl⟩
  · split
    · have hk := keep_addToDefinition st (st.definitions.headD 0) k (.one d)
      exact ⟨invStep_of_keep hk, sameStacks_of_keep hk, hk.2.1, hk.1⟩
    · set st1 := localsAppend st st.moduleId d with hst1
      have hr := localsAppend_rest st st.moduleId d
      have hk := keep_addToDefinition st1 (st1.definitions.headD 0) k (.one d)
      refine ⟨invStep_trans (invStep_localsAppend hd) (invStep_of_keep hk),
        sameStacks_trans hr.2.2 (sameStacks_of_keep hk), ?_, ?_⟩
      · rw [hk.2.1, hr.2.1]
      · rw [hk.1, hr.1]

theorem foldlAddUser_rest (ds : List DefId) (dnode : DefId) :
    ∀ st : St,
      (ds.foldl (fun s d => addUser s d dnode) st).chains = st.chains ∧
      (ds.foldl (fun s d => addUser s d dnode) st).localTab = st.localTab ∧
      SameStacks st (ds.foldl (fun s d => addUser s d dnode) st) ∧
      (ds.foldl (fun s d => addUser s d dnode) st).cellArena = st.cellArena ∧
      (ds.foldl (fun s d => addUser s d dnode) st).layerArena = st.layerArena := by
  induction ds with
  | nil => intro st; exact ⟨rfl, rfl, sameStacks_refl st, rfl, rfl⟩
  | cons x rest ih =>
      intro st
      have ha := addUser_rest st x dnode
      have hr := ih (addUser st x dnode)
      simp only [List.foldl_cons]
      refine ⟨hr.1.trans ha.1, hr.2.1.trans ha.2.1, ?_, hr.2.2.2.1.trans ha.2.2.2.2.2.2.2.2.1,
        hr.2.2.2.2.trans ha.2.2.2.2.2.2.2.2.2.1⟩
      refine sameStacks_trans ?_ hr.2.2.1
      exact ⟨ha.2.2.1, ha.2.2.2.1, ha.2.2.2.2.1, ha.2.2.2.2.2.1,
        ha.2.2.2.2.2.2.1, ha.2.2.2.2.2.2.2.1⟩

theorem foldlAddUser_users {ds : List DefId} {dnode : DefId} :
    ∀ {st : St} {i u : Nat},
      u ∈ usersOf (ds.foldl (fun s d => addUser s d dnode) st) i →
      u ∈ usersOf st i ∨ u = dnode := by
  induction ds with
  | nil => intro st i u h; exact .inl h
  | cons x rest ih =>
      intro st i u h
      simp only [List.foldl_cons] at h
      rcases ih h with h1 | h1
      · exact usersOf_mem_addUser h1
      · exact .inr h1

theorem invStep_foldlAddUser {ds : List DefId} {dnode : DefId} {st : St}
    (hd : dnode ∈ chainVals st) :
    InvStep st (ds.foldl (fun s d => addUser s d dnode) st) := by
  have hr := foldlAddUser_rest ds dnode st
  have hc : chainVals (ds.foldl (fun s d => addUser s d dnode) st) =
      chainVals st := by
    unfold chainVals; rw [hr.1]
  refine ⟨fun v hv => by rw [hc]; exact hv, ?_⟩
  intro hi
  constructor
  · intro i u h
    rw [hc]
    rcases foldlAddUser_users h with h1 | h1
    · exact hi.1 i u h1
    · subst h1; exact hd
  · intro v hv
    rw [hc]
    refine hi.2 v ?_
    unfold localVals at *
    rw [hr.2.1] at hv
    exact hv

theorem defsLookup_found {st : St} {nid : Nat} {nm : String} {q : Bool}
    {ds : List DefId} (h : defsResolution st nm = .inl ds) :
    defsLookup st nid nm q = (ds, st) := by
  unfold defsLookup
  rw [h]

theorem defsLookup_spec (st : St) (nid : Nat) (nm : String) (q : Bool) :
    InvStep st (defsLookup st nid nm q).2 ∧
    SameStacks st (defsLookup st nid nm q).2 ∧
    (defsLookup st nid nm q).2.localTab = st.localTab ∧
    (defsLookup st nid nm q).2.cellArena = st.cellArena ∧
    (defsLookup st nid nm q).2.layerArena = st.layerArena ∧
    (defsLookup st nid nm q).2.definitions = st.definitions ∧
    (∀ i u, u ∈ usersOf (defsLookup st nid nm q).2 i → u ∈ usersOf st i) ∧
    ((defsLookup st nid nm q).2.chains = st.chains ∨
      (aFind st.chains nid = none ∧
       (defsLookup st nid nm q).2.chains =
         st.chains ++ [(nid, st.defArena.length)])) := by
  unfold defsLookup
  cases hres : defsResolution st nm with
  | inl ds =>
      exact ⟨invStep_refl st, sameStacks_refl st, rfl, rfl, rfl, rfl,
        fun _ _ h => h, .inl rfl⟩
  | inr stars =>
      have hc := chainsSetdefault_spec st nid (.nameNode nid nm)
      simp only
      set st1 := (chainsSetdefault st nid (.nameNode nid nm)).2 with hst1
      set d0 := (chainsSetdefault st nid (.nameNode nid nm)).1 with hd0
      set st2 := if st1.undefs.isEmpty then st1
        else
          let frame := topD st1.undefs []
          let entry := (sFind frame nm).getD [] ++ [(d0, stars)]
          { st1 with undefs := setTop st1.undefs (sSet frame nm entry) } with hst2
      have h12 : st2.defArena = st1.defArena ∧ st2.chains = st1.chains ∧
          st2.localTab = st1.localTab ∧ SameStacks st1 st2 ∧
          st2.cellArena = st1.cellArena ∧ st2.layerArena = st1.layerArena ∧
          st2.definitions = st1.definitions := by
        rw [hst2]
        split
        · exact ⟨rfl, rfl, rfl, sameStacks_refl st1, rfl, rfl, rfl⟩
        · exact ⟨rfl, rfl, rfl, ⟨rfl, rfl, rfl, rfl, rfl, rfl⟩, rfl, rfl, rfl⟩
      have hs1 : SameStacks st st1 := hc.2.2.2.1
      have hdef1 : st1.definitions = st.definitions := hs1.1
      have husers1 := hc.2.2.2.2.1
      have hchain1 := hc.2.2.2.2.2.1
      have hres1 : InvStep st st2 ∧ SameStacks st st2 ∧
          st2.localTab = st.localTab ∧ st2.cellArena = st.cellArena ∧
          st2.layerArena = st.layerArena ∧ st2.definitions = st.definitions ∧
          (∀ i u, u ∈ usersOf st2 i → u ∈ usersOf st i) ∧
          (st2.chains = st.chains ∨
            (aFind st.chains nid = none ∧
             st2.chains = st.chains ++ [(nid, st.defArena.length)])) := by
        refine ⟨invStep_trans hc.1 (invStep_congr h12.1 h12.2.1 h12.2.2.1),
          sameStacks_trans hs1 h12.2.2.2.1, ?_, ?_, ?_, ?_, ?_, ?_⟩
        · rw [h12.2.2.1, hc.2.2.1]
        · rw [h12.2.2.2.2.1]; exact hc.2.2.2.2.2.2.1
        · rw [h12.2.2.2.2.2.1]; exact hc.2.2.2.2.2.2.2.1
        · rw [h12.2.2.2.2.2.2, hdef1]
        · intro i u h
          rw [usersOf_eq] at h
          rw [h12.1] at h
          rw [← usersOf_eq] at h
          exact husers1 i u h
        · rw [h12.2.1]; exact hchain1
      split
      · -- stars empty: an optional diagnostic, then return ([d], st3)
        set st3 := if st2.undefs.isEmpty && !q then emitDiag st2 nm nid else st2
          with hst3
        have h23 : st3.defArena = st2.defArena ∧ st3.chains = st2.chains ∧
            st3.localTab = st2.localTab ∧ SameStacks st2 st3 ∧
            st3.cellArena = st2.cellArena ∧ st3.layerArena = st2.layerArena ∧
            st3.definitions = st2.definitions := by
          rw [hst3]
          split
          · exact ⟨rfl, rfl, rfl, ⟨rfl, rfl, rfl, rfl, rfl, rfl⟩, rfl, rfl, rfl⟩
          · exact ⟨rfl, rfl, rfl, sameStacks_refl st2, rfl, rfl, rfl⟩
        refine ⟨invStep_trans hres1.1 (invStep_congr h23.1 h23.2.1 h23.2.2.1),
          sameStacks_trans hres1.2.1 h23.2.2.2.1, ?_, ?_, ?_, ?_, ?_, ?_⟩
        · rw [h23.2.2.1]; exact hres1.2.2.1
        · rw [h23.2.2.2.2.1]; exact hres1.2.2.2.1
        · rw [h23.2.2.2.2.2.1]; exact hres1.2.2.2.2.1
        · rw [h23.2.2.2.2.2.2]; exact hres1.2.2.2.2.2.1
        · intro i u h
          rw [usersOf_eq] at h
          rw [h23.1] at h
          rw [← usersOf_eq] at h
          exact hres1.2.2.2.2.2.2.1 i u h
        · rw [h23.2.1]; exact hres1.2.2.2.2.2.2.2
      · exact hres1

theorem aFind_find?_none {α : Type} {l : List (Nat × α)} {k : Nat}
    (h : aFind l k = none) : l.find? (fun p => p.1 = k) = none := by
  unfold aFind at h
  cases hf : l.find? (fun p => p.1 = k) with
  | none => rfl
  | some p => rw [hf] at h; cases h

theorem nSet_of_none {α : Type} {l : List (Nat × α)} {k : Nat} {v : α}
    (h : aFind l k = none) : nSet l k v = l ++ [(k, v)] := by
  unfold nSet
  rw [aFind_find?_none h]
  simp

theorem nSet_append_of_none {α : Type} {l : List (Nat × α)} {k : Nat}
    {d1 v : α} (h : aFind l k = none) :
    nSet (l ++ [(k, d1)]) k v = l ++ [(k, v)] := by
  unfold nSet
  rw [List.find?_append, aFind_find?_none h]
  simp only [Option.none_or]
  have hfind : List.find? (fun p => p.1 = k) [(k, d1)] = some (k, d1) := by
    simp
  rw [hfind]
  simp only [Option.isSome_some, if_true]
  rw [List.map_append]
  congr 1
  · have : ∀ p ∈ l, (fun p => if p.1 = k then (k, v) else p) p = id p := by
      intro p hp
      have := aFind_none_keys h p hp
      simp [this]
    rw [List.map_congr_left this, List.map_id]
  · simp

/-- The full specification of `visit_Name` needed by the walker lemmas:
it is an invariant step, the returned `Def` is a `chains` value, and the
five stacks and the dead-code counter are untouched. -/
theorem visitNameF_spec (st : St) (nid : Nat) (s : String) (ctx : Ctx) :
    InvStep st (visitNameF st nid s ctx).2 ∧
    (visitNameF st nid s ctx).1 ∈ chainVals (visitNameF st nid s ctx).2 ∧
    SameStacks st (visitNameF st nid s ctx).2 := by
  cases ctx with
  | param | store =>
      all_goals {
      unfold visitNameF
      simp only
      have hc := chainsSetdefault_spec st nid (.nameNode nid s)
      set d0 := (chainsSetdefault st nid (.nameNode nid s)).1 with hd0
      set st1 := (chainsSetdefault st nid (.nameNode nid s)).2 with hst1
      split
      · -- global store
        have hg := @setOrExtendGlobal_spec st1 s d0 hc.2.1
        refine ⟨invStep_trans hc.1 hg.1, ?_,
          sameStacks_trans hc.2.2.2.1 hg.2.1⟩
        have : chainVals (setOrExtendGlobal st1 s d0) = chainVals st1 := by
          unfold chainVals; rw [hg.2.2.1]
        rw [this]
        exact hc.2.1
      · -- plain store
        have hk := keep_setDefinition st1 s (.one d0)
        set st2 := setDefinition st1 s (.one d0) with hst2
        have hd02 : d0 ∈ chainVals st2 := by
          rw [chainVals_of_keep hk]
          exact hc.2.1
        split
        · exact ⟨invStep_trans hc.1 (invStep_of_keep hk), hd02,
            sameStacks_trans hc.2.2.2.1 (sameStacks_of_keep hk)⟩
        · have hl := localsAppend_rest st2 (topD st2.scopes ⟨0, false⟩).id d0
          refine ⟨invStep_trans hc.1 (invStep_trans (invStep_of_keep hk)
              (invStep_localsAppend hd02)), ?_,
            sameStacks_trans hc.2.2.2.1
              (sameStacks_trans (sameStacks_of_keep hk) hl.2.2)⟩
          have : chainVals (localsAppend st2 (topD st2.scopes ⟨0, false⟩).id d0)
              = chainVals st2 := by
            unfold chainVals; rw [hl.2.1]
          rw [this]
          exact hd02
      }
  | load | del =>
      all_goals {
      unfold visitNameF
      simp only
      cases hf : aFind st.chains nid with
      | some d =>
          simp only
          have hdm : d ∈ chainVals st := aFind_val_mem hf
          have hdl := defsLookup_spec st nid s false
          set ds := (defsLookup st nid s false).1 with hds
          set st2 := (defsLookup st nid s false).2 with hst2
          have hch2 : st2.chains = st.chains := by
            rcases hdl.2.2.2.2.2.2.2 with h | h
            · exact h
            · rw [h.1] at hf; cases hf
          have hdm2 : d ∈ chainVals st2 := by
            unfold chainVals; rw [hch2]; exact hdm
          have hfr := foldlAddUser_rest ds d st2
          set st3 := ds.foldl (fun s2 d2 => addUser s2 d2 d) st2 with hst3
          have hdm3 : d ∈ chainVals st3 := by
            unfold chainVals; rw [hfr.1]; exact hdm2
          simp only [Option.isSome_some, if_true]
          exact ⟨invStep_trans hdl.1 (invStep_foldlAddUser hdm2), hdm3,
            sameStacks_trans hdl.2.1 hfr.2.2.1⟩
      | none =>
          simp only
          have hnd := newDef_rest st (.nameNode nid s)
          set dnode := (newDef st (.nameNode nid s)).1 with hdn
          set st1 := (newDef st (.nameNode nid s)).2 with hst1
          have hdl := defsLookup_spec st1 nid s false
          set ds := (defsLookup st1 nid s false).1 with hds
          set st2 := (defsLookup st1 nid s false).2 with hst2
          have hfr := foldlAddUser_rest ds dnode st2
          set st3 := ds.foldl (fun s2 d2 => addUser s2 d2 dnode) st2 with hst3
          simp only [Option.isSome_none, Bool.false_eq_true, if_false]
          set st4 := { st3 with chains := nSet st3.chains nid dnode } with hst4
          -- the final chains table
          have hch1 : st1.chains = st.chains := hnd.1
          have hch4 : st4.chains = st.chains ++ [(nid, dnode)] := by
            have hch3 : st3.chains = st2.chains := hfr.1
            rcases hdl.2.2.2.2.2.2.2 with h | h
            · rw [hst4]
              simp only
              rw [hch3, h, hch1]
              exact nSet_of_none hf
            · rw [hst4]
              simp only
              rw [hch3, h.2, hch1]
              exact nSet_append_of_none hf
          have hcv4 : chainVals st4 = chainVals st ++ [dnode] := by
            unfold chainVals
            rw [hch4, List.map_append]
            rfl
          have husers : ∀ i u, u ∈ usersOf st4 i →
              u ∈ usersOf st i ∨ u = dnode := by
            intro i u h
            have h3 : u ∈ usersOf st3 i := by
              rw [usersOf_eq] at h ⊢
              exact h
            rcases foldlAddUser_users h3 with h2 | h2
            · exact .inl (usersOf_mem_newDef (hdl.2.2.2.2.2.2.1 i u h2))
            · exact .inr h2
          have hloc4 : st4.localTab = st.localTab := by
            have : st3.localTab = st2.localTab := hfr.2.1
            rw [hst4]
            simp only
            rw [this, hdl.2.2.1, hnd.2.1]
          refine ⟨⟨?_, ?_⟩, ?_, ?_⟩
          · intro v hv
            rw [hcv4]
            exact List.mem_append_left _ hv
          · intro hi
            constructor
            · intro i u h
              rcases husers i u h with h1 | h1
              · rw [hcv4]
                exact List.mem_append_left _ (hi.1 i u h1)
              · subst h1
                rw [hcv4]
                exact List.mem_append_right _ (by simp)
            · intro v hv
              have : v ∈ localVals st := by
                unfold localVals at *
                rw [hloc4] at hv
                exact hv
              rw [hcv4]
              exact List.mem_append_left _ (hi.2 v this)
          · rw [hcv4]
            exact List.mem_append_right _ (by simp)
          · have h4 : SameStacks st3 st4 := by
              rw [hst4]
              exact ⟨rfl, rfl, rfl, rfl, rfl, rfl⟩
            exact sameStacks_trans hnd.2.2
              (sameStacks_trans hdl.2.1 (sameStacks_trans hfr.2.2.1 h4))
      }

theorem invStep_visitGlobal (st : St) (names : List String) :
    InvStep st (visitGlobal st names) := by
  unfold visitGlobal
  exact invStep_congr rfl rfl rfl

theorem invStep_visitNonlocal (st : St) (nid : Nat) (names : List String) :
    InvStep st (visitNonlocal st nid names) :=
  invStep_of_keep (keep_visitNonlocal st nid names)

theorem sameStacks_scopePushPop {st : St} {sref : ScopeRef}
    {pls : List String} : True := trivial

theorem invStep_scopePush (st : St) (sref : ScopeRef) (pls : List String) :
    InvStep st (scopePush st sref pls) := by
  have hk := keep_newLayer st
  unfold scopePush
  refine invStep_trans (invStep_of_keep hk) (invStep_congr rfl rfl rfl)

theorem invStep_scopePop (st : St) : InvStep st (scopePop st) := by
  unfold scopePop
  exact invStep_congr rfl rfl rfl

theorem invStep_defCtxEnter (st : St) (l : LayerId) :
    InvStep st (defCtxEnter st l) := by
  unfold defCtxEnter
  exact invStep_congr rfl rfl rfl

theorem invStep_defCtxExit (st : St) : InvStep st (defCtxExit st) := by
  unfold defCtxExit
  exact invStep_congr rfl rfl rfl

theorem invStep_copyLayer (st : St) (l : LayerId) :
    InvStep st (copyLayer st l).2 :=
  invStep_of_keep (keep_copyLayer st l)

theorem invStep_visitAliases (aliases : List (Nat × String × Option String)) :
    ∀ st : St, InvStep st (visitAliases st aliases) := by
  unfold visitAliases
  induction aliases with
  | nil => intro st; exact invStep_refl st
  | cons a rest ih =>
      intro st
      simp only [List.foldl_cons]
      refine invStep_trans ?_ (ih _)
      have hc := chainsSetdefault_spec st a.1 (.aliasNode a.1 a.2.1 a.2.2)
      set d0 := (chainsSetdefault st a.1 (.aliasNode a.1 a.2.1 a.2.2)).1
      set st1 := (chainsSetdefault st a.1 (.aliasNode a.1 a.2.1 a.2.2)).2
      have hk := keep_setDefinition st1 (a.2.2.getD a.2.1) (.one d0)
      set st2 := setDefinition st1 (a.2.2.getD a.2.1) (.one d0)
      have hd2 : d0 ∈ chainVals st2 := by
        rw [chainVals_of_keep hk]
        exact hc.2.1
      exact invStep_trans hc.1 (invStep_trans (invStep_of_keep hk)
        (invStep_localsAppend hd2))

theorem invStep_visitArgsList (args : List (Nat × String)) :
    ∀ st : St, InvStep st (visitArgsList st args) := by
  unfold visitArgsList
  induction args with
  | nil => intro st; exact invStep_refl st
  | cons a rest ih =>
      intro st
      simp only [List.foldl_cons]
      exact invStep_trans (visitNameF_spec st a.1 a.2 .param).1 (ih _)

theorem invStep_ifMerge (st : St) (bl ol : LayerId) :
    InvStep st (ifMerge st bl ol) :=
  invStep_of_keep (keep_ifMerge st bl ol)

/-! ## The invariant holds across the whole walker -/

mutual
theorem visitExpr_inv : ∀ (e : Expr) (st : St),
    InvStep st (visitExpr e st).2 ∧
    (visitExpr e st).1 ∈ chainVals (visitExpr e st).2
  | .name nid s ctx, st => by
      have h := visitNameF_spec st nid s ctx
      simp only [visitExpr]
      exact ⟨h.1, h.2.1⟩
  | .const nid, st => by
      have h := chainsSetdefault_spec st nid (.constNode nid)
      simp only [visitExpr]
      exact ⟨h.1, h.2.1⟩
  | .binop nid l r, st => by
      simp only [visitExpr]
      have hc := chainsSetdefault_spec st nid (.binopNode nid)
      set d0 := (chainsSetdefault st nid (.binopNode nid)).1 with hd0
      set st1 := (chainsSetdefault st nid (.binopNode nid)).2 with hst1
      have hl := visitExpr_inv l st1
      set dl := (visitExpr l st1).1 with hdl
      set stl := (visitExpr l st1).2 with hstl
      have hd0l : d0 ∈ chainVals stl := hl.1.1 d0 hc.2.1
      have ha1 := invStep_addUser (d := dl) hd0l
      have har1 := addUser_rest stl dl d0
      set st2 := addUser stl dl d0 with hst2
      have hd02 : d0 ∈ chainVals st2 := by
        have : chainVals st2 = chainVals stl := by unfold chainVals; rw [har1.1]
        rw [this]; exact hd0l
      have hr := visitExpr_inv r st2
      set dr := (visitExpr r st2).1 with hdr
      set str := (visitExpr r st2).2 with hstr
      have hd0r : d0 ∈ chainVals str := hr.1.1 d0 hd02
      have ha2 := invStep_addUser (d := dr) hd0r
      have har2 := addUser_rest str dr d0
      refine ⟨invStep_trans hc.1 (invStep_trans hl.1 (invStep_trans ha1
        (invStep_trans hr.1 ha2))), ?_⟩
      have : chainVals (addUser str dr d0) = chainVals str := by
        unfold chainVals; rw [har2.1]
      rw [this]
      exact hd0r
  | .attribute nid v, st => by
      simp only [visitExpr]
      have hc := chainsSetdefault_spec st nid (.attrNode nid)
      set d0 := (chainsSetdefault st nid (.attrNode nid)).1 with hd0
      set st1 := (chainsSetdefault st nid (.attrNode nid)).2 with hst1
      have hv := visitExpr_inv v st1
      set dv := (visitExpr v st1).1 with hdv
      set stv := (visitExpr v st1).2 with hstv
      have hd0v : d0 ∈ chainVals stv := hv.1.1 d0 hc.2.1
      have ha := invStep_addUser (d := dv) hd0v
      have har := addUser_rest stv dv d0
      refine ⟨invStep_trans hc.1 (invStep_trans hv.1 ha), ?_⟩
      have : chainVals (addUser stv dv d0) = chainVals stv := by
        unfold chainVals; rw [har.1]
      rw [this]
      exact hd0v
  | .lam nid args defaults body, st => by
      have h := chainsSetdefault_spec st nid (.lambdaNode nid)
      simp only [visitExpr]
      exact ⟨h.1, h.2.1⟩
termination_by e st => esz e
decreasing_by
  all_goals try simp only [esz, eszList, ssz, sszList]
  all_goals omega

theorem visitExprList_inv : ∀ (es : List Expr) (st : St),
    InvStep st (visitExprList es st)
  | [], st => by
      simp only [visitExprList]
      exact invStep_refl st
  | e :: rest, st => by
      simp only [visitExprList]
      exact invStep_trans (visitExpr_inv e st).1 (visitExprList_inv rest _)
termination_by es st => eszList es
decreasing_by
  all_goals try simp only [esz, eszList, ssz, sszList]
  all_goals omega

theorem visitExprsAddUser_inv : ∀ (es : List Expr) (dnode : DefId) (st : St),
    dnode ∈ chainVals st → InvStep st (visitExprsAddUser es dnode st)
  | [], _, st, _ => by
      simp only [visitExprsAddUser]
      exact invStep_refl st
  | e :: rest, dnode, st, hd => by
      simp only [visitExprsAddUser]
      have he := visitExpr_inv e st
      set d0 := (visitExpr e st).1 with hd0
      set st1 := (visitExpr e st).2 with hst1
      have hd1 : dnode ∈ chainVals st1 := he.1.1 dnode hd
      have ha := invStep_addUser (d := d0) hd1
      have har := addUser_rest st1 d0 dnode
      have hd2 : dnode ∈ chainVals (addUser st1 d0 dnode) := by
        have : chainVals (addUser st1 d0 dnode) = chainVals st1 := by
          unfold chainVals; rw [har.1]
        rw [this]; exact hd1
      exact invStep_trans he.1 (invStep_trans ha
        (visitExprsAddUser_inv rest dnode _ hd2))
termination_by es dnode st hd => eszList es
decreasing_by
  all_goals try simp only [esz, eszList, ssz, sszList]
  all_goals omega

theorem visitStmt_inv : ∀ (s : Stmt) (st : St), InvStep st (visitStmt s st)
  | .assign v ts, st => by
      simp only [visitStmt]
      exact invStep_trans (visitExpr_inv v st).1 (visitExprList_inv ts _)
  | .augAssign (.name nid s ctx) v, st => by
      simp only [visitStmt]
      have hv := visitExpr_inv v st
      set dvalue := (visitExpr v st).1 with hdv
      set stv := (visitExpr v st).2 with hstv
      have ht := visitExpr_inv (.name nid s .load) stv
      set dtarget := (visitExpr (.name nid s .load) stv).1 with hdt
      set stt := (visitExpr (.name nid s .load) stv).2 with hstt
      have hdtm : dtarget ∈ chainVals stt := ht.2
      have ha := invStep_addUser (d := dvalue) hdtm
      have har := addUser_rest stt dvalue dtarget
      set st2 := addUser stt dvalue dtarget with hst2
      have hdtm2 : dtarget ∈ chainVals st2 := by
        have : chainVals st2 = chainVals stt := by
          unfold chainVals; rw [har.1]
        rw [this]; exact hdtm
      have base : InvStep st st2 :=
        invStep_trans hv.1 (invStep_trans ht.1 ha)
      split
      · exact invStep_trans base (invStep_of_keep (keep_extendGlobal ..))
      · have hdl := defsLookup_spec st2 nid s true
        set st3 := (defsLookup st2 nid s true).2 with hst3
        have hdtm3 : dtarget ∈ chainVals st3 := hdl.1.1 dtarget hdtm2
        have hk := keep_setDefinition st3 s (.one dtarget)
        set st4 := setDefinition st3 s (.one dtarget) with hst4
        have hdtm4 : dtarget ∈ chainVals st4 := by
          rw [chainVals_of_keep hk]; exact hdtm3
        split
        · exact invStep_trans base (invStep_trans hdl.1
            (invStep_trans (invStep_of_keep hk)
              (invStep_localsAppend hdtm4)))
        · exact invStep_trans base
            (invStep_trans hdl.1 (invStep_of_keep hk))
  | .augAssign (.const nid) v, st => by
      simp only [visitStmt]
      have hv := visitExpr_inv v st
      set stv := (visitExpr v st).2 with hstv
      have ht := visitExpr_inv (.const nid) stv
      exact invStep_trans hv.1 (invStep_trans ht.1
        (invStep_addUser (ht.1.1 _ hv.2)))
  | .augAssign (.binop nid l r) v, st => by
      simp only [visitStmt]
      have hv := visitExpr_inv v st
      set stv := (visitExpr v st).2 with hstv
      have ht := visitExpr_inv (.binop nid l r) stv
      exact invStep_trans hv.1 (invStep_trans ht.1
        (invStep_addUser (ht.1.1 _ hv.2)))
  | .augAssign (.attribute nid vv) v, st => by
      simp only [visitStmt]
      have hv := visitExpr_inv v st
      set stv := (visitExpr v st).2 with hstv
      have ht := visitExpr_inv (.attribute nid vv) stv
      exact invStep_trans hv.1 (invStep_trans ht.1
        (invStep_addUser (ht.1.1 _ hv.2)))
  | .augAssign (.lam nid args defaults body) v, st => by
      simp only [visitStmt]
      have hv := visitExpr_inv v st
      set stv := (visitExpr v st).2 with hstv
      have ht := visitExpr_inv (.lam nid args defaults body) stv
      exact invStep_trans hv.1 (invStep_trans ht.1
        (invStep_addUser (ht.1.1 _ hv.2)))
  | .exprStmt e, st => by
      simp only [visitStmt]
      exact (visitExpr_inv e st).1
  | .ifStmt t b o, st => by
      simp only [visitStmt]
      exact visitIf_inv t b o st
  | .functionDef nid nm args defaults body, st => by
      simp only [visitStmt]
      exact visitFunctionDefDecl_inv nid nm args defaults body st
  | .classDef nid nm bases body, st => by
      simp only [visitStmt]
      exact visitClassDef_inv nid nm bases body st
  | .nonlocalStmt nid names, st => by
      simp only [visitStmt]
      exact invStep_visitNonlocal st nid names
  | .globalStmt names, st => by
      simp only [visitStmt]
      exact invStep_visitGlobal st names
  | .delete ts, st => by
      simp only [visitStmt]
      exact visitExprList_inv ts st
  | .raiseStmt (some e), st => by
      simp only [visitStmt]
      exact (visitExpr_inv e st).1
  | .raiseStmt none, st => by
      simp only [visitStmt]
      exact invStep_refl st
  | .importFrom aliases, st => by
      simp only [visitStmt]
      exact invStep_visitAliases aliases st
  | .pass, st => by
      simp only [visitStmt]
      exact invStep_refl st
termination_by s st => ssz s
decreasing_by
  all_goals try simp only [esz, eszList, ssz, sszList]
  all_goals omega

theorem visitIf_inv : ∀ (t : Expr) (b o : List Stmt) (st : St),
    InvStep st (visitIf t b o st)
  | t, b, o, st => by
      simp only [visitIf]
      set st1 := (visitExpr t st).2 with h1
      set bl := (copyLayer st1 (topD st1.definitions 0)).1 with h2
      set st2 := (copyLayer st1 (topD st1.definitions 0)).2 with h3
      set st3 := defCtxEnter st2 bl with h4
      set st4 := processBodyGo b false st3 with h5
      set st5 := defCtxExit st4 with h6
      set ol := (copyLayer st5 (topD st5.definitions 0)).1 with h7
      set st6 := (copyLayer st5 (topD st5.definitions 0)).2 with h8
      set st7 := defCtxEnter st6 ol with h9
      set st8 := processBodyGo o false st7 with h10
      set st9 := defCtxExit st8 with h11
      refine invStep_trans (visitExpr_inv t st).1 ?_
      refine invStep_trans (invStep_copyLayer st1 (topD st1.definitions 0)) ?_
      refine invStep_trans (invStep_defCtxEnter st2 bl) ?_
      refine invStep_trans (processBodyGo_inv b false st3) ?_
      refine invStep_trans (invStep_defCtxExit st4) ?_
      refine invStep_trans (invStep_copyLayer st5 (topD st5.definitions 0)) ?_
      refine invStep_trans (invStep_defCtxEnter st6 ol) ?_
      refine invStep_trans (processBodyGo_inv o false st7) ?_
      refine invStep_trans (invStep_defCtxExit st8) ?_
      exact invStep_ifMerge st9 bl ol
termination_by t b o st => 1 + esz t + sszList b + sszList o
decreasing_by
  all_goals try simp only [esz, eszList, ssz, sszList]
  all_goals omega

theorem visitFunctionDefDecl_inv : ∀ (nid : Nat) (nm : String)
    (args : List (Nat × String)) (defaults : List Expr)
    (body : List Stmt) (st : St),
    InvStep st (visitFunctionDefDecl nid nm args defaults body st)
  | nid, nm, args, defaults, body, st => by
      simp only [visitFunctionDefDecl]
      have hc := chainsSetdefault_spec st nid (.funcNode nid nm)
      set d0 := (chainsSetdefault st nid (.funcNode nid nm)).1 with hd0
      set st1 := (chainsSetdefault st nid (.funcNode nid nm)).2 with hst1
      have hl := @invStep_localsAppend st1 (topD st1.scopes ⟨0, false⟩).id _
        hc.2.1
      have hlr := localsAppend_rest st1 (topD st1.scopes ⟨0, false⟩).id d0
      set st2 := localsAppend st1 (topD st1.scopes ⟨0, false⟩).id d0 with hst2
      have hd2 : d0 ∈ chainVals st2 := by
        have : chainVals st2 = chainVals st1 := by
          unfold chainVals; rw [hlr.2.1]
        rw [this]; exact hc.2.1
      set st3 := visitExprsAddUser defaults d0 st2 with hst3
      set st4 := setDefinition st3 nm (.one d0) with hst4
      refine invStep_trans hc.1 (invStep_trans hl ?_)
      refine invStep_trans (visitExprsAddUser_inv defaults d0 st2 hd2) ?_
      refine invStep_trans (invStep_of_keep (keep_setDefinition st3 nm (.one d0))) ?_
      exact invStep_congr rfl rfl rfl
termination_by nid nm args defaults body st => 1 + eszList defaults
decreasing_by
  all_goals try simp only [esz, eszList, ssz, sszList]
  all_goals omega

theorem visitFunctionDefDefn_inv : ∀ (nid : Nat) (nm : String)
    (args : List (Nat × String)) (defaults : List Expr)
    (body : List Stmt) (st : St),
    InvStep st (visitFunctionDefDefn nid nm args defaults body st)
  | nid, nm, args, defaults, body, st => by
      simp only [visitFunctionDefDefn]
      set st1 := scopePush st ⟨nid, false⟩ (collectLocalsFunc defaults body)
        with hst1
      set st2 := visitArgsList st1 args with hst2
      set st3 := processBodyGo body false st2 with hst3
      refine invStep_trans
        (invStep_scopePush st ⟨nid, false⟩ (collectLocalsFunc defaults body)) ?_
      refine invStep_trans (invStep_visitArgsList args st1) ?_
      refine invStep_trans (processBodyGo_inv body false st2) ?_
      exact invStep_scopePop st3
termination_by nid nm args defaults body st => 1 + sszList body
decreasing_by
  all_goals try simp only [esz, eszList, ssz, sszList]
  all_goals omega

theorem visitClassDef_inv : ∀ (nid : Nat) (nm : String) (bases : List Expr)
    (body : List Stmt) (st : St),
    InvStep st (visitClassDef nid nm bases body st)
  | nid, nm, bases, body, st => by
      simp only [visitClassDef]
      have hc := chainsSetdefault_spec st nid (.classNode nid nm)
      set d0 := (chainsSetdefault st nid (.classNode nid nm)).1 with hd0
      set st1 := (chainsSetdefault st nid (.classNode nid nm)).2 with hst1
      have hl := @invStep_localsAppend st1 (topD st1.scopes ⟨0, false⟩).id _
        hc.2.1
      have hlr := localsAppend_rest st1 (topD st1.scopes ⟨0, false⟩).id d0
      set st2 := localsAppend st1 (topD st1.scopes ⟨0, false⟩).id d0 with hst2
      have hd2 : d0 ∈ chainVals st2 := by
        have : chainVals st2 = chainVals st1 := by
          unfold chainVals; rw [hlr.2.1]
        rw [this]; exact hc.2.1
      set st3 := visitExprsAddUser bases d0 st2 with hst3
      set st4 := scopePush st3 ⟨nid, true⟩ (collectLocalsClass bases body)
        with hst4
      set cd := (newDef st4 (.strNode "__class__")).1 with hcd
      set st5 := (newDef st4 (.strNode "__class__")).2 with hst5
      set st6 := setDefinition st5 "__class__" (.one cd) with hst6
      set st7 := processBodyGo body false st6 with hst7
      set st8 := scopePop st7 with hst8
      refine invStep_trans hc.1 (invStep_trans hl ?_)
      refine invStep_trans (visitExprsAddUser_inv bases d0 st2 hd2) ?_
      refine invStep_trans
        (invStep_scopePush st3 ⟨nid, true⟩ (collectLocalsClass bases body)) ?_
      refine invStep_trans (invStep_newDef st4 (.strNode "__class__")) ?_
      refine invStep_trans
        (invStep_of_keep (keep_setDefinition st5 "__class__" (.one cd))) ?_
      refine invStep_trans (processBodyGo_inv body false st6) ?_
      refine invStep_trans (invStep_scopePop st7) ?_
      exact invStep_of_keep (keep_setDefinition st8 nm (.one d0))
termination_by nid nm bases body st => 1 + eszList bases + sszList body
decreasing_by
  all_goals try simp only [esz, eszList, ssz, sszList]
  all_goals omega

theorem processBodyGo_inv : ∀ (stmts : List Stmt) (flag : Bool) (st : St),
    InvStep st (processBodyGo stmts flag st)
  | [], flag, st => by
      simp only [processBodyGo]
      split
      · exact invStep_congr rfl rfl rfl
      · exact invStep_refl st
  | s :: rest, flag, st => by
      simp only [processBodyGo]
      split
      · exact invStep_trans (invStep_congr rfl rfl rfl)
          (invStep_trans
            (visitStmt_inv s { st with deadcode := st.deadcode + 1 })
            (processBodyGo_inv rest true _))
      · exact invStep_trans (visitStmt_inv s st)
          (processBodyGo_inv rest flag _)
termination_by stmts flag st => sszList stmts
decreasing_by
  all_goals try simp only [esz, eszList, ssz, sszList]
  all_goals omega
end

/-! ## Stack-balance lemmas -/

/-- The five analysis stacks are non-empty (always the case while a scope
is being processed). -/
def StacksOk (st : St) : Prop :=
  0 < st.definitions.length ∧ 0 < st.scopes.length ∧
  0 < st.scopeDepths.length ∧ 0 < st.globalsStk.length ∧
  0 < st.precompLocals.length

/-- The lengths of the five stacks and the dead-code counter are
preserved. -/
def Fr (a b : St) : Prop :=
  b.definitions.length = a.definitions.length ∧
  b.scopes.length = a.scopes.length ∧
  b.scopeDepths.length = a.scopeDepths.length ∧
  b.globalsStk.length = a.globalsStk.length ∧
  b.precompLocals.length = a.precompLocals.length ∧
  b.deadcode = a.deadcode

theorem fr_refl (a : St) : Fr a a := ⟨rfl, rfl, rfl, rfl, rfl, rfl⟩

theorem fr_trans {a b c : St} (h1 : Fr a b) (h2 : Fr b c) : Fr a c := by
  unfold Fr at *
  obtain ⟨p1, p2, p3, p4, p5, p6⟩ := h1
  obtain ⟨q1, q2, q3, q4, q5, q6⟩ := h2
  exact ⟨q1.trans p1, q2.trans p2, q3.trans p3, q4.trans p4, q5.trans p5,
    q6.trans p6⟩

theorem fr_of_sameStacks {a b : St} (h : SameStacks a b) : Fr a b := by
  unfold SameStacks at h
  exact ⟨by rw [h.1], by rw [h.2.1], by rw [h.2.2.1], by rw [h.2.2.2.1],
    by rw [h.2.2.2.2.1], h.2.2.2.2.2⟩

theorem stacksOk_of_fr {a b : St} (ho : StacksOk a) (h : Fr a b) :
    StacksOk b := by
  unfold StacksOk at *
  unfold Fr at h
  omega

theorem setTop_length {α : Type} {l : List α} (x : α) (h : 0 < l.length) :
    (setTop l x).length = l.length := by
  unfold setTop
  simp [List.length_dropLast]
  omega

/-! Expression visitors never touch the stacks. -/

mutual
theorem visitExpr_stk : ∀ (e : Expr) (st : St),
    SameStacks st (visitExpr e st).2
  | .name nid s ctx, st => by
      simp only [visitExpr]
      exact (visitNameF_spec st nid s ctx).2.2
  | .const nid, st => by
      simp only [visitExpr]
      exact (chainsSetdefault_spec st nid (.constNode nid)).2.2.2.1
  | .binop nid l r, st => by
      simp only [visitExpr]
      set st1 := (chainsSetdefault st nid (.binopNode nid)).2 with hst1
      set dl := (visitExpr l st1).1 with hdl
      set stl := (visitExpr l st1).2 with hstl
      set d0 := (chainsSetdefault st nid (.binopNode nid)).1 with hd0
      set st2 := addUser stl dl d0 with hst2
      set dr := (visitExpr r st2).1 with hdr
      set str := (visitExpr r st2).2 with hstr
      have ha1 := addUser_rest stl dl d0
      have ha2 := addUser_rest str dr d0
      refine sameStacks_trans (chainsSetdefault_spec st nid (.binopNode nid)).2.2.2.1 ?_
      refine sameStacks_trans (visitExpr_stk l st1) ?_
      refine sameStacks_trans (show SameStacks stl st2 from
        ⟨ha1.2.2.1, ha1.2.2.2.1, ha1.2.2.2.2.1, ha1.2.2.2.2.2.1,
         ha1.2.2.2.2.2.2.1, ha1.2.2.2.2.2.2.2.1⟩) ?_
      refine sameStacks_trans (visitExpr_stk r st2) ?_
      exact ⟨ha2.2.2.1, ha2.2.2.2.1, ha2.2.2.2.2.1, ha2.2.2.2.2.2.1,
        ha2.2.2.2.2.2.2.1, ha2.2.2.2.2.2.2.2.1⟩
  | .attribute nid v, st => by
      simp only [visitExpr]
      set st1 := (chainsSetdefault st nid (.attrNode nid)).2 with hst1
      set dv := (visitExpr v st1).1 with hdv
      set stv := (visitExpr v st1).2 with hstv
      set d0 := (chainsSetdefault st nid (.attrNode nid)).1 with hd0
      have ha := addUser_rest stv dv d0
      refine sameStacks_trans (chainsSetdefault_spec st nid (.attrNode nid)).2.2.2.1 ?_
      refine sameStacks_trans (visitExpr_stk v st1) ?_
      exact ⟨ha.2.2.1, ha.2.2.2.1, ha.2.2.2.2.1, ha.2.2.2.2.2.1,
        ha.2.2.2.2.2.2.1, ha.2.2.2.2.2.2.2.1⟩
  | .lam nid args defaults body, st => by
      simp only [visitExpr]
      exact (chainsSetdefault_spec st nid (.lambdaNode nid)).2.2.2.1
termination_by e st => esz e
decreasing_by
  all_goals try simp only [esz, eszList, ssz, sszList]
  all_goals omega

theorem visitExprList_stk : ∀ (es : List Expr) (st : St),
    SameStacks st (visitExprList es st)
  | [], st => by
      simp only [visitExprList]
      exact sameStacks_refl st
  | e :: rest, st => by
      simp only [visitExprList]
      exact sameStacks_trans (visitExpr_stk e st) (visitExprList_stk rest _)
termination_by es st => eszList es
decreasing_by
  all_goals try simp only [esz, eszList, ssz, sszList]
  all_goals omega

theorem visitExprsAddUser_stk : ∀ (es : List Expr) (dnode : DefId) (st : St),
    SameStacks st (visitExprsAddUser es dnode st)
  | [], _, st => by
      simp only [visitExprsAddUser]
      exact sameStacks_refl st
  | e :: rest, dnode, st => by
      simp only [visitExprsAddUser]
      set d0 := (visitExpr e st).1 with hd0
      set st1 := (visitExpr e st).2 with hst1
      have ha := addUser_rest st1 d0 dnode
      refine sameStacks_trans (visitExpr_stk e st) ?_
      refine sameStacks_trans (show SameStacks st1 (addUser st1 d0 dnode) from
        ⟨ha.2.2.1, ha.2.2.2.1, ha.2.2.2.2.1, ha.2.2.2.2.2.1,
         ha.2.2.2.2.2.2.1, ha.2.2.2.2.2.2.2.1⟩) ?_
      exact visitExprsAddUser_stk rest dnode _
termination_by es dnode st => eszList es
decreasing_by
  all_goals try simp only [esz, eszList, ssz, sszList]
  all_goals omega
end

theorem sameStacks_addUser (st : St) (d u : DefId) :
    SameStacks st (addUser st d u) := by
  have ha := addUser_rest st d u
  exact ⟨ha.2.2.1, ha.2.2.2.1, ha.2.2.2.2.1, ha.2.2.2.2.2.1,
    ha.2.2.2.2.2.2.1, ha.2.2.2.2.2.2.2.1⟩

theorem sameStacks_visitAliases (aliases : List (Nat × String × Option String)) :
    ∀ st : St, SameStacks st (visitAliases st aliases) := by
  unfold visitAliases
  induction aliases with
  | nil => intro st; exact sameStacks_refl st
  | cons a rest ih =>
      intro st
      simp only [List.foldl_cons]
      refine sameStacks_trans ?_ (ih _)
      set d0 := (chainsSetdefault st a.1 (.aliasNode a.1 a.2.1 a.2.2)).1
      set st1 := (chainsSetdefault st a.1 (.aliasNode a.1 a.2.1 a.2.2)).2
      set st2 := setDefinition st1 (a.2.2.getD a.2.1) (.one d0)
      refine sameStacks_trans
        (chainsSetdefault_spec st a.1 (.aliasNode a.1 a.2.1 a.2.2)).2.2.2.1 ?_
      refine sameStacks_trans
        (sameStacks_of_keep (keep_setDefinition st1 (a.2.2.getD a.2.1) (.one d0))) ?_
      exact (localsAppend_rest st2 (topD st2.scopes ⟨0, false⟩).id d0).2.2

theorem sameStacks_visitArgsList (args : List (Nat × String)) :
    ∀ st : St, SameStacks st (visitArgsList st args) := by
  unfold visitArgsList
  induction args with
  | nil => intro st; exact sameStacks_refl st
  | cons a rest ih =>
      intro st
      simp only [List.foldl_cons]
      exact sameStacks_trans (visitNameF_spec st a.1 a.2 .param).2.2 (ih _)

theorem sameStacks_visitFunctionDefDecl (nid : Nat) (nm : String)
    (args : List (Nat × String)) (defaults : List Expr)
    (body : List Stmt) (st : St) :
    SameStacks st (visitFunctionDefDecl nid nm args defaults body st) := by
  simp only [visitFunctionDefDecl]
  set st1 := (chainsSetdefault st nid (.funcNode nid nm)).2 with hst1
  set d0 := (chainsSetdefault st nid (.funcNode nid nm)).1 with hd0
  set st2 := localsAppend st1 (topD st1.scopes ⟨0, false⟩).id d0 with hst2
  set st3 := visitExprsAddUser defaults d0 st2 with hst3
  set st4 := setDefinition st3 nm (.one d0) with hst4
  refine sameStacks_trans (chainsSetdefault_spec st nid (.funcNode nid nm)).2.2.2.1 ?_
  refine sameStacks_trans
    (localsAppend_rest st1 (topD st1.scopes ⟨0, false⟩).id d0).2.2 ?_
  refine sameStacks_trans (visitExprsAddUser_stk defaults d0 st2) ?_
  refine sameStacks_trans (sameStacks_of_keep (keep_setDefinition st3 nm (.one d0))) ?_
  exact ⟨rfl, rfl, rfl, rfl, rfl, rfl⟩

theorem fr_visitGlobal {st : St} (names : List String)
    (h : 0 < st.globalsStk.length) : Fr st (visitGlobal st names) := by
  unfold visitGlobal
  exact ⟨rfl, rfl, rfl, setTop_length _ h, rfl, rfl⟩

theorem sameStacks_visitNonlocal (st : St) (nid : Nat)
    (names : List String) : SameStacks st (visitNonlocal st nid names) :=
  sameStacks_of_keep (keep_visitNonlocal st nid names)

theorem scopePush_eff (st : St) (sref : ScopeRef) (pls : List String) :
    (scopePush st sref pls).definitions.length = st.definitions.length + 1 ∧
    (scopePush st sref pls).scopes.length = st.scopes.length + 1 ∧
    (scopePush st sref pls).scopeDepths.length = st.scopeDepths.length + 1 ∧
    (scopePush st sref pls).globalsStk.length = st.globalsStk.length + 1 ∧
    (scopePush st sref pls).precompLocals.length = st.precompLocals.length + 1 ∧
    (scopePush st sref pls).deadcode = st.deadcode := by
  unfold scopePush
  simp [newLayer]

theorem scopePop_eff (st : St) :
    (scopePop st).definitions.length = st.definitions.length - 1 ∧
    (scopePop st).scopes.length = st.scopes.length - 1 ∧
    (scopePop st).scopeDepths.length = st.scopeDepths.length - 1 ∧
    (scopePop st).globalsStk.length = st.globalsStk.length - 1 ∧
    (scopePop st).precompLocals.length = st.precompLocals.length - 1 ∧
    (scopePop st).deadcode = st.deadcode := by
  unfold scopePop
  simp [List.length_dropLast]

theorem defCtxEnter_eff (st : St) (l : LayerId)
    (h : 0 < st.scopeDepths.length) :
    (defCtxEnter st l).definitions.length = st.definitions.length + 1 ∧
    (defCtxEnter st l).scopes.length = st.scopes.length ∧
    (defCtxEnter st l).scopeDepths.length = st.scopeDepths.length ∧
    (defCtxEnter st l).globalsStk.length = st.globalsStk.length ∧
    (defCtxEnter st l).precompLocals.length = st.precompLocals.length ∧
    (defCtxEnter st l).deadcode = st.deadcode := by
  unfold defCtxEnter
  refine ⟨by simp, rfl, setTop_length _ h, rfl, rfl, rfl⟩

theorem defCtxExit_eff (st : St) (h : 0 < st.scopeDepths.length) :
    (defCtxExit st).definitions.length = st.definitions.length - 1 ∧
    (defCtxExit st).scopes.length = st.scopes.length ∧
    (defCtxExit st).scopeDepths.length = st.scopeDepths.length ∧
    (defCtxExit st).globalsStk.length = st.globalsStk.length ∧
    (defCtxExit st).precompLocals.length = st.precompLocals.length ∧
    (defCtxExit st).deadcode = st.deadcode := by
  unfold defCtxExit
  refine ⟨by simp [List.length_dropLast], rfl, setTop_length _ h, rfl, rfl, rfl⟩

mutual
theorem visitStmt_fr : ∀ (s : Stmt) (st : St), StacksOk st →
    Fr st (visitStmt s st)
  | .assign v ts, st, _ => by
      simp only [visitStmt]
      exact fr_trans (fr_of_sameStacks (visitExpr_stk v st))
        (fr_of_sameStacks (visitExprList_stk ts _))
  | .augAssign (.name nid s ctx) v, st, _ => by
      simp only [visitStmt]
      set dvalue := (visitExpr v st).1 with hdv
      set stv := (visitExpr v st).2 with hstv
      set dtarget := (visitExpr (.name nid s .load) stv).1 with hdt
      set stt := (visitExpr (.name nid s .load) stv).2 with hstt
      set st2 := addUser stt dvalue dtarget with hst2
      have base : Fr st st2 :=
        fr_trans (fr_of_sameStacks (visitExpr_stk v st))
          (fr_trans (fr_of_sameStacks (visitExpr_stk (.name nid s .load) stv))
            (fr_of_sameStacks (sameStacks_addUser stt dvalue dtarget)))
      split
      · exact fr_trans base
          (fr_of_sameStacks (sameStacks_of_keep (keep_extendGlobal ..)))
      · set st3 := (defsLookup st2 nid s true).2 with hst3
        set st4 := setDefinition st3 s (.one dtarget) with hst4
        refine fr_trans base ?_
        refine fr_trans (fr_of_sameStacks (defsLookup_spec st2 nid s true).2.1) ?_
        refine fr_trans
          (fr_of_sameStacks (sameStacks_of_keep (keep_setDefinition st3 s (.one dtarget)))) ?_
        split
        · exact fr_of_sameStacks
            (localsAppend_rest st4 (topD st4.scopes ⟨0, false⟩).id dtarget).2.2
        · exact fr_refl st4
  | .augAssign (.const nid) v, st, _ => by
      simp only [visitStmt]
      set stv := (visitExpr v st).2 with hstv
      exact fr_trans (fr_of_sameStacks (visitExpr_stk v st))
        (fr_trans (fr_of_sameStacks (visitExpr_stk (.const nid) stv))
          (fr_of_sameStacks (sameStacks_addUser ..)))
  | .augAssign (.binop nid l r) v, st, _ => by
      simp only [visitStmt]
      set stv := (visitExpr v st).2 with hstv
      exact fr_trans (fr_of_sameStacks (visitExpr_stk v st))
        (fr_trans (fr_of_sameStacks (visitExpr_stk (.binop nid l r) stv))
          (fr_of_sameStacks (sameStacks_addUser ..)))
  | .augAssign (.attribute nid vv) v, st, _ => by
      simp only [visitStmt]
      set stv := (visitExpr v st).2 with hstv
      exact fr_trans (fr_of_sameStacks (visitExpr_stk v st))
        (fr_trans (fr_of_sameStacks (visitExpr_stk (.attribute nid vv) stv))
          (fr_of_sameStacks (sameStacks_addUser ..)))
  | .augAssign (.lam nid args defaults body) v, st, _ => by
      simp only [visitStmt]
      set stv := (visitExpr v st).2 with hstv
      exact fr_trans (fr_of_sameStacks (visitExpr_stk v st))
        (fr_trans (fr_of_sameStacks (visitExpr_stk (.lam nid args defaults body) stv))
          (fr_of_sameStacks (sameStacks_addUser ..)))
  | .exprStmt e, st, _ => by
      simp only [visitStmt]
      exact fr_of_sameStacks (visitExpr_stk e st)
  | .ifStmt t b o, st, h => by
      simp only [visitStmt]
      exact visitIf_fr t b o st h
  | .functionDef nid nm args defaults body, st, _ => by
      simp only [visitStmt]
      exact fr_of_sameStacks (sameStacks_visitFunctionDefDecl ..)
  | .classDef nid nm bases body, st, _ => by
      simp only [visitStmt]
      exact visitClassDef_fr nid nm bases body st
  | .nonlocalStmt nid names, st, _ => by
      simp only [visitStmt]
      exact fr_of_sameStacks (sameStacks_visitNonlocal ..)
  | .globalStmt names, st, h => by
      simp only [visitStmt]
      exact fr_visitGlobal names h.2.2.2.1
  | .delete ts, st, _ => by
      simp only [visitStmt]
      exact fr_of_sameStacks (visitExprList_stk ts st)
  | .raiseStmt (some e), st, _ => by
      simp only [visitStmt]
      exact fr_of_sameStacks (visitExpr_stk e st)
  | .raiseStmt none, st, _ => by
      simp only [visitStmt]
      exact fr_refl st
  | .importFrom aliases, st, _ => by
      simp only [visitStmt]
      exact fr_of_sameStacks (sameStacks_visitAliases aliases st)
  | .pass, st, _ => by
      simp only [visitStmt]
      exact fr_refl st
termination_by s st h => ssz s
decreasing_by
  all_goals try simp only [esz, eszList, ssz, sszList]
  all_goals omega

theorem visitIf_fr : ∀ (t : Expr) (b o : List Stmt) (st : St), StacksOk st →
    Fr st (visitIf t b o st)
  | t, b, o, st, h => by
      simp only [visitIf]
      set st1 := (visitExpr t st).2 with h1
      set bl := (copyLayer st1 (topD st1.definitions 0)).1 with h2
      set st2 := (copyLayer st1 (topD st1.definitions 0)).2 with h3
      set st3 := defCtxEnter st2 bl with h4
      set st4 := processBodyGo b false st3 with h5
      set st5 := defCtxExit st4 with h6
      set ol := (copyLayer st5 (topD st5.definitions 0)).1 with h7
      set st6 := (copyLayer st5 (topD st5.definitions 0)).2 with h8
      set st7 := defCtxEnter st6 ol with h9
      set st8 := processBodyGo o false st7 with h10
      set st9 := defCtxExit st8 with h11
      have f1 : Fr st st1 := fr_of_sameStacks (visitExpr_stk t st)
      have ho1 : StacksOk st1 := stacksOk_of_fr h f1
      have f2 : Fr st1 st2 :=
        fr_of_sameStacks (sameStacks_of_keep (keep_copyLayer st1 _))
      have ho2 : StacksOk st2 := stacksOk_of_fr ho1 f2
      have e3 := defCtxEnter_eff st2 bl ho2.2.2.1
      rw [← h4] at e3
      have ho3 : StacksOk st3 := by
        unfold StacksOk at *
        omega
      have f4 := processBodyGo_fr b false st3 ho3
      simp only [Bool.cond_false] at f4
      rw [← h5] at f4
      have ho4 : StacksOk st4 := by
        unfold StacksOk at *
        omega
      have e5 := defCtxExit_eff st4 ho4.2.2.1
      rw [← h6] at e5
      have ho5 : StacksOk st5 := by
        unfold StacksOk at *
        omega
      have f6 : Fr st5 st6 :=
        fr_of_sameStacks (sameStacks_of_keep (keep_copyLayer st5 _))
      have ho6 : StacksOk st6 := stacksOk_of_fr ho5 f6
      have e7 := defCtxEnter_eff st6 ol ho6.2.2.1
      rw [← h9] at e7
      have ho7 : StacksOk st7 := by
        unfold StacksOk at *
        omega
      have f8 := processBodyGo_fr o false st7 ho7
      simp only [Bool.cond_false] at f8
      rw [← h10] at f8
      have ho8 : StacksOk st8 := by
        unfold StacksOk at *
        omega
      have e9 := defCtxExit_eff st8 ho8.2.2.1
      rw [← h11] at e9
      have fm : Fr st9 (ifMerge st9 bl ol) :=
        fr_of_sameStacks (sameStacks_of_keep (keep_ifMerge st9 bl ol))
      unfold Fr StacksOk at *
      omega
  termination_by t b o st h => 1 + esz t + sszList b + sszList o
  decreasing_by
    all_goals try simp only [esz, eszList, ssz, sszList]
    all_goals omega

theorem visitFunctionDefDefn_fr : ∀ (nid : Nat) (nm : String)
    (args : List (Nat × String)) (defaults : List Expr)
    (body : List Stmt) (st : St),
    Fr st (visitFunctionDefDefn nid nm args defaults body st)
  | nid, nm, args, defaults, body, st => by
      simp only [visitFunctionDefDefn]
      set st1 := scopePush st ⟨nid, false⟩ (collectLocalsFunc defaults body)
        with h1
      set st2 := visitArgsList st1 args with h2
      set st3 := processBodyGo body false st2 with h3
      have e1 := scopePush_eff st ⟨nid, false⟩ (collectLocalsFunc defaults body)
      rw [← h1] at e1
      have f2 : Fr st1 st2 := fr_of_sameStacks (sameStacks_visitArgsList args st1)
      have ho2 : StacksOk st2 := by
        unfold StacksOk
        unfold Fr at f2
        omega
      have f3 := processBodyGo_fr body false st2 ho2
      simp only [Bool.cond_false] at f3
      rw [← h3] at f3
      have e4 := scopePop_eff st3
      unfold Fr at *
      omega
  termination_by nid nm args defaults body st => 1 + sszList body
  decreasing_by
    all_goals try simp only [esz, eszList, ssz, sszList]
    all_goals omega

theorem visitClassDef_fr : ∀ (nid : Nat) (nm : String) (bases : List Expr)
    (body : List Stmt) (st : St),
    Fr st (visitClassDef nid nm bases body st)
  | nid, nm, bases, body, st => by
      simp only [visitClassDef]
      set d0 := (chainsSetdefault st nid (.classNode nid nm)).1 with hd0
      set st1 := (chainsSetdefault st nid (.classNode nid nm)).2 with hst1
      set st2 := localsAppend st1 (topD st1.scopes ⟨0, false⟩).id d0 with hst2
      set st3 := visitExprsAddUser bases d0 st2 with hst3
      set st4 := scopePush st3 ⟨nid, true⟩ (collectLocalsClass bases body)
        with hst4
      set cd := (newDef st4 (.strNode "__class__")).1 with hcd
      set st5 := (newDef st4 (.strNode "__class__")).2 with hst5
      set st6 := setDefinition st5 "__class__" (.one cd) with hst6
      set st7 := processBodyGo body false st6 with hst7
      set st8 := scopePop st7 with hst8
      have f1 : Fr st st3 :=
        fr_trans (fr_of_sameStacks (chainsSetdefault_spec st nid (.classNode nid nm)).2.2.2.1)
          (fr_trans (fr_of_sameStacks (localsAppend_rest st1 (topD st1.scopes ⟨0, false⟩).id d0).2.2)
            (fr_of_sameStacks (visitExprsAddUser_stk bases d0 st2)))
      have e4 := scopePush_eff st3 ⟨nid, true⟩ (collectLocalsClass bases body)
      rw [← hst4] at e4
      have f5 : Fr st4 st5 :=
        fr_of_sameStacks (newDef_rest st4 (.strNode "__class__")).2.2
      have f6 : Fr st5 st6 :=
        fr_of_sameStacks (sameStacks_of_keep
          (keep_setDefinition st5 "__class__" (.one cd)))
      have ho6 : StacksOk st6 := by
        unfold StacksOk
        unfold Fr at f5 f6
        omega
      have f7 := processBodyGo_fr body false st6 ho6
      simp only [Bool.cond_false] at f7
      rw [← hst7] at f7
      have e8 := scopePop_eff st7
      rw [← hst8] at e8
      have f9 : Fr st8 (setDefinition st8 nm (.one d0)) :=
        fr_of_sameStacks (sameStacks_of_keep
          (keep_setDefinition st8 nm (.one d0)))
      unfold Fr at *
      omega
  termination_by nid nm bases body st => 1 + eszList bases + sszList body
  decreasing_by
    all_goals try simp only [esz, eszList, ssz, sszList]
    all_goals omega

theorem processBodyGo_fr : ∀ (stmts : List Stmt) (flag : Bool) (st : St),
    StacksOk st →
    (processBodyGo stmts flag st).definitions.length = st.definitions.length ∧
    (processBodyGo stmts flag st).scopes.length = st.scopes.length ∧
    (processBodyGo stmts flag st).scopeDepths.length = st.scopeDepths.length ∧
    (processBodyGo stmts flag st).globalsStk.length = st.globalsStk.length ∧
    (processBodyGo stmts flag st).precompLocals.length = st.precompLocals.length ∧
    (processBodyGo stmts flag st).deadcode =
      cond flag (st.deadcode - 1) st.deadcode
  | [], flag, st, _ => by
      cases flag with
      | true =>
          simp only [processBodyGo, if_pos rfl, Bool.cond_true]
          exact ⟨rfl, rfl, rfl, rfl, rfl, rfl⟩
      | false =>
          simp only [processBodyGo, Bool.cond_false]
          rw [if_neg (by simp)]
          exact ⟨rfl, rfl, rfl, rfl, rfl, rfl⟩
  | s :: rest, flag, st, h => by
      cases flag with
      | true =>
          simp only [processBodyGo, Bool.cond_true]
          rw [if_neg (by simp)]
          have fv := visitStmt_fr s st h
          have fr := processBodyGo_fr rest true (visitStmt s st)
            (stacksOk_of_fr h fv)
          simp only [Bool.cond_true] at fr
          unfold Fr at fv
          refine ⟨?_, ?_, ?_, ?_, ?_, ?_⟩ <;> omega
      | false =>
          simp only [processBodyGo, Bool.cond_false]
          by_cases hds : isDeadStarter s = true
          · rw [if_pos (by simp [hds])]
            set st1 : St := { st with deadcode := st.deadcode + 1 } with hst1
            have ho1 : StacksOk st1 := h
            have fv := visitStmt_fr s st1 ho1
            have fr := processBodyGo_fr rest true (visitStmt s st1)
              (stacksOk_of_fr ho1 fv)
            simp only [Bool.cond_true] at fr
            unfold Fr at fv
            have g1 : st1.definitions.length = st.definitions.length := rfl
            have g2 : st1.scopes.length = st.scopes.length := rfl
            have g3 : st1.scopeDepths.length = st.scopeDepths.length := rfl
            have g4 : st1.globalsStk.length = st.globalsStk.length := rfl
            have g5 : st1.precompLocals.length = st.precompLocals.length := rfl
            have g6 : st1.deadcode = st.deadcode + 1 := rfl
            refine ⟨?_, ?_, ?_, ?_, ?_, ?_⟩ <;> omega
          · rw [if_neg (by simp [hds])]
            have fv := visitStmt_fr s st h
            have fr := processBodyGo_fr rest false (visitStmt s st)
              (stacksOk_of_fr h fv)
            simp only [Bool.cond_false] at fr
            unfold Fr at fv
            refine ⟨?_, ?_, ?_, ?_, ?_, ?_⟩ <;> omega
  termination_by stmts flag st h => sszList stmts
  decreasing_by
    all_goals try simp only [esz, eszList, ssz, sszList]
    all_goals omega
end

/-! ## The deferred drain and `visit_Module` -/

theorem drainStep_spec (st : St) (e : Defered) :
    InvStep st (drainStep st e) ∧
    (drainStep st e).definitions = st.definitions ∧
    (drainStep st e).scopes = st.scopes ∧
    (drainStep st e).scopeDepths = st.scopeDepths ∧
    (drainStep st e).precompLocals = st.precompLocals ∧
    (drainStep st e).globalsStk.length = st.globalsStk.length ∧
    (drainStep st e).deadcode = st.deadcode := by
  unfold drainStep
  cases hf : e.fnode
  case functionDef nid nm args defaults body =>
      simp only
      set st1 := switchSt st e with hst1
      have hi1 : InvStep st st1 := by
        rw [hst1]; unfold switchSt; exact invStep_congr rfl rfl rfl
      have hi2 := visitFunctionDefDefn_inv nid nm args defaults body st1
      set st2 := visitFunctionDefDefn nid nm args defaults body st1 with hst2
      have hfr := visitFunctionDefDefn_fr nid nm args defaults body st1
      rw [← hst2] at hfr
      have hg1 : st1.globalsStk = st.globalsStk := by
        rw [hst1]; rfl
      have hd1 : st1.deadcode = st.deadcode := by
        rw [hst1]; rfl
      have hir : InvStep st2 (restoreSt st2 st) := by
        unfold restoreSt; exact invStep_congr rfl rfl rfl
      refine ⟨invStep_trans hi1 (invStep_trans hi2 hir),
        rfl, rfl, rfl, rfl, ?_, ?_⟩
      · show st2.globalsStk.length = st.globalsStk.length
        rw [hfr.2.2.2.1, hg1]
      · show st2.deadcode = st.deadcode
        rw [hfr.2.2.2.2.2, hd1]
  all_goals {
    simp only
    refine ⟨?_, rfl, rfl, rfl, rfl, ?_, ?_⟩
    · refine invStep_trans (show InvStep st (switchSt st e) from ?_) ?_
      · unfold switchSt; exact invStep_congr rfl rfl rfl
      · unfold restoreSt; exact invStep_congr rfl rfl rfl
    · rfl
    · rfl
  }

theorem drain_spec : ∀ (fuel i : Nat) (st : St),
    InvStep st (drain fuel i st) ∧
    (drain fuel i st).definitions = st.definitions ∧
    (drain fuel i st).scopes = st.scopes ∧
    (drain fuel i st).scopeDepths = st.scopeDepths ∧
    (drain fuel i st).precompLocals = st.precompLocals ∧
    (drain fuel i st).globalsStk.length = st.globalsStk.length ∧
    (drain fuel i st).deadcode = st.deadcode := by
  intro fuel
  induction fuel with
  | zero =>
      intro i st
      exact ⟨invStep_refl st, rfl, rfl, rfl, rfl, rfl, rfl⟩
  | succ n ih =>
      intro i st
      simp only [drain]
      cases hg : st.defered.get? i with
      | some e =>
          simp only [hg]
          have h1 := drainStep_spec st e
          have h2 := ih (i + 1) (drainStep st e)
          refine ⟨invStep_trans h1.1 h2.1, ?_, ?_, ?_, ?_, ?_, ?_⟩
          · rw [h2.2.1, h1.2.1]
          · rw [h2.2.2.1, h1.2.2.1]
          · rw [h2.2.2.2.1, h1.2.2.2.1]
          · rw [h2.2.2.2.2.1, h1.2.2.2.2.1]
          · rw [h2.2.2.2.2.2.1, h1.2.2.2.2.2.1]
          · rw [h2.2.2.2.2.2.2, h1.2.2.2.2.2.2]
      | none =>
          simp only [hg]
          exact ⟨invStep_refl st, trivial, trivial, trivial, trivial,
            trivial, trivial⟩

theorem inv_initSt (bnames : List String) : Inv (initSt bnames) := by
  constructor
  · intro i u hu
    exfalso
    rw [usersOf_eq] at hu
    unfold initSt at hu
    simp only at hu
    cases hg : (bnames.map (fun s => (⟨.builtinNode s, []⟩ : DefRec)))[i]? with
    | none => rw [hg] at hu; simp at hu
    | some r =>
        rw [hg] at hu
        have hr : r ∈ bnames.map (fun s => (⟨.builtinNode s, []⟩ : DefRec)) := by
          have := List.getElem?_eq_some_iff.mp hg
          obtain ⟨hlt, hget⟩ := this
          rw [← hget]
          exact List.getElem_mem hlt
        rw [List.mem_map] at hr
        obtain ⟨nm, _, hrq⟩ := hr
        rw [← hrq] at hu
        simp at hu
  · intro d hd
    exfalso
    unfold localVals initSt at hd
    simp at hd

theorem chainVals_congr {a b : St} (h : b.chains = a.chains) :
    chainVals b = chainVals a := by
  unfold chainVals; rw [h]

/-- `visit_Module` establishes the reachability invariant and leaves all
five stacks empty. -/
theorem visitModule_spec (fuel : Nat) (bnames : List String) (m : Mod) :
    Inv (visitModule fuel bnames m) ∧
    (visitModule fuel bnames m).definitions = [] ∧
    (visitModule fuel bnames m).scopes = [] ∧
    (visitModule fuel bnames m).scopeDepths = [] ∧
    (visitModule fuel bnames m).globalsStk = [] ∧
    (visitModule fuel bnames m).precompLocals = [] := by
  unfold visitModule
  set st0 : St := { initSt bnames with moduleId := m.id } with hst0
  have hi0 : Inv st0 := inv_congr rfl rfl rfl (inv_initSt bnames)
  set st1 := scopePush st0 ⟨m.id, false⟩ (collectLocalsBody m.body) with hst1
  have he1 := scopePush_eff st0 ⟨m.id, false⟩ (collectLocalsBody m.body)
  rw [← hst1] at he1
  have hi1 : Inv st1 :=
    (invStep_scopePush st0 ⟨m.id, false⟩ (collectLocalsBody m.body)).2 hi0
  have hz : st0.definitions.length = 0 ∧ st0.scopes.length = 0 ∧
      st0.scopeDepths.length = 0 ∧ st0.globalsStk.length = 0 ∧
      st0.precompLocals.length = 0 ∧ st0.deadcode = 0 := by
    refine ⟨rfl, rfl, rfl, rfl, rfl, rfl⟩
  set st2 := st1.builtins.foldl (fun st p =>
    layerSetItem (newCell st [p.2]).2 (topD st.definitions 0) p.1
      (newCell st [p.2]).1) st1 with hst2
  have hk2 : Keep st1 st2 := by
    rw [hst2]
    refine keep_foldl _ ?_ _ _
    intro s x
    exact keep_trans (keep_newCell ..) (keep_layerSetItem ..)
  have hi2 : Inv st2 := (invStep_of_keep hk2).2 hi1
  have hs2 : SameStacks st1 st2 := sameStacks_of_keep hk2
  have ho2 : StacksOk st2 := by
    unfold StacksOk
    unfold SameStacks at hs2
    rw [hs2.1, hs2.2.1, hs2.2.2.1, hs2.2.2.2.1, hs2.2.2.2.2.1]
    omega
  set st3 := processBody m.body st2 with hst3
  have hi3 : Inv st3 := by
    rw [hst3]
    unfold processBody
    exact (processBodyGo_inv m.body false st2).2 hi2
  have hf3 : st3.definitions.length = st2.definitions.length ∧
      st3.scopes.length = st2.scopes.length ∧
      st3.scopeDepths.length = st2.scopeDepths.length ∧
      st3.globalsStk.length = st2.globalsStk.length ∧
      st3.precompLocals.length = st2.precompLocals.length := by
    rw [hst3]
    unfold processBody
    have h := processBodyGo_fr m.body false st2 ho2
    exact ⟨h.1, h.2.1, h.2.2.1, h.2.2.2.1, h.2.2.2.2.1⟩
  set st4 := drain fuel 0 st3 with hst4
  have hd4 := drain_spec fuel 0 st3
  rw [← hst4] at hd4
  have hi4 : Inv st4 := hd4.1.2 hi3
  have he5 := scopePop_eff st4
  have hi5 : Inv (scopePop st4) := (invStep_scopePop st4).2 hi4
  unfold SameStacks at hs2
  refine ⟨hi5, ?_, ?_, ?_, ?_, ?_⟩
  · refine List.length_eq_zero.mp ?_
    rw [he5.1, hd4.2.1, hf3.1, hs2.1]
    omega
  · refine List.length_eq_zero.mp ?_
    rw [he5.2.1, hd4.2.2.1, hf3.2.1, hs2.2.1]
    omega
  · refine List.length_eq_zero.mp ?_
    rw [he5.2.2.1, hd4.2.2.2.1, hf3.2.2.1, hs2.2.2.1]
    omega
  · refine List.length_eq_zero.mp ?_
    rw [he5.2.2.2.1, hd4.2.2.2.2.2.1, hf3.2.2.2.1, hs2.2.2.2.1]
    omega
  · refine List.length_eq_zero.mp ?_
    rw [he5.2.2.2.2.1, hd4.2.2.2.2.1, hf3.2.2.2.2, hs2.2.2.2.2.1]
    omega

/-- The first explicit binding of a name among the searched layers
(materialized), if any: the layer-walk answer an explicit binding gives. -/
def firstBinding (nm : String) :
    List (List (String × List DefId)) → Option (List DefId)
  | [] => none
  | l :: rest =>
      match sFind l nm with
      | some ds => some ds
      | none => firstBinding nm rest

/-- The star-wildcard `Def`s accumulated in the searched layers strictly
before the first explicit binding of the name. -/
def starsBefore (nm : String) :
    List (List (String × List DefId)) → List DefId
  | [] => []
  | l :: rest =>
      match sFind l nm with
      | some _ => []
      | none => (sFind l "*").getD [] ++ starsBefore nm rest

/-- A concrete resolver state: an inner scope whose layer holds only a
star wildcard (cell 0) over a module scope binding `a` (cell 1). -/
def stWildcard : St :=
  { defArena := [], cellArena := [[0], [1]],
    layerArena := [[("*", 0)], [("a", 1)]],
    chains := [], localTab := [], builtins := [], defered := [],
    definitions := [1, 0], scopeDepths := [-1, -1], globalsStk := [[], []],
    precompLocals := [[], []], undefs := [],
    scopes := [⟨0, false⟩, ⟨1, false⟩],
    deadcode := 0, diags := [], moduleId := 0 }

/-! ## Claim theorems -/

/-- If the target `Def` exists in the arena, `add_user` records the new
user in its users set. -/
theorem addUser_users_self {st : St} {d u : DefId}
    (h : d < st.defArena.length) : u ∈ usersOf (addUser st d u) d := by
  unfold addUser
  cases hg : st.defArena.get? d with
  | none =>
      exfalso
      rw [List.get?_eq_getElem?] at hg
      have h2 : st.defArena.length ≤ d := by
        by_contra hlt
        rw [List.getElem?_eq_getElem (by omega)] at hg
        exact Option.noConfusion hg
      exact absurd h (Nat.not_lt.mpr h2)
  | some r =>
      rw [usersOf_eq]
      simp only
      rw [List.getElem?_set_self h]
      simp only [Option.getD_some]
      unfold osetAdd
      by_cases hu : u ∈ r.users
      · rw [if_pos hu]; exact hu
      · rw [if_neg hu]; exact List.mem_append_right _ (List.mem_singleton.mpr rfl)

/-- The analyzed module of the `C1` counterexample: `x = abs`, with `abs`
provided as a builtin. -/
def mBuiltinUse : Mod := ⟨0, [.assign (.name 2 "abs" .load) [.name 1 "x" .store]]⟩

/-- C1 (amended): after `visit_Module`, every user of every `Def` of the
arena is a value of `chains`, and every `Def` recorded in `locals` is a
value of `chains`; the synthetic builtin `Def`s reachable from the
builtins table are excluded from the quantification, because they are
never values of `chains`. -/
theorem reachability_amended (fuel : Nat) (bnames : List String) (m : Mod) :
    (∀ d u, u ∈ usersOf (visitModule fuel bnames m) d →
        u ∈ chainVals (visitModule fuel bnames m)) ∧
    (∀ d, d ∈ localVals (visitModule fuel bnames m) →
        d ∈ chainVals (visitModule fuel bnames m)) :=
  (visitModule_spec fuel bnames m).1

/-- The analyzed module of the second half of the `C1` counterexample:
`class C: x = __class__`, whose body uses the synthetic `__class__`
`Def` installed by `visit_ClassDef`. -/
def mClassUse : Mod := ⟨0, [.classDef 1 "C" []
  [.assign (.name 2 "__class__" .load) [.name 3 "x" .store]]]⟩

/-- C1 counterexample to the original quantification, for both kinds of
synthetic `Def`s.  In `x = abs` with builtin `abs`, the builtin `Def`
(id 0) is reachable from the builtins table and has a user, yet it is
not a value of `chains`.  In `class C: x = __class__`, the synthetic
`__class__` `Def` (id 1) installed by the class scope has a user, yet it
is a value of neither `chains` nor `locals`. -/
theorem synthetic_defs_reachable_not_in_chains :
    (sFind (runModule ["abs"] mBuiltinUse).builtins "abs" = some 0 ∧
     usersOf (runModule ["abs"] mBuiltinUse) 0 = [1] ∧
     0 ∉ chainVals (runModule ["abs"] mBuiltinUse)) ∧
    (getDef (runModule [] mClassUse) 1 = ⟨.strNode "__class__", [2]⟩ ∧
     usersOf (runModule [] mClassUse) 1 = [2] ∧
     1 ∉ chainVals (runModule [] mClassUse) ∧
     1 ∉ localVals (runModule [] mClassUse)) := by
  refine ⟨⟨?_, ?_, ?_⟩, ?_, ?_, ?_, ?_⟩ <;>
  simp +decide [runModule, visitModule, mBuiltinUse, mClassUse, initSt,
      scopePush, scopePop, collectLocalsBody, collectLocalsClass,
      collectLocalsFunc, processBody, processBodyGo, visitStmt, visitExpr,
      visitExprList, visitExprsAddUser, visitNameF, visitClassDef,
      visitFunctionDefDecl, visitFunctionDefDefn, drain, drainStep,
      switchSt, restoreSt, newLayer,
      layerSetItem, newCell, chainsSetdefault, newDef, aFind, sFind, sSet, nSet,
      defsLookup, defsResolution, lookupLoop, lookedUp, lookedLoop, matLayer,
      getLayer, getCell, topD, setTop, pySlice, pyIdx, invalidNameLookup,
      setDefinition, extendDefinition, setOrExtendGlobal, extendGlobal,
      localsAppend, addUser, addToDefinition, cellExtend, osetAdd, osetUpdate,
      osetOf, osetUnion, emitDiag, isDeadStarter, usersOf, getDef, chainVals,
      localVals, layerHasKey, layerEntry, defCtxEnter, defCtxExit, dnodeName,
      clStmtList, clStmt, clExpr, clExprList, addStr, sszList, ssz, esz,
      eszList, DSrc.toList, List.range_succ,
      -List.any_eq_true, -List.all_eq_true]

/-- C2: visiting a `Lambda` in the declaration step only allocates its
`chains` entry: it does not visit the default values and appends nothing
to the deferred queue, so the definition step for the lambda body never
runs.  This contradicts the claimed two-phase split. -/
theorem lambda_declaration_only_setdefault (nid : Nat)
    (args : List (Nat × String)) (defaults : List Expr) (body : Expr)
    (st : St) :
    visitExpr (.lam nid args defaults body) st
      = chainsSetdefault st nid (.lambdaNode nid) ∧
    (visitExpr (.lam nid args defaults body) st).2.defered = st.defered := by
  have h1 : visitExpr (.lam nid args defaults body) st
      = chainsSetdefault st nid (.lambdaNode nid) := by
    simp only [visitExpr]
  refine ⟨h1, ?_⟩
  rw [h1]
  unfold chainsSetdefault
  cases aFind st.chains nid with
  | some d => rfl
  | none => rfl

/-- The analyzed module of the `C9` theorems: `a = 0` followed by the
augmented assignment `a.b += 1` (an attribute target). -/
def mAugAttr : Mod := ⟨0, [.assign (.const 10) [.name 11 "a" .store],
  .augAssign (.attribute 2 (.name 1 "a" .load)) (.const 3)]⟩

/-- C9 (amended): for an `AugAssign` whose target is an attribute, the
value's `Def` is linked as a user of the target's `Def` — the direction
is from target to value, opposite to the `Name`-target case. -/
theorem augassign_attribute_value_user_of_target (nid : Nat) (vv v : Expr)
    (st : St)
    (hdt : (visitExpr (.attribute nid vv) (visitExpr v st).2).1 <
      ((visitExpr (.attribute nid vv) (visitExpr v st).2).2).defArena.length) :
    (visitExpr v st).1 ∈
      usersOf (visitStmt (.augAssign (.attribute nid vv) v) st)
        (visitExpr (.attribute nid vv) (visitExpr v st).2).1 := by
  simp only [visitStmt]
  exact addUser_users_self hdt

theorem augassign_attribute_value_user_of_target_witness :
    ((visitExpr (.attribute 2 (.name 1 "a" .load))
        (visitExpr (.const 3) (initSt [])).2).1 <
      ((visitExpr (.attribute 2 (.name 1 "a" .load))
        (visitExpr (.const 3) (initSt [])).2).2).defArena.length) ∧
    (visitExpr (.const 3) (initSt [])).1 ∈
      usersOf (visitStmt (.augAssign (.attribute 2 (.name 1 "a" .load))
          (.const 3)) (initSt []))
        (visitExpr (.attribute 2 (.name 1 "a" .load))
          (visitExpr (.const 3) (initSt [])).2).1 := by
  constructor
  · simp +decide [visitExpr, visitNameF, initSt, chainsSetdefault, newDef,
      aFind, sFind, sSet, nSet, defsLookup, defsResolution, lookupLoop,
      lookedUp, lookedLoop, matLayer, getLayer, getCell, topD, setTop,
      pySlice, pyIdx, invalidNameLookup, setDefinition, extendDefinition,
      setOrExtendGlobal, extendGlobal, localsAppend, addUser, addToDefinition,
      cellExtend, osetAdd, osetUpdate, osetOf, osetUnion, emitDiag, usersOf,
      getDef, chainVals, layerHasKey, layerEntry, dnodeName, DSrc.toList,
      -List.any_eq_true, -List.all_eq_true]
  · exact augassign_attribute_value_user_of_target 2 (.name 1 "a" .load)
      (.const 3) (initSt []) (by
        simp +decide [visitExpr, visitNameF, initSt, chainsSetdefault, newDef,
          aFind, sFind, sSet, nSet, defsLookup, defsResolution, lookupLoop,
          lookedUp, lookedLoop, matLayer, getLayer, getCell, topD, setTop,
          pySlice, pyIdx, invalidNameLookup, setDefinition, extendDefinition,
          setOrExtendGlobal, extendGlobal, localsAppend, addUser,
          addToDefinition, cellExtend, osetAdd, osetUpdate, osetOf, osetUnion,
          emitDiag, usersOf, getDef, chainVals, layerHasKey, layerEntry,
          dnodeName, DSrc.toList, -List.any_eq_true, -List.all_eq_true])

/-- C9 counterexample to the original direction: in `a = 0; a.b += 1`,
the value's `Def` (node 3, def 2) is a user of the attribute target's
`Def` (node 2, def 3), but the target's `Def` is not a user of the
value's. -/
theorem augassign_attribute_direction_counterexample :
    aFind (runModule [] mAugAttr).chains 3 = some 2 ∧
    aFind (runModule [] mAugAttr).chains 2 = some 3 ∧
    2 ∈ usersOf (runModule [] mAugAttr) 3 ∧
    3 ∉ usersOf (runModule [] mAugAttr) 2 := by
  refine ⟨?_, ?_, ?_, ?_⟩ <;>
  simp +decide [runModule, visitModule, mAugAttr, initSt, scopePush,
      collectLocalsBody, processBody, processBodyGo, visitStmt, visitExpr,
      visitExprList, visitNameF, drain, drainStep, switchSt, restoreSt,
      scopePop, newLayer,
      layerSetItem, newCell, chainsSetdefault, newDef, aFind, sFind, sSet, nSet,
      defsLookup, defsResolution, lookupLoop, lookedUp, lookedLoop, matLayer,
      getLayer, getCell, topD, setTop, pySlice, pyIdx, invalidNameLookup,
      setDefinition, extendDefinition, setOrExtendGlobal, extendGlobal,
      localsAppend, addUser, addToDefinition, cellExtend, osetAdd, osetUpdate,
      osetOf, osetUnion, emitDiag, isDeadStarter, usersOf, getDef, chainVals,
      layerHasKey, layerEntry, defCtxEnter, defCtxExit, dnodeName, clStmtList,
      clStmt, clExpr, clExprList, addStr, sszList, ssz, esz, eszList,
      DSrc.toList, List.range_succ,
      -List.any_eq_true, -List.all_eq_true]

/-- C5: after `visit_Module` returns, the definitions stack, the scope
stack, the scope-depth stack, the globals stack and the
precomputed-locals stack are all empty. -/
theorem visitModule_stacks_empty (fuel : Nat) (bnames : List String)
    (m : Mod) :
    (visitModule fuel bnames m).definitions = [] ∧
    (visitModule fuel bnames m).scopes = [] ∧
    (visitModule fuel bnames m).scopeDepths = [] ∧
    (visitModule fuel bnames m).globalsStk = [] ∧
    (visitModule fuel bnames m).precompLocals = [] :=
  (visitModule_spec fuel bnames m).2

/-- The search loop returns the first explicit binding prepended with the
accumulator extended by the wildcards of the layers walked before it. -/
theorem lookupLoop_firstBinding (nm : String) :
    ∀ (layers : List (List (String × List DefId)))
      (stars ds : List DefId), firstBinding nm layers = some ds →
      lookupLoop nm stars layers
        = .inl (stars ++ (starsBefore nm layers ++ ds))
  | [], stars, ds, h => by
      exfalso; simp [firstBinding] at h
  | l :: rest, stars, ds, h => by
      unfold firstBinding at h
      unfold lookupLoop starsBefore
      cases hf : sFind l nm with
      | some ds0 =>
          rw [hf] at h
          simp only at h
          cases h
          simp only [List.nil_append]
          by_cases hs : stars.isEmpty
          · rw [if_pos hs]
            rw [List.isEmpty_iff] at hs
            rw [hs, List.nil_append]
          · rw [if_neg hs]
      | none =>
          rw [hf] at h
          simp only at h
          cases hw : sFind l "*" with
          | some ws =>
              simp only
              rw [lookupLoop_firstBinding nm rest (stars ++ ws) ds h]
              simp [List.append_assoc]
          | none =>
              simp only
              rw [lookupLoop_firstBinding nm rest stars ds h]
              simp

/-- C3: whenever the name is explicitly bound in one of the searched
layers, `defs` returns that first binding prepended with the star-import
wildcards accumulated in the layers searched before it: a wildcard is
additive and never replaces or stops the search for an explicit
binding. -/
theorem wildcard_lookup_composition (st : St) (nm : String)
    (ds : List DefId)
    (h : firstBinding nm ((lookedUp st nm).map (matLayer st)) = some ds) :
    defsResolution st nm
      = .inl (starsBefore nm ((lookedUp st nm).map (matLayer st)) ++ ds) := by
  unfold defsResolution
  rw [lookupLoop_firstBinding nm ((lookedUp st nm).map (matLayer st)) [] ds h]
  rw [List.nil_append]

theorem wildcard_lookup_composition_witness :
    firstBinding "a" ((lookedUp stWildcard "a").map (matLayer stWildcard))
      = some [1] ∧
    defsResolution stWildcard "a"
      = .inl (starsBefore "a"
          ((lookedUp stWildcard "a").map (matLayer stWildcard)) ++ [1]) :=
  ⟨by decide, wildcard_lookup_composition stWildcard "a" [1] (by decide)⟩

/-- The dead-code state of the `C6` witness: the wildcard resolver state
with a positive dead-code counter. -/
def stDeadcode : St := { stWildcard with deadcode := 1 }

/-- C6: while the dead-code counter is positive, `set_definition`,
`extend_definition`, `extend_global` and `set_or_extend_global` leave the
whole analyzer state unchanged (in particular every definition layer, the
module base layer and the locals table); and `process_body` restores the
counter when the body finishes. -/
theorem deadcode_write_suppression (st : St) (nm : String) (src : DSrc)
    (d : DefId) (stmts : List Stmt)
    (h : 0 < st.deadcode) (ho : StacksOk st) :
    setDefinition st nm src = st ∧
    extendDefinition st nm src = st ∧
    extendGlobal st nm src = st ∧
    setOrExtendGlobal st nm d = st ∧
    (processBody stmts st).deadcode = st.deadcode := by
  have hne : st.deadcode ≠ 0 := by omega
  refine ⟨?_, ?_, ?_, ?_, ?_⟩
  · unfold setDefinition; rw [if_pos hne]
  · unfold extendDefinition; rw [if_pos hne]
  · unfold extendGlobal; rw [if_pos hne]
  · unfold setOrExtendGlobal; rw [if_pos hne]
  · unfold processBody
    have hf := (processBodyGo_fr stmts false st ho).2.2.2.2.2
    rw [hf, Bool.cond_false]

theorem deadcode_write_suppression_witness :
    (0 < stDeadcode.deadcode ∧ StacksOk stDeadcode) ∧
    (setDefinition stDeadcode "a" (.one 0) = stDeadcode ∧
     extendDefinition stDeadcode "a" (.one 0) = stDeadcode ∧
     extendGlobal stDeadcode "a" (.one 0) = stDeadcode ∧
     setOrExtendGlobal stDeadcode "a" 0 = stDeadcode ∧
     (processBody [.pass] stDeadcode).deadcode = stDeadcode.deadcode) :=
  ⟨⟨by decide, by constructor <;> [decide; constructor] <;>
      [decide; constructor] <;> [decide; constructor] <;> [decide; decide]⟩,
    deadcode_write_suppression stDeadcode "a" (.one 0) 0 [.pass]
      (by decide)
      (by refine ⟨?_, ?_, ?_, ?_, ?_⟩ <;> decide)⟩

/-- `dict.__setitem__` makes the key map to the assigned value. -/
theorem sFind_sSet_self {α : Type} (l : List (String × α)) (k : String)
    (v : α) : sFind (sSet l k v) k = some v := by
  induction l with
  | nil => simp [sSet, sFind]
  | cons a l ih =>
      by_cases ha : a.1 = k
      · unfold sSet
        rw [if_pos (by simp [List.find?_cons, ha])]
        unfold sFind
        simp [List.find?_cons, ha]
      · have hstep : sSet (a :: l) k v = a :: sSet l k v := by
          unfold sSet
          by_cases hl : (List.find? (fun p => p.1 = k) l).isSome
          · rw [if_pos (by simp [List.find?_cons, ha, hl]),
              if_pos (by simp [hl])]
            simp [ha]
          · rw [if_neg (by simp [List.find?_cons, ha, hl]),
              if_neg (by simp [hl])]
            simp
        rw [hstep]
        unfold sFind
        rw [List.find?_cons_of_neg _ (by simp [ha])]
        exact ih

/-- `List.getD` after an in-bounds `List.set`. -/
theorem getD_set_self {α : Type} (l : List α) (i : Nat) (x d : α)
    (h : i < l.length) : (l.set i x).getD i d = x := by
  rw [List.getD_eq_getElem?_getD, List.getElem?_set_self h]
  rfl

/-- `List.getD` at the index of a just-appended element. -/
theorem getD_append_self {α : Type} (l : List α) (x d : α) :
    (l ++ [x]).getD l.length d = x := by
  rw [List.getD_eq_getElem?_getD, List.getElem?_append_right (Nat.le_refl _)]
  simp

/-- Effect of `set_definition` outside dead code on a valid top layer:
the top layer's entry becomes exactly the (deduplicated) assigned set,
and no diagnostic, stack or table changes. -/
theorem setDefinition_entry (st : St) (k : String) (src : DSrc)
    (hd : st.deadcode = 0) (ht : topD st.definitions 0 < st.layerArena.length) :
    layerEntry (setDefinition st k src) (topD st.definitions 0) k
      = osetOf src.toList ∧
    (setDefinition st k src).diags = st.diags ∧
    (setDefinition st k src).definitions = st.definitions := by
  unfold setDefinition
  rw [if_neg (by omega)]
  simp only
  unfold layerSetItem
  have hlen : ((newCell st src.toList).2).layerArena = st.layerArena := rfl
  cases hg : ((newCell st src.toList).2).layerArena.get? (topD ((newCell st src.toList).2).definitions 0) with
  | none =>
      exfalso
      rw [hlen] at hg
      have ht2 : topD ((newCell st src.toList).2).definitions 0
          = topD st.definitions 0 := rfl
      rw [ht2, List.get?_eq_getElem?, List.getElem?_eq_getElem ht] at hg
      exact Option.noConfusion hg
  | some lay =>
      refine ⟨?_, rfl, rfl⟩
      unfold layerEntry getLayer
      simp only
      have ht2 : topD ((newCell st src.toList).2).definitions 0
          = topD st.definitions 0 := rfl
      rw [ht2] at hg ⊢
      rw [getD_set_self _ _ _ _ (by rw [hlen] at hg ⊢; exact ht)]
      rw [sFind_sSet_self]
      unfold getCell newCell
      simp only
      rw [getD_append_self]

/-- C8: `visit_Nonlocal` scans the layers below the top one, innermost
first; when a binding is found it is aliased into the current top layer
(overwriting its entry with the enclosing entry) and no diagnostic is
produced; when no enclosing binding exists, the unbound-identifier
diagnostic is emitted and nothing is written to any layer or to the
locals table. -/
theorem nonlocal_resolution (st : St) (nid : Nat) (nm : String)
    (hd : st.deadcode = 0)
    (ht : topD st.definitions 0 < st.layerArena.length) :
    (∀ l, (st.definitions.dropLast.reverse).find?
        (fun l2 => layerHasKey st l2 nm) = some l →
      nonlocalOne st nid nm = setDefinition st nm (.many (layerEntry st l nm)) ∧
      (nonlocalOne st nid nm).diags = st.diags ∧
      layerEntry (nonlocalOne st nid nm) (topD st.definitions 0) nm
        = osetOf (layerEntry st l nm)) ∧
    ((st.definitions.dropLast.reverse).find?
        (fun l2 => layerHasKey st l2 nm) = none →
      (nonlocalOne st nid nm).diags = st.diags ++ [(nm, nid)] ∧
      (nonlocalOne st nid nm).layerArena = st.layerArena ∧
      (nonlocalOne st nid nm).cellArena = st.cellArena ∧
      (nonlocalOne st nid nm).localTab = st.localTab) := by
  constructor
  · intro l hl
    have he : nonlocalOne st nid nm
        = setDefinition st nm (.many (layerEntry st l nm)) := by
      unfold nonlocalOne
      rw [hl]
    have hs := setDefinition_entry st nm (.many (layerEntry st l nm)) hd ht
    exact ⟨he, by rw [he]; exact hs.2.1, by rw [he]; exact hs.1⟩
  · intro hn
    have he : nonlocalOne st nid nm = emitDiag st nm nid := by
      unfold nonlocalOne
      rw [hn]
    rw [he]
    exact ⟨rfl, rfl, rfl, rfl⟩

theorem nonlocal_resolution_witness :
    (stWildcard.deadcode = 0 ∧
     topD stWildcard.definitions 0 < stWildcard.layerArena.length) ∧
    ((∀ l, (stWildcard.definitions.dropLast.reverse).find?
        (fun l2 => layerHasKey stWildcard l2 "a") = some l →
      nonlocalOne stWildcard 7 "a"
        = setDefinition stWildcard "a" (.many (layerEntry stWildcard l "a")) ∧
      (nonlocalOne stWildcard 7 "a").diags = stWildcard.diags ∧
      layerEntry (nonlocalOne stWildcard 7 "a")
          (topD stWildcard.definitions 0) "a"
        = osetOf (layerEntry stWildcard l "a")) ∧
    ((stWildcard.definitions.dropLast.reverse).find?
        (fun l2 => layerHasKey stWildcard l2 "a") = none →
      (nonlocalOne stWildcard 7 "a").diags = stWildcard.diags ++ [("a", 7)] ∧
      (nonlocalOne stWildcard 7 "a").layerArena = stWildcard.layerArena ∧
      (nonlocalOne stWildcard 7 "a").cellArena = stWildcard.cellArena ∧
      (nonlocalOne stWildcard 7 "a").localTab = stWildcard.localTab)) :=
  ⟨⟨by decide, by decide⟩,
    nonlocal_resolution stWildcard 7 "a" (by decide) (by decide)⟩

/-- `add_user` folds do not touch the diagnostics. -/
theorem foldlAddUser_diags (ds : List DefId) (dnode : DefId) :
    ∀ st : St,
      (ds.foldl (fun s d => addUser s d dnode) st).diags = st.diags := by
  induction ds with
  | nil => intro st; rfl
  | cons x rest ih =>
      intro st
      simp only [List.foldl_cons]
      rw [ih (addUser st x dnode)]
      unfold addUser
      cases st.defArena.get? x <;> rfl

/-- Name resolution only reads the layer arena. -/
theorem getLayer_congr {a b : St} (h : b.layerArena = a.layerArena) :
    getLayer b = getLayer a := by
  funext l; unfold getLayer; rw [h]

theorem getCell_congr {a b : St} (h : b.cellArena = a.cellArena) :
    getCell b = getCell a := by
  funext c; unfold getCell; rw [h]

theorem layerHasKey_congr {a b : St} (h : b.layerArena = a.layerArena) :
    layerHasKey b = layerHasKey a := by
  funext l k; unfold layerHasKey; rw [getLayer_congr h]

theorem matLayer_congr {a b : St} (h1 : b.layerArena = a.layerArena)
    (h2 : b.cellArena = a.cellArena) : matLayer b = matLayer a := by
  funext l; unfold matLayer; rw [getLayer_congr h1, getCell_congr h2]

theorem invalidNameLookup_congr {a b : St}
    (h1 : b.layerArena = a.layerArena) (h3 : b.definitions = a.definitions)
    (h4 : b.scopeDepths = a.scopeDepths) :
    invalidNameLookup b = invalidNameLookup a := by
  funext nm sc pls seg
  unfold invalidNameLookup
  rw [layerHasKey_congr h1, h3, h4]

theorem lookedLoop_congr {a b : St}
    (h1 : b.layerArena = a.layerArena) (h3 : b.definitions = a.definitions)
    (h4 : b.scopeDepths = a.scopeDepths) :
    lookedLoop b = lookedLoop a := by
  funext nm bs lvl acc rest
  induction rest generalizing lvl acc with
  | nil => rfl
  | cons p rest ih =>
      unfold lookedLoop
      rw [h3, invalidNameLookup_congr h1 h3 h4]
      by_cases hc : p.1.isClass = true
      · rw [if_pos hc, if_pos hc]
        exact ih _ _
      · rw [if_neg hc, if_neg hc]
        by_cases hv : invalidNameLookup a nm bs p.2.2
            (pySlice a.definitions (lvl + p.2.1) lvl) = true
        · rw [if_pos hv, if_pos hv]
        · rw [if_neg hv, if_neg hv]
          exact ih _ _

theorem lookedUp_congr {a b : St}
    (h1 : b.layerArena = a.layerArena) (h3 : b.definitions = a.definitions)
    (h4 : b.scopeDepths = a.scopeDepths) (h5 : b.globalsStk = a.globalsStk)
    (h6 : b.precompLocals = a.precompLocals) (h7 : b.scopes = a.scopes) :
    lookedUp b = lookedUp a := by
  funext nm
  unfold lookedUp
  rw [h3, h4, h5, h6, h7, invalidNameLookup_congr h1 h3 h4,
    lookedLoop_congr h1 h3 h4]

/-- `defs` resolves a name identically in two states agreeing on the
layer and cell arenas and the five resolution stacks. -/
theorem defsResolution_congr {a b : St}
    (h1 : b.layerArena = a.layerArena) (h2 : b.cellArena = a.cellArena)
    (h3 : b.definitions = a.definitions) (h4 : b.scopeDepths = a.scopeDepths)
    (h5 : b.globalsStk = a.globalsStk) (h6 : b.precompLocals = a.precompLocals)
    (h7 : b.scopes = a.scopes) :
    defsResolution b = defsResolution a := by
  funext nm
  unfold defsResolution
  rw [lookedUp_congr h1 h3 h4 h5 h6 h7, matLayer_congr h1 h2]

/-- `defs` on a name with an explicit reaching set returns it and leaves
the state untouched. -/
theorem defsLookup_inl (st : St) (nid : Nat) (nm : String) (q : Bool)
    (ds : List DefId) (h : defsResolution st nm = .inl ds) :
    defsLookup st nid nm q = (ds, st) := by
  unfold defsLookup
  rw [h]

/-- Visiting a bound name in Load (or Del) context changes neither the
resolution state (arenas and stacks) nor the diagnostics. -/
theorem name_load_resolved (st : St) (nid : Nat) (nm : String)
    (ds : List DefId) (h : defsResolution st nm = .inl ds) :
    ((visitNameF st nid nm .load).2.layerArena = st.layerArena ∧
     (visitNameF st nid nm .load).2.cellArena = st.cellArena ∧
     (visitNameF st nid nm .load).2.definitions = st.definitions ∧
     (visitNameF st nid nm .load).2.scopeDepths = st.scopeDepths ∧
     (visitNameF st nid nm .load).2.globalsStk = st.globalsStk ∧
     (visitNameF st nid nm .load).2.precompLocals = st.precompLocals ∧
     (visitNameF st nid nm .load).2.scopes = st.scopes) ∧
    (visitNameF st nid nm .load).2.diags = st.diags := by
  unfold visitNameF
  simp only
  cases hf : aFind st.chains nid with
  | some d =>
      simp only
      rw [defsLookup_inl st nid nm false ds h]
      simp only [Option.isSome, if_true]
      have hfr := foldlAddUser_rest ds d st
      have hfd := foldlAddUser_diags ds d st
      unfold SameStacks at hfr
      exact ⟨⟨hfr.2.2.2.2, hfr.2.2.2.1, hfr.2.2.1.1, hfr.2.2.1.2.2.1,
        hfr.2.2.1.2.2.2.1, hfr.2.2.1.2.2.2.2.1, hfr.2.2.1.2.1⟩, hfd⟩
  | none =>
      simp only
      set st1 := (newDef st (.nameNode nid nm)).2 with hst1
      have h1 : defsResolution st1 nm = .inl ds := by
        rw [congrFun (defsResolution_congr (a := st) (b := st1)
          rfl rfl rfl rfl rfl rfl rfl) nm]
        exact h
      rw [defsLookup_inl st1 nid nm false ds h1]
      simp only [Option.isSome, if_false]
      have hfr := foldlAddUser_rest ds (newDef st (.nameNode nid nm)).1 st1
      have hfd := foldlAddUser_diags ds (newDef st (.nameNode nid nm)).1 st1
      unfold SameStacks at hfr
      have e1 : st1.layerArena = st.layerArena := rfl
      have e2 : st1.cellArena = st.cellArena := rfl
      have e3 : st1.definitions = st.definitions := rfl
      have e4 : st1.scopeDepths = st.scopeDepths := rfl
      have e5 : st1.globalsStk = st.globalsStk := rfl
      have e6 : st1.precompLocals = st.precompLocals := rfl
      have e7 : st1.scopes = st.scopes := rfl
      have e8 : st1.diags = st.diags := rfl
      exact ⟨⟨hfr.2.2.2.2.trans e1, hfr.2.2.2.1.trans e2,
        (hfr.2.2.1.1).trans e3, (hfr.2.2.1.2.2.1).trans e4,
        (hfr.2.2.1.2.2.2.1).trans e5, (hfr.2.2.1.2.2.2.2.1).trans e6,
        (hfr.2.2.1.2.1).trans e7⟩, hfd.trans e8⟩

/-- C10: a `Name` in Del context is visited exactly like a Load; for a
bound name, deleting it changes neither the resolution of that name (a
later use reaches the same definitions) nor the diagnostics (no
unbound-identifier report is produced). -/
theorem deletion_preserves_bindings (nid : Nat) (nm : String) (st : St)
    (ds : List DefId) (h : defsResolution st nm = .inl ds) :
    visitNameF st nid nm .del = visitNameF st nid nm .load ∧
    defsResolution (visitStmt (.delete [.name nid nm .del]) st) nm
      = .inl ds ∧
    (visitStmt (.delete [.name nid nm .del]) st).diags = st.diags := by
  have hdl : visitNameF st nid nm .del = visitNameF st nid nm .load := rfl
  have hv : visitStmt (.delete [.name nid nm .del]) st
      = (visitNameF st nid nm .del).2 := by
    simp only [visitStmt, visitExprList, visitExpr]
  have hr := name_load_resolved st nid nm ds h
  refine ⟨hdl, ?_, ?_⟩
  · rw [hv, hdl]
    rw [congrFun (defsResolution_congr hr.1.1 hr.1.2.1 hr.1.2.2.1
      hr.1.2.2.2.1 hr.1.2.2.2.2.1 hr.1.2.2.2.2.2.1 hr.1.2.2.2.2.2.2) nm]
    exact h
  · rw [hv, hdl]
    exact hr.2

theorem deletion_preserves_bindings_witness :
    defsResolution stWildcard "a" = .inl [0, 1] ∧
    (visitNameF stWildcard 9 "a" .del = visitNameF stWildcard 9 "a" .load ∧
     defsResolution (visitStmt (.delete [.name 9 "a" .del]) stWildcard) "a"
       = .inl [0, 1] ∧
     (visitStmt (.delete [.name 9 "a" .del]) stWildcard).diags
       = stWildcard.diags) :=
  ⟨by decide, deletion_preserves_bindings 9 "a" stWildcard [0, 1] (by decide)⟩

/-- Lookup in the inverse use→defs table. -/
def udFind (m : List (DNode × List DefId)) (k : DNode) :
    Option (List DefId) :=
  match m.find? (fun p => p.1 = k) with
  | some p => some p.2
  | none => none

theorem udFind_append_new (m : List (DNode × List DefId)) (k : DNode)
    (x : List DefId) (h : udFind m k = none) :
    udFind (m ++ [(k, x)]) k = some x := by
  induction m with
  | nil => simp [udFind]
  | cons a m ih =>
      unfold udFind at h ⊢
      by_cases ha : a.1 = k
      · rw [List.find?_cons_of_pos _ (by simp [ha])] at h
        exact Option.noConfusion h
      · rw [List.find?_cons_of_neg _ (by simp [ha])] at h
        rw [List.cons_append, List.find?_cons_of_neg _ (by simp [ha])]
        exact ih h

theorem udFind_append_other (m : List (DNode × List DefId)) (k k' : DNode)
    (x : List DefId) (h : (udFind m k').isSome) :
    udFind (m ++ [(k, x)]) k' = udFind m k' := by
  induction m with
  | nil => unfold udFind at h; simp at h
  | cons a m ih =>
      unfold udFind at h ⊢
      by_cases ha : a.1 = k'
      · rw [List.cons_append, List.find?_cons_of_pos _ (by simp [ha]),
          List.find?_cons_of_pos _ (by simp [ha])]
      · rw [List.find?_cons_of_neg _ (by simp [ha])] at h
        rw [List.cons_append, List.find?_cons_of_neg _ (by simp [ha]),
          List.find?_cons_of_neg _ (by simp [ha])]
        have h2 := ih h
        unfold udFind at h2
        exact h2

theorem udFind_udSetdefault_isSome (m : List (DNode × List DefId))
    (k : DNode) : (udFind (udSetdefault m k) k).isSome := by
  unfold udSetdefault
  by_cases hp : (m.find? (fun p => p.1 = k)).isSome
  · rw [if_pos hp]
    unfold udFind
    cases hg : m.find? (fun p => p.1 = k) with
    | none => rw [hg] at hp; exact absurd hp (by simp)
    | some p => rfl
  · rw [if_neg hp]
    have hn : udFind m k = none := by
      unfold udFind
      cases hg : m.find? (fun p => p.1 = k) with
      | none => rfl
      | some p => rw [hg] at hp; exact absurd rfl hp
    rw [udFind_append_new m k [] hn]
    rfl

theorem udFind_udSetdefault_other (m : List (DNode × List DefId))
    (k k' : DNode) (vs : List DefId) (h : udFind m k' = some vs) :
    udFind (udSetdefault m k) k' = some vs := by
  unfold udSetdefault
  by_cases hp : (m.find? (fun p => p.1 = k)).isSome
  · rw [if_pos hp]; exact h
  · rw [if_neg hp]
    rw [udFind_append_other m k k' [] (by rw [h]; rfl)]
    exact h

theorem udFind_map_self (m : List (DNode × List DefId)) (k : DNode)
    (v : DefId) (vs : List DefId) (h : udFind m k = some vs) :
    udFind (m.map (fun p => if p.1 = k then (p.1, p.2 ++ [v]) else p)) k
      = some (vs ++ [v]) := by
  induction m with
  | nil => unfold udFind at h; simp at h
  | cons a m ih =>
      unfold udFind at h ⊢
      by_cases ha : a.1 = k
      · rw [List.find?_cons_of_pos _ (by simp [ha])] at h
        simp only at h
        cases h
        rw [List.map_cons, if_pos ha,
          List.find?_cons_of_pos _ (by simp [ha])]
      · rw [List.find?_cons_of_neg _ (by simp [ha])] at h
        rw [List.map_cons, if_neg ha,
          List.find?_cons_of_neg _ (by simp [ha])]
        exact ih h

theorem udFind_map_other (m : List (DNode × List DefId)) (k k' : DNode)
    (v : DefId) (h : k' ≠ k) :
    udFind (m.map (fun p => if p.1 = k then (p.1, p.2 ++ [v]) else p)) k'
      = udFind m k' := by
  induction m with
  | nil => rfl
  | cons a m ih =>
      unfold udFind at ih ⊢
      by_cases hak : a.1 = k
      · have hak' : ¬ a.1 = k' := by
          rw [hak]; intro hc; exact h hc.symm
        rw [List.map_cons, if_pos hak,
          List.find?_cons_of_neg _ (by simp [hak']),
          List.find?_cons_of_neg _ (by simp [hak'])]
        exact ih
      · rw [List.map_cons, if_neg hak]
        by_cases ha : a.1 = k'
        · rw [List.find?_cons_of_pos _ (by simp [ha]),
            List.find?_cons_of_pos _ (by simp [ha])]
        · rw [List.find?_cons_of_neg _ (by simp [ha]),
            List.find?_cons_of_neg _ (by simp [ha])]
          exact ih

theorem udAppend_self (m : List (DNode × List DefId)) (k : DNode)
    (v : DefId) :
    ∃ vs, udFind (udAppend m k v) k = some vs ∧ v ∈ vs := by
  unfold udAppend
  have hs := udFind_udSetdefault_isSome m k
  cases hg : udFind (udSetdefault m k) k with
  | none => rw [hg] at hs; exact absurd hs (by simp)
  | some vs0 =>
      refine ⟨vs0 ++ [v], ?_, by simp⟩
      exact udFind_map_self (udSetdefault m k) k v vs0 hg

theorem udAppend_mono (m : List (DNode × List DefId)) (k k' : DNode)
    (v d : DefId) (vs : List DefId) (h : udFind m k' = some vs)
    (hd : d ∈ vs) :
    ∃ vs2, udFind (udAppend m k v) k' = some vs2 ∧ d ∈ vs2 := by
  unfold udAppend
  by_cases hk : k' = k
  · subst hk
    have h1 := udFind_udSetdefault_other m k' k' vs h
    exact ⟨vs ++ [v], udFind_map_self _ k' v vs h1, List.mem_append_left _ hd⟩
  · have h1 := udFind_udSetdefault_other m k k' vs h
    rw [udFind_map_other _ k k' v hk, h1]
    exact ⟨vs, rfl, hd⟩

theorem udAppend_isSome (m : List (DNode × List DefId)) (k k' : DNode)
    (v : DefId) (h : (udFind m k').isSome) :
    (udFind (udAppend m k v) k').isSome := by
  cases hg : udFind m k' with
  | none => rw [hg] at h; exact absurd h (by simp)
  | some vs =>
      cases vs with
      | nil =>
          unfold udAppend
          by_cases hk : k' = k
          · subst hk
            rw [udFind_map_self _ k' v [] (udFind_udSetdefault_other m k' k' [] hg)]
            rfl
          · rw [udFind_map_other _ k k' v hk,
              udFind_udSetdefault_other m k k' [] hg]
            rfl
      | cons d vs =>
          obtain ⟨vs2, h2, _⟩ := udAppend_mono m k k' v d (d :: vs) hg
            (by simp)
          rw [h2]; rfl

/-- The per-`Def` inner loop of `UseDefChains.__init__`: appending the
chain to each user's entry preserves recorded memberships and keys, and
records the chain under every user's node. -/
theorem udInnerFold (st : St) (dd : DefId) : ∀ (us : List DefId)
    (m : List (DNode × List DefId)),
    (∀ k d vs, udFind m k = some vs → d ∈ vs →
      ∃ vs2, udFind (us.foldl (fun m u => udAppend m (getDef st u).node dd) m)
        k = some vs2 ∧ d ∈ vs2) ∧
    (∀ u, u ∈ us →
      ∃ vs2, udFind (us.foldl (fun m u => udAppend m (getDef st u).node dd) m)
        (getDef st u).node = some vs2 ∧ dd ∈ vs2) ∧
    (∀ k, (udFind m k).isSome →
      (udFind (us.foldl (fun m u => udAppend m (getDef st u).node dd) m)
        k).isSome)
  | [], m => by
      refine ⟨fun k d vs hv hd => ⟨vs, hv, hd⟩, fun u hu => absurd hu (by simp),
        fun k hk => hk⟩
  | u0 :: us, m => by
      simp only [List.foldl_cons]
      have ih := udInnerFold st dd us (udAppend m (getDef st u0).node dd)
      refine ⟨?_, ?_, ?_⟩
      · intro k d vs hv hd
        obtain ⟨vs1, hv1, hd1⟩ :=
          udAppend_mono m (getDef st u0).node k dd d vs hv hd
        exact ih.1 k d vs1 hv1 hd1
      · intro u hu
        rw [List.mem_cons] at hu
        cases hu with
        | inl he =>
            subst he
            obtain ⟨vs1, hv1, hd1⟩ := udAppend_self m (getDef st u).node dd
            exact ih.1 _ dd vs1 hv1 hd1
        | inr hm => exact ih.2.1 u hm
      · intro k hk
        exact ih.2.2 k (udAppend_isSome m (getDef st u0).node k dd hk)

/-- The chains loop of `UseDefChains.__init__`. -/
theorem udChainsFold (st : St) : ∀ (L : List (Nat × DefId))
    (m : List (DNode × List DefId)),
    (∀ k d vs, udFind m k = some vs → d ∈ vs →
      ∃ vs2, udFind (L.foldl (fun m p =>
        let chainNode := (getDef st p.2).node
        let m := if isNameNode chainNode then udSetdefault m chainNode else m
        (usersOf st p.2).foldl
          (fun m u => udAppend m (getDef st u).node p.2) m) m) k
        = some vs2 ∧ d ∈ vs2) ∧
    (∀ p, p ∈ L → ∀ u, u ∈ usersOf st p.2 →
      ∃ vs2, udFind (L.foldl (fun m p =>
        let chainNode := (getDef st p.2).node
        let m := if isNameNode chainNode then udSetdefault m chainNode else m
        (usersOf st p.2).foldl
          (fun m u => udAppend m (getDef st u).node p.2) m) m)
        (getDef st u).node = some vs2 ∧ p.2 ∈ vs2) ∧
    (∀ k, (udFind m k).isSome →
      (udFind (L.foldl (fun m p =>
        let chainNode := (getDef st p.2).node
        let m := if isNameNode chainNode then udSetdefault m chainNode else m
        (usersOf st p.2).foldl
          (fun m u => udAppend m (getDef st u).node p.2) m) m) k).isSome) ∧
    (∀ p, p ∈ L → isNameNode (getDef st p.2).node →
      (udFind (L.foldl (fun m p =>
        let chainNode := (getDef st p.2).node
        let m := if isNameNode chainNode then udSetdefault m chainNode else m
        (usersOf st p.2).foldl
          (fun m u => udAppend m (getDef st u).node p.2) m) m)
        (getDef st p.2).node).isSome)
  | [], m => by
      refine ⟨fun k d vs hv hd => ⟨vs, hv, hd⟩,
        fun p hp => absurd hp (by simp), fun k hk => hk,
        fun p hp => absurd hp (by simp)⟩
  | p0 :: L, m => by
      simp only [List.foldl_cons]
      set m1 := if isNameNode (getDef st p0.2).node
        then udSetdefault m (getDef st p0.2).node else m with hm1
      have hmono1 : ∀ k d vs, udFind m k = some vs → d ∈ vs →
          ∃ vs2, udFind m1 k = some vs2 ∧ d ∈ vs2 := by
        intro k d vs hv hd
        rw [hm1]
        by_cases hn : isNameNode (getDef st p0.2).node
        · rw [if_pos hn]
          exact ⟨vs, udFind_udSetdefault_other m _ k vs hv, hd⟩
        · rw [if_neg hn]
          exact ⟨vs, hv, hd⟩
      have hsome1 : ∀ k, (udFind m k).isSome → (udFind m1 k).isSome := by
        intro k hk
        rw [hm1]
        by_cases hn : isNameNode (getDef st p0.2).node
        · rw [if_pos hn]
          cases hg : udFind m k with
          | none => rw [hg] at hk; exact absurd hk (by simp)
          | some vs =>
              rw [udFind_udSetdefault_other m _ k vs hg]
              rfl
        · rw [if_neg hn]; exact hk
      have hin := udInnerFold st p0.2 (usersOf st p0.2) m1
      set m2 := (usersOf st p0.2).foldl
        (fun m u => udAppend m (getDef st u).node p0.2) m1 with hm2
      have ih := udChainsFold st L m2
      refine ⟨?_, ?_, ?_, ?_⟩
      · intro k d vs hv hd
        obtain ⟨vs1, hv1, hd1⟩ := hmono1 k d vs hv hd
        obtain ⟨vs2, hv2, hd2⟩ := hin.1 k d vs1 hv1 hd1
        exact ih.1 k d vs2 hv2 hd2
      · intro p hp u hu
        rw [List.mem_cons] at hp
        cases hp with
        | inl he =>
            subst he
            obtain ⟨vs1, hv1, hd1⟩ := hin.2.1 u hu
            exact ih.1 _ p.2 vs1 hv1 hd1
        | inr hm => exact ih.2.1 p hm u hu
      · intro k hk
        exact ih.2.2.1 k (hin.2.2 k (hsome1 k hk))
      · intro p hp hname
        rw [List.mem_cons] at hp
        cases hp with
        | inl he =>
            subst he
            have h1 : (udFind m1 (getDef st p.2).node).isSome := by
              rw [hm1, if_pos hname]
              exact udFind_udSetdefault_isSome m (getDef st p.2).node
            exact ih.2.2.1 _ (hin.2.2 _ h1)
        | inr hm => exact ih.2.2.2 p hm hname

/-- The builtins loop of `UseDefChains.__init__`. -/
theorem udBuiltinsFold (st : St) : ∀ (L : List (String × DefId))
    (m : List (DNode × List DefId)),
    (∀ k d vs, udFind m k = some vs → d ∈ vs →
      ∃ vs2, udFind (L.foldl (fun m p =>
        (usersOf st p.2).foldl
          (fun m u => udAppend m (getDef st u).node p.2) m) m) k
        = some vs2 ∧ d ∈ vs2) ∧
    (∀ p, p ∈ L → ∀ u, u ∈ usersOf st p.2 →
      ∃ vs2, udFind (L.foldl (fun m p =>
        (usersOf st p.2).foldl
          (fun m u => udAppend m (getDef st u).node p.2) m) m)
        (getDef st u).node = some vs2 ∧ p.2 ∈ vs2) ∧
    (∀ k, (udFind m k).isSome →
      (udFind (L.foldl (fun m p =>
        (usersOf st p.2).foldl
          (fun m u => udAppend m (getDef st u).node p.2) m) m) k).isSome)
  | [], m => by
      refine ⟨fun k d vs hv hd => ⟨vs, hv, hd⟩,
        fun p hp => absurd hp (by simp), fun k hk => hk⟩
  | p0 :: L, m => by
      simp only [List.foldl_cons]
      have hin := udInnerFold st p0.2 (usersOf st p0.2) m
      set m2 := (usersOf st p0.2).foldl
        (fun m u => udAppend m (getDef st u).node p0.2) m with hm2
      have ih := udBuiltinsFold st L m2
      refine ⟨?_, ?_, ?_⟩
      · intro k d vs hv hd
        obtain ⟨vs2, hv2, hd2⟩ := hin.1 k d vs hv hd
        exact ih.1 k d vs2 hv2 hd2
      · intro p hp u hu
        rw [List.mem_cons] at hp
        cases hp with
        | inl he =>
            subst he
            obtain ⟨vs1, hv1, hd1⟩ := hin.2.1 u hu
            exact ih.1 _ p.2 vs1 hv1 hd1
        | inr hm => exact ih.2.1 p hm u hu
      · intro k hk
        exact ih.2.2 k (hin.2.2 k hk)

/-- The use state of the `C7` witness: a `Def` for `x` (node 1) used by
the `Def` for `y` (node 2), both recorded in `chains`. -/
def stUseDef : St :=
  { defArena := [⟨.nameNode 1 "x", [1]⟩, ⟨.nameNode 2 "y", []⟩],
    cellArena := [], layerArena := [],
    chains := [(1, 0), (2, 1)], localTab := [], builtins := [], defered := [],
    definitions := [], scopeDepths := [], globalsStk := [],
    precompLocals := [], undefs := [], scopes := [],
    deadcode := 0, diags := [], moduleId := 0 }

/-- C7: for every `Def` known to the analyzer (a value of `chains` or of
the builtins table) and every user `u` of it, the `UseDefChains` inverse
table maps `u`'s node to a list containing the `Def`; and every
`Name`-node `Def` recorded in `chains` appears as a key of the inverse
table even when no defining `Def` was recorded for it. -/
theorem usedef_inverse_roundtrip (st : St) (d u : DefId)
    (hknown : d ∈ chainVals st ∨ d ∈ st.builtins.map (fun p => p.2))
    (hu : u ∈ usersOf st d) :
    (∃ vs, udFind (useDefChains st) ((getDef st u).node) = some vs ∧
      d ∈ vs) ∧
    (∀ d2, d2 ∈ chainVals st → isNameNode (getDef st d2).node →
      (udFind (useDefChains st) (getDef st d2).node).isSome) := by
  unfold useDefChains
  simp only
  have hc := udChainsFold st st.chains []
  have hb := udBuiltinsFold st st.builtins
    (st.chains.foldl (fun m p =>
      let chainNode := (getDef st p.2).node
      let m := if isNameNode chainNode then udSetdefault m chainNode else m
      (usersOf st p.2).foldl
        (fun m u => udAppend m (getDef st u).node p.2) m) [])
  constructor
  · cases hknown with
    | inl hd =>
        unfold chainVals at hd
        obtain ⟨p, hp, hpd⟩ := List.mem_map.mp hd
        obtain ⟨vs1, hv1, hd1⟩ := hc.2.1 p hp u (by rw [hpd]; exact hu)
        obtain ⟨vs2, hv2, hd2⟩ := hb.1 _ p.2 vs1 hv1 hd1
        exact ⟨vs2, hv2, by rw [← hpd]; exact hd2⟩
    | inr hd =>
        obtain ⟨p, hp, hpd⟩ := List.mem_map.mp hd
        obtain ⟨vs1, hv1, hd1⟩ := hb.2.1 p hp u (by rw [hpd]; exact hu)
        exact ⟨vs1, hv1, by rw [← hpd]; exact hd1⟩
  · intro d2 hd2 hname
    unfold chainVals at hd2
    obtain ⟨p, hp, hpd⟩ := List.mem_map.mp hd2
    subst hpd
    exact hb.2.2 _ (hc.2.2.2 p hp hname)

theorem usedef_inverse_roundtrip_witness :
    ((0 : DefId) ∈ chainVals stUseDef ∨
      (0 : DefId) ∈ stUseDef.builtins.map (fun p => p.2)) ∧
    (1 : DefId) ∈ usersOf stUseDef 0 ∧
    ((∃ vs, udFind (useDefChains stUseDef) ((getDef stUseDef 1).node)
        = some vs ∧ (0 : DefId) ∈ vs) ∧
     (∀ d2, d2 ∈ chainVals stUseDef → isNameNode (getDef stUseDef d2).node →
       (udFind (useDefChains stUseDef) (getDef stUseDef d2).node).isSome)) :=
  ⟨.inl (by decide), by decide,
    usedef_inverse_roundtrip stUseDef 0 1 (.inl (by decide)) (by decide)⟩

/-- `ordered_set.add` preserves distinctness. -/
theorem osetAdd_nodup {l : List Nat} {x : Nat} (h : l.Nodup) :
    (osetAdd l x).Nodup := by
  unfold osetAdd
  by_cases hx : x ∈ l
  · rw [if_pos hx]; exact h
  · rw [if_neg hx]
    exact List.Nodup.append h (List.nodup_singleton x)
      (by intro a ha hb; rw [List.mem_singleton] at hb; subst hb; exact hx ha)

/-- `ordered_set.update` preserves distinctness. -/
theorem osetUpdate_nodup {l : List Nat} (xs : List Nat) (h : l.Nodup) :
    (osetUpdate l xs).Nodup := by
  induction xs generalizing l with
  | nil => exact h
  | cons x xs ih =>
      unfold osetUpdate
      rw [List.foldl_cons]
      exact ih (osetAdd_nodup h)

/-- `ordered_set(xs)` is distinct. -/
theorem osetOf_nodup (xs : List Nat) : (osetOf xs).Nodup :=
  osetUpdate_nodup xs List.nodup_nil

/-- Updating with fresh distinct elements is concatenation. -/
theorem osetUpdate_eq_append : ∀ (xs acc : List Nat), acc.Nodup → xs.Nodup →
    (∀ x, x ∈ xs → x ∉ acc) → osetUpdate acc xs = acc ++ xs
  | [], acc, _, _, _ => by simp [osetUpdate]
  | x :: xs, acc, ha, hx, hf => by
      unfold osetUpdate
      rw [List.foldl_cons]
      have hxa : x ∉ acc := hf x (by simp)
      have hadd : osetAdd acc x = acc ++ [x] := by
        unfold osetAdd; rw [if_neg hxa]
      rw [hadd]
      have h2 := osetUpdate_eq_append xs (acc ++ [x])
        (List.Nodup.append ha (List.nodup_singleton x)
          (by intro a hb hc; rw [List.mem_singleton] at hc; subst hc; exact hxa hb))
        (List.Nodup.of_cons hx)
        (by
          intro y hy hmem
          rw [List.mem_append, List.mem_singleton] at hmem
          cases hmem with
          | inl h3 => exact hf y (List.mem_cons_of_mem x hy) h3
          | inr h3 =>
              subst h3
              exact (List.nodup_cons.mp hx).1 hy)
      unfold osetUpdate at h2
      rw [h2, List.append_assoc]
      rfl

/-- `ordered_set(xs)` of an already-distinct list is the list itself. -/
theorem osetOf_eq_self {xs : List Nat} (h : xs.Nodup) : osetOf xs = xs := by
  unfold osetOf
  rw [osetUpdate_eq_append xs [] List.nodup_nil h (by intro x _ hx; simp at hx)]
  rfl

/-- `name in layer` is membership in the key list. -/
theorem sFind_isSome_mem {α : Type} : ∀ (l : List (String × α)) (k : String),
    (sFind l k).isSome ↔ k ∈ l.map (fun p => p.1)
  | [], k => by simp [sFind]
  | a :: l, k => by
      unfold sFind
      by_cases ha : a.1 = k
      · rw [List.find?_cons_of_pos _ (by simp [ha])]
        simp [ha]
      · rw [List.find?_cons_of_neg _ (by simp [ha])]
        have h2 := sFind_isSome_mem l k
        unfold sFind at h2
        rw [List.map_cons, List.mem_cons]
        constructor
        · intro h3; exact .inr (h2.mp h3)
        · intro h3
          cases h3 with
          | inl h4 => exact absurd h4.symm ha
          | inr h4 => exact h2.mpr h4

/-- The cells (shared `ordered_set` objects) a layer's entries point to. -/
def layerCells (st : St) (l : LayerId) : List CellId :=
  (getLayer st l).map (fun p => p.2)

/-- The hygiene conditions of the `If` merge: the two branch layers are
distinct from the top layer, the top layer is a real layer, keys inside
each of the three layers are distinct, and the cells of the three layers
are pairwise distinct, in bounds and hold distinct `Def` lists (no
aliasing between the entries being merged). -/
@[reducible]
def MergeHygiene (st : St) (bl ol : LayerId) : Prop :=
  bl ≠ topD st.definitions 0 ∧ ol ≠ topD st.definitions 0 ∧
  topD st.definitions 0 < st.layerArena.length ∧
  ((getLayer st bl).map (fun p => p.1)).Nodup ∧
  ((getLayer st ol).map (fun p => p.1)).Nodup ∧
  (layerCells st (topD st.definitions 0)
    ++ (layerCells st bl ++ layerCells st ol)).Nodup ∧
  (∀ c, c ∈ layerCells st (topD st.definitions 0)
      ++ (layerCells st bl ++ layerCells st ol) →
    c < st.cellArena.length) ∧
  (∀ c, c ∈ layerCells st (topD st.definitions 0)
      ++ (layerCells st bl ++ layerCells st ol) →
    (getCell st c).Nodup)

/-- `List.getD` is unchanged at other indices by `List.set`. -/
theorem getD_set_ne {α : Type} (l : List α) (i j : Nat) (x d : α)
    (h : i ≠ j) : (l.set i x).getD j d = l.getD j d := by
  rw [List.getD_eq_getElem?_getD, List.getD_eq_getElem?_getD,
    List.getElem?_set_ne h]

/-- Setting the last element of an appended singleton. -/
theorem set_append_self {α : Type} : ∀ (l : List α) (x y : α),
    (l ++ [x]).set l.length y = l ++ [y]
  | [], x, y => rfl
  | a :: l, x, y => by
      simp only [List.cons_append, List.length_cons, List.set_cons_succ]
      rw [set_append_self l x y]

/-- `dict.__setitem__` leaves other keys' entries unchanged. -/
theorem sFind_sSet_ne {α : Type} : ∀ (l : List (String × α)) (k k' : String)
    (v : α), k' ≠ k → sFind (sSet l k v) k' = sFind l k'
  | [], k, k', v, h => by
      unfold sSet sFind
      simp only [List.find?_nil]
      rw [if_neg (by simp)]
      rw [List.nil_append, List.find?_cons_of_neg _ (by simp; intro hc; exact h hc.symm)]
      rfl
  | a :: l, k, k', v, h => by
      by_cases ha : a.1 = k
      · unfold sSet
        rw [if_pos (by simp [List.find?_cons, ha])]
        unfold sFind
        rw [List.map_cons, if_pos ha]
        have hak' : ¬ (k : String) = k' := by intro hc; exact h hc.symm
        rw [List.find?_cons_of_neg _ (by simp [hak'])]
        by_cases ha' : a.1 = k'
        · exfalso; exact h (ha'.symm.trans ha)
        · rw [List.find?_cons_of_neg _ (by simp [ha'])]
          -- remaining: find? on mapped tail versus tail
          have : ∀ (m : List (String × α)),
              List.find? (fun p => p.1 = k') (m.map
                (fun p => if p.1 = k then (k, v) else p))
              = List.find? (fun p => p.1 = k') m := by
            intro m
            induction m with
            | nil => rfl
            | cons b m ihm =>
                by_cases hb : b.1 = k
                · rw [List.map_cons, if_pos hb]
                  rw [List.find?_cons_of_neg _ (by simp [hak'])]
                  rw [List.find?_cons_of_neg _
                    (by simp [hb]; intro hc; exact h (hc ▸ hb ▸ rfl))]
                  exact ihm
                · rw [List.map_cons, if_neg hb]
                  by_cases hb' : b.1 = k'
                  · rw [List.find?_cons_of_pos _ (by simp [hb']),
                      List.find?_cons_of_pos _ (by simp [hb'])]
                  · rw [List.find?_cons_of_neg _ (by simp [hb']),
                      List.find?_cons_of_neg _ (by simp [hb'])]
                    exact ihm
          rw [this l]
      · have hstep : sSet (a :: l) k v = a :: sSet l k v := by
          unfold sSet
          by_cases hl : (List.find? (fun p => p.1 = k) l).isSome
          · rw [if_pos (by simp [List.find?_cons, ha, hl]),
              if_pos (by simp [hl])]
            simp [ha]
          · rw [if_neg (by simp [List.find?_cons, ha, hl]),
              if_neg (by simp [hl])]
            simp
        rw [hstep]
        unfold sFind
        by_cases ha' : a.1 = k'
        · rw [List.find?_cons_of_pos _ (by simp [ha']),
            List.find?_cons_of_pos _ (by simp [ha'])]
        · rw [List.find?_cons_of_neg _ (by simp [ha']),
            List.find?_cons_of_neg _ (by simp [ha'])]
          have h2 := sFind_sSet_ne l k k' v h
          unfold sFind at h2
          exact h2

/-- Frame of `set_definition` outside dead code: a fresh cell is
appended, the top layer's entry for the key is repointed at it, and
nothing else changes. -/
theorem setDefinition_frame (st : St) (d : String) (src : DSrc)
    (hd : st.deadcode = 0)
    (ht : topD st.definitions 0 < st.layerArena.length) :
    (setDefinition st d src).definitions = st.definitions ∧
    (setDefinition st d src).deadcode = st.deadcode ∧
    (setDefinition st d src).layerArena.length = st.layerArena.length ∧
    (setDefinition st d src).cellArena = st.cellArena ++ [osetOf src.toList] ∧
    (∀ l, l ≠ topD st.definitions 0 →
      getLayer (setDefinition st d src) l = getLayer st l) ∧
    (∀ k, k ≠ d →
      sFind (getLayer (setDefinition st d src) (topD st.definitions 0)) k
        = sFind (getLayer st (topD st.definitions 0)) k) ∧
    sFind (getLayer (setDefinition st d src) (topD st.definitions 0)) d
      = some st.cellArena.length := by
  unfold setDefinition
  rw [if_neg (by omega)]
  simp only
  unfold layerSetItem
  cases hg : ((newCell st src.toList).2).layerArena.get?
      (topD ((newCell st src.toList).2).definitions 0) with
  | none =>
      exfalso
      have ht2 : topD ((newCell st src.toList).2).definitions 0
          = topD st.definitions 0 := rfl
      have hlen : ((newCell st src.toList).2).layerArena = st.layerArena := rfl
      rw [ht2, hlen, List.get?_eq_getElem?, List.getElem?_eq_getElem ht] at hg
      exact Option.noConfusion hg
  | some lay =>
      have ht2 : topD ((newCell st src.toList).2).definitions 0
          = topD st.definitions 0 := rfl
      have hlen : ((newCell st src.toList).2).layerArena = st.layerArena := rfl
      rw [ht2, hlen] at hg
      have hlay : lay = getLayer st (topD st.definitions 0) := by
        unfold getLayer
        rw [List.getD_eq_getElem?_getD, ← List.get?_eq_getElem?, hg]
        rfl
      refine ⟨rfl, rfl, by simp [hlen], rfl, ?_, ?_, ?_⟩
      · intro l hl
        unfold getLayer
        simp only [ht2, hlen]
        exact getD_set_ne _ _ _ _ _ (fun he => hl he.symm)
      · intro k hk
        unfold getLayer
        simp only [ht2, hlen]
        rw [getD_set_self _ _ _ _ ht]
        rw [sFind_sSet_ne lay d k _ hk, hlay]
        rfl
      · unfold getLayer
        simp only [ht2, hlen]
        rw [getD_set_self _ _ _ _ ht]
        exact sFind_sSet_self lay d _

/-- Frame of `extend_definition` outside dead code when the top layer
already binds the key: the bound cell is extended in place. -/
theorem extendDefinition_frame_found (st : St) (d : String) (src : DSrc)
    (c : CellId) (hd : st.deadcode = 0)
    (hc : sFind (getLayer st (topD st.definitions 0)) d = some c) :
    (extendDefinition st d src).definitions = st.definitions ∧
    (extendDefinition st d src).deadcode = st.deadcode ∧
    (extendDefinition st d src).layerArena = st.layerArena ∧
    (extendDefinition st d src).cellArena
      = match st.cellArena.get? c with
        | some l0 => st.cellArena.set c (osetUpdate l0 src.toList)
        | none => st.cellArena := by
  unfold extendDefinition
  rw [if_neg (by omega)]
  unfold addToDefinition
  rw [hc]
  simp only
  unfold cellExtend
  cases hg : st.cellArena.get? c with
  | none => exact ⟨rfl, rfl, rfl, rfl⟩
  | some l0 => exact ⟨rfl, rfl, rfl, rfl⟩

/-- Frame of `extend_definition` outside dead code when the key is new
to the top layer: a fresh cell is appended and the key bound to it. -/
theorem extendDefinition_frame_new (st : St) (d : String) (src : DSrc)
    (hd : st.deadcode = 0)
    (ht : topD st.definitions 0 < st.layerArena.length)
    (hc : sFind (getLayer st (topD st.definitions 0)) d = none) :
    (extendDefinition st d src).definitions = st.definitions ∧
    (extendDefinition st d src).deadcode = st.deadcode ∧
    (extendDefinition st d src).layerArena.length = st.layerArena.length ∧
    (extendDefinition st d src).cellArena
      = st.cellArena ++ [osetOf src.toList] ∧
    (∀ l, l ≠ topD st.definitions 0 →
      getLayer (extendDefinition st d src) l = getLayer st l) ∧
    (∀ k, k ≠ d →
      sFind (getLayer (extendDefinition st d src) (topD st.definitions 0)) k
        = sFind (getLayer st (topD st.definitions 0)) k) ∧
    sFind (getLayer (extendDefinition st d src) (topD st.definitions 0)) d
      = some st.cellArena.length := by
  have hget : st.layerArena.get? (topD st.definitions 0)
      = some (getLayer st (topD st.definitions 0)) := by
    rw [List.get?_eq_getElem?, List.getElem?_eq_getElem ht]
    unfold getLayer
    rw [List.getD_eq_getElem?_getD, List.getElem?_eq_getElem ht]
    rfl
  have hc2 : ((newCell st ([] : List DefId)).2).cellArena.get?
      ((newCell st ([] : List DefId)).1) = some [] := by
    show (st.cellArena ++ [osetOf []]).get? st.cellArena.length = some []
    rw [List.get?_eq_getElem?, List.getElem?_append_right (Nat.le_refl _)]
    simp
    rfl
  have hEq : extendDefinition st d src
      = { st with
            cellArena := (st.cellArena ++ [[]]).set st.cellArena.length
              (osetUpdate [] src.toList),
            layerArena := st.layerArena.set (topD st.definitions 0)
              (sSet (getLayer st (topD st.definitions 0)) d
                st.cellArena.length) } := by
    unfold extendDefinition
    rw [if_neg (by omega)]
    unfold addToDefinition
    rw [hc]
    simp only
    unfold layerSetItem
    rw [show ((newCell st ([] : List DefId)).2).layerArena = st.layerArena
      from rfl, hget]
    simp only
    unfold cellExtend
    rw [hc2]
    rfl
  rw [hEq]
  refine ⟨rfl, rfl, by simp, ?_, ?_, ?_, ?_⟩
  · show (st.cellArena ++ [[]]).set st.cellArena.length
        (osetUpdate [] src.toList) = st.cellArena ++ [osetOf src.toList]
    rw [set_append_self]
    rfl
  · intro l hl
    unfold getLayer
    simp only
    exact getD_set_ne _ _ _ _ _ (fun he => hl he.symm)
  · intro k hk
    unfold getLayer
    simp only
    rw [getD_set_self _ _ _ _ ht]
    rw [sFind_sSet_ne _ d k _ hk]
  · unfold getLayer
    simp only
    rw [getD_set_self _ _ _ _ ht]
    exact sFind_sSet_self _ d _

/-- A successful string lookup returns an actual entry. -/
theorem sFind_some_mem_pair {α : Type} : ∀ {l : List (String × α)}
    {k : String} {v : α}, sFind l k = some v → (k, v) ∈ l
  | [], k, v, h => by unfold sFind at h; simp at h
  | a :: l, k, v, h => by
      unfold sFind at h
      by_cases ha : a.1 = k
      · rw [List.find?_cons_of_pos _ (by simp [ha])] at h
        simp only at h
        cases h
        have : a = (a.1, a.2) := rfl
        rw [List.mem_cons]
        exact .inl (by rw [this, ha])
      · rw [List.find?_cons_of_neg _ (by simp [ha])] at h
        have h2 : sFind l k = some v := by unfold sFind; exact h
        exact List.mem_cons_of_mem a (sFind_some_mem_pair h2)

/-- The working form of the merge hygiene: per-lookup versions of the
distinctness conditions, preserved step by step through the merge. -/
structure MergeInv (st : St) (bl ol : LayerId) : Prop where
  blNe : bl ≠ topD st.definitions 0
  olNe : ol ≠ topD st.definitions 0
  topLt : topD st.definitions 0 < st.layerArena.length
  blKeys : ((getLayer st bl).map (fun p => p.1)).Nodup
  olKeys : ((getLayer st ol).map (fun p => p.1)).Nodup
  branchLt : ∀ c, c ∈ layerCells st bl ++ layerCells st ol →
    c < st.cellArena.length
  branchNodup : ∀ c, c ∈ layerCells st bl ++ layerCells st ol →
    (getCell st c).Nodup
  topBranch : ∀ c, c ∈ layerCells st bl ++ layerCells st ol →
    ∀ k, sFind (getLayer st (topD st.definitions 0)) k ≠ some c
  topInj : ∀ k1 k2 c, k1 ≠ k2 →
    sFind (getLayer st (topD st.definitions 0)) k1 = some c →
    sFind (getLayer st (topD st.definitions 0)) k2 ≠ some c
  topCellLt : ∀ k c, sFind (getLayer st (topD st.definitions 0)) k = some c →
    c < st.cellArena.length

/-- The hygiene conditions imply their per-lookup working form. -/
theorem mergeInv_of_hygiene {st : St} {bl ol : LayerId}
    (hh : MergeHygiene st bl ol) : MergeInv st bl ol := by
  obtain ⟨h1, h2, h3, h4, h5, h6, h7, h8⟩ := hh
  have hdisj := List.disjoint_of_nodup_append h6
  have htopc : (layerCells st (topD st.definitions 0)).Nodup :=
    h6.of_append_left
  refine ⟨h1, h2, h3, h4, h5, ?_, ?_, ?_, ?_, ?_⟩
  · intro c hc
    exact h7 c (List.mem_append_right _ hc)
  · intro c hc
    exact h8 c (List.mem_append_right _ hc)
  · intro c hc k hfind
    have hmem := sFind_some_mem_pair hfind
    have hcin : c ∈ layerCells st (topD st.definitions 0) := by
      unfold layerCells
      exact List.mem_map.mpr ⟨(k, c), hmem, rfl⟩
    exact hdisj hcin hc
  · intro k1 k2 c hne hf1 hf2
    have hm1 := sFind_some_mem_pair hf1
    have hm2 := sFind_some_mem_pair hf2
    have heq := List.inj_on_of_nodup_map htopc hm1 hm2 rfl
    exact hne (congrArg Prod.fst heq)
  · intro k c hfind
    have hmem := sFind_some_mem_pair hfind
    refine h7 c (List.mem_append_left _ ?_)
    unfold layerCells
    exact List.mem_map.mpr ⟨(k, c), hmem, rfl⟩

/-- `List.getD` inside the left part of an append. -/
theorem getD_append_left {α : Type} (l l2 : List α) (n : Nat) (d : α)
    (h : n < l.length) : (l ++ l2).getD n d = l.getD n d := by
  rw [List.getD_eq_getElem?_getD, List.getD_eq_getElem?_getD,
    List.getElem?_append, if_pos h]

/-- The merge invariant survives an operation that repoints at most the
entry of key `d` in the top layer (either leaving the lookup unchanged
or binding `d` to a freshly allocated cell), does not shrink the arenas,
and leaves the branch layers and their cells unchanged. -/
theorem mergeInv_repoint {st res : St} {bl ol : LayerId} (d : String)
    (hh : MergeInv st bl ol)
    (hdef : res.definitions = st.definitions)
    (hlay : res.layerArena.length = st.layerArena.length)
    (hbl : getLayer res bl = getLayer st bl)
    (hol : getLayer res ol = getLayer st ol)
    (hcells : ∀ c, c ∈ layerCells st bl ++ layerCells st ol →
      getCell res c = getCell st c)
    (hlen : st.cellArena.length ≤ res.cellArena.length)
    (hfr : ∀ k c, sFind (getLayer res (topD st.definitions 0)) k = some c →
      sFind (getLayer st (topD st.definitions 0)) k = some c ∨
      (k = d ∧ st.cellArena.length ≤ c ∧ c < res.cellArena.length)) :
    MergeInv res bl ol := by
  have htop : topD res.definitions 0 = topD st.definitions 0 := by rw [hdef]
  have hbc : layerCells res bl ++ layerCells res ol
      = layerCells st bl ++ layerCells st ol := by
    unfold layerCells
    rw [hbl, hol]
  refine ⟨?_, ?_, ?_, ?_, ?_, ?_, ?_, ?_, ?_, ?_⟩
  · rw [htop]; exact hh.blNe
  · rw [htop]; exact hh.olNe
  · rw [htop, hlay]; exact hh.topLt
  · rw [hbl]; exact hh.blKeys
  · rw [hol]; exact hh.olKeys
  · intro c hc
    rw [hbc] at hc
    exact Nat.lt_of_lt_of_le (hh.branchLt c hc) hlen
  · intro c hc
    rw [hbc] at hc
    rw [hcells c hc]
    exact hh.branchNodup c hc
  · intro c hc k hfind
    rw [hbc] at hc
    rw [htop] at hfind
    cases hfr k c hfind with
    | inl hold => exact hh.topBranch c hc k hold
    | inr hfresh =>
        exact absurd (hh.branchLt c hc) (Nat.not_lt.mpr hfresh.2.1)
  · intro k1 k2 c hne hf1 hf2
    rw [htop] at hf1 hf2
    cases hfr k1 c hf1 with
    | inl ho1 =>
        cases hfr k2 c hf2 with
        | inl ho2 => exact hh.topInj k1 k2 c hne ho1 ho2
        | inr hr2 =>
            exact absurd (hh.topCellLt k1 c ho1) (Nat.not_lt.mpr hr2.2.1)
    | inr hr1 =>
        cases hfr k2 c hf2 with
        | inl ho2 =>
            exact absurd (hh.topCellLt k2 c ho2) (Nat.not_lt.mpr hr1.2.1)
        | inr hr2 =>
            exact hne (hr1.1.trans hr2.1.symm)
  · intro k c hfind
    rw [htop] at hfind
    cases hfr k c hfind with
    | inl hold => exact Nat.lt_of_lt_of_le (hh.topCellLt k c hold) hlen
    | inr hfresh => exact hfresh.2.2

/-- `set_definition` during the merge: the top entry of `d` becomes the
deduplicated assigned set, and everything the merge later reads is
preserved. -/
theorem mergeOp_set {st : St} {bl ol : LayerId} (d : String) (src : DSrc)
    (hh : MergeInv st bl ol) (hd : st.deadcode = 0) :
    (setDefinition st d src).definitions = st.definitions ∧
    (setDefinition st d src).deadcode = 0 ∧
    MergeInv (setDefinition st d src) bl ol ∧
    getLayer (setDefinition st d src) bl = getLayer st bl ∧
    getLayer (setDefinition st d src) ol = getLayer st ol ∧
    (∀ c, c ∈ layerCells st bl ++ layerCells st ol →
      getCell (setDefinition st d src) c = getCell st c) ∧
    st.cellArena.length ≤ (setDefinition st d src).cellArena.length ∧
    (∀ k, k ≠ d →
      sFind (getLayer (setDefinition st d src) (topD st.definitions 0)) k
        = sFind (getLayer st (topD st.definitions 0)) k) ∧
    (∀ k, k ≠ d →
      layerEntry (setDefinition st d src) (topD st.definitions 0) k
        = layerEntry st (topD st.definitions 0) k) ∧
    layerEntry (setDefinition st d src) (topD st.definitions 0) d
      = osetOf src.toList := by
  obtain ⟨f1, f2, f3, f4, f5, f6, f7⟩ :=
    setDefinition_frame st d src hd hh.topLt
  have hcellR : ∀ c, c < st.cellArena.length →
      getCell (setDefinition st d src) c = getCell st c := by
    intro c hc
    unfold getCell
    rw [f4]
    exact getD_append_left _ _ _ _ hc
  have hbl : getLayer (setDefinition st d src) bl = getLayer st bl :=
    f5 bl hh.blNe
  have hol : getLayer (setDefinition st d src) ol = getLayer st ol :=
    f5 ol hh.olNe
  have hcells : ∀ c, c ∈ layerCells st bl ++ layerCells st ol →
      getCell (setDefinition st d src) c = getCell st c := by
    intro c hc
    exact hcellR c (hh.branchLt c hc)
  have hlen : st.cellArena.length
      ≤ (setDefinition st d src).cellArena.length := by
    rw [f4]
    simp
  have hentry : layerEntry (setDefinition st d src) (topD st.definitions 0) d
      = osetOf src.toList := by
    unfold layerEntry
    rw [f7]
    unfold getCell
    rw [f4]
    exact getD_append_self _ _ _
  have hpres : ∀ k, k ≠ d →
      layerEntry (setDefinition st d src) (topD st.definitions 0) k
        = layerEntry st (topD st.definitions 0) k := by
    intro k hk
    unfold layerEntry
    rw [f6 k hk]
    cases hg : sFind (getLayer st (topD st.definitions 0)) k with
    | none => rfl
    | some c => exact hcellR c (hh.topCellLt k c hg)
  have hinv : MergeInv (setDefinition st d src) bl ol := by
    refine mergeInv_repoint d hh f1 f3 hbl hol hcells hlen ?_
    intro k c hfind
    by_cases hk : k = d
    · subst hk
      rw [f7] at hfind
      cases hfind
      refine .inr ⟨rfl, Nat.le_refl _, ?_⟩
      rw [f4]
      simp
    · exact .inl (by rw [← f6 k hk]; exact hfind)
  exact ⟨f1, by rw [f2, hd], hinv, hbl, hol, hcells, hlen, f6, hpres, hentry⟩

/-- `extend_definition` during the merge: the top entry of `d` is
extended in place with the assigned set (creating it when absent), and
everything the merge later reads is preserved. -/
theorem mergeOp_extend {st : St} {bl ol : LayerId} (d : String) (src : DSrc)
    (hh : MergeInv st bl ol) (hd : st.deadcode = 0) :
    (extendDefinition st d src).definitions = st.definitions ∧
    (extendDefinition st d src).deadcode = 0 ∧
    MergeInv (extendDefinition st d src) bl ol ∧
    getLayer (extendDefinition st d src) bl = getLayer st bl ∧
    getLayer (extendDefinition st d src) ol = getLayer st ol ∧
    (∀ c, c ∈ layerCells st bl ++ layerCells st ol →
      getCell (extendDefinition st d src) c = getCell st c) ∧
    st.cellArena.length ≤ (extendDefinition st d src).cellArena.length ∧
    (∀ k, k ≠ d →
      sFind (getLayer (extendDefinition st d src) (topD st.definitions 0)) k
        = sFind (getLayer st (topD st.definitions 0)) k) ∧
    (∀ k, k ≠ d →
      layerEntry (extendDefinition st d src) (topD st.definitions 0) k
        = layerEntry st (topD st.definitions 0) k) ∧
    layerEntry (extendDefinition st d src) (topD st.definitions 0) d
      = osetUpdate (layerEntry st (topD st.definitions 0) d) src.toList := by
  cases hcf : sFind (getLayer st (topD st.definitions 0)) d with
  | none =>
      obtain ⟨f1, f2, f3, f4, f5, f6, f7⟩ :=
        extendDefinition_frame_new st d src hd hh.topLt hcf
      have hcellR : ∀ c, c < st.cellArena.length →
          getCell (extendDefinition st d src) c = getCell st c := by
        intro c hc
        unfold getCell
        rw [f4]
        exact getD_append_left _ _ _ _ hc
      have hbl := f5 bl hh.blNe
      have hol := f5 ol hh.olNe
      have hcells : ∀ c, c ∈ layerCells st bl ++ layerCells st ol →
          getCell (extendDefinition st d src) c = getCell st c := by
        intro c hc
        exact hcellR c (hh.branchLt c hc)
      have hlen : st.cellArena.length
          ≤ (extendDefinition st d src).cellArena.length := by
        rw [f4]; simp
      have hentry : layerEntry (extendDefinition st d src)
          (topD st.definitions 0) d
          = osetUpdate (layerEntry st (topD st.definitions 0) d)
              src.toList := by
        unfold layerEntry
        rw [f7, hcf]
        simp only
        unfold getCell
        rw [f4]
        rw [getD_append_self]
        rfl
      have hpres : ∀ k, k ≠ d →
          layerEntry (extendDefinition st d src) (topD st.definitions 0) k
            = layerEntry st (topD st.definitions 0) k := by
        intro k hk
        unfold layerEntry
        rw [f6 k hk]
        cases hg : sFind (getLayer st (topD st.definitions 0)) k with
        | none => rfl
        | some c => exact hcellR c (hh.topCellLt k c hg)
      have hinv : MergeInv (extendDefinition st d src) bl ol := by
        refine mergeInv_repoint d hh f1 f3 hbl hol hcells hlen ?_
        intro k c hfind
        by_cases hk : k = d
        · subst hk
          rw [f7] at hfind
          cases hfind
          refine .inr ⟨rfl, Nat.le_refl _, ?_⟩
          rw [f4]
          simp
        · exact .inl (by rw [← f6 k hk]; exact hfind)
      exact ⟨f1, by rw [f2, hd], hinv, hbl, hol, hcells, hlen, f6, hpres,
        hentry⟩
  | some c =>
      obtain ⟨f1, f2, f3, f4⟩ :=
        extendDefinition_frame_found st d src c hd hcf
      have hin : c < st.cellArena.length := hh.topCellLt d c hcf
      have hgc : st.cellArena.get? c = some (getCell st c) := by
        rw [List.get?_eq_getElem?, List.getElem?_eq_getElem hin]
        unfold getCell
        rw [List.getD_eq_getElem?_getD, List.getElem?_eq_getElem hin]
        rfl
      have hca : (extendDefinition st d src).cellArena
          = st.cellArena.set c (osetUpdate (getCell st c) src.toList) := by
        rw [f4, hgc]
      have hlayAll : ∀ l, getLayer (extendDefinition st d src) l
          = getLayer st l := by
        intro l
        unfold getLayer
        rw [f3]
      have hfindAll : ∀ k,
          sFind (getLayer (extendDefinition st d src)
            (topD st.definitions 0)) k
          = sFind (getLayer st (topD st.definitions 0)) k := by
        intro k
        rw [hlayAll]
      have hcellNe : ∀ c2, c2 ≠ c →
          getCell (extendDefinition st d src) c2 = getCell st c2 := by
        intro c2 hc2
        unfold getCell
        rw [hca]
        exact getD_set_ne _ _ _ _ _ (fun he => hc2 he.symm)
      have hcells : ∀ c2, c2 ∈ layerCells st bl ++ layerCells st ol →
          getCell (extendDefinition st d src) c2 = getCell st c2 := by
        intro c2 hc2
        refine hcellNe c2 ?_
        intro he
        subst he
        exact hh.topBranch c2 hc2 d hcf
      have hlen : st.cellArena.length
          ≤ (extendDefinition st d src).cellArena.length := by
        rw [hca]
        simp
      have hentry : layerEntry (extendDefinition st d src)
          (topD st.definitions 0) d
          = osetUpdate (layerEntry st (topD st.definitions 0) d)
              src.toList := by
        unfold layerEntry
        rw [hfindAll, hcf]
        simp only
        unfold getCell
        rw [hca]
        rw [getD_set_self _ _ _ _ hin]
        rfl
      have hpres : ∀ k, k ≠ d →
          layerEntry (extendDefinition st d src) (topD st.definitions 0) k
            = layerEntry st (topD st.definitions 0) k := by
        intro k hk
        unfold layerEntry
        rw [hfindAll]
        cases hg : sFind (getLayer st (topD st.definitions 0)) k with
        | none => rfl
        | some c2 =>
            refine hcellNe c2 ?_
            intro he
            subst he
            exact hh.topInj k d c2 hk hg hcf
      have hinv : MergeInv (extendDefinition st d src) bl ol := by
        refine mergeInv_repoint d hh f1 (by rw [f3]) (hlayAll bl) (hlayAll ol)
          hcells hlen ?_
        intro k c2 hfind
        exact .inl (by rw [← hfindAll k]; exact hfind)
      exact ⟨f1, by rw [f2, hd], hinv, hlayAll bl, hlayAll ol, hcells, hlen,
        fun k _ => hfindAll k, hpres, hentry⟩

/-- Entries of a hygienic branch layer are distinct lists. -/
theorem branchEntry_nodup {st : St} {bl ol : LayerId}
    (hh : MergeInv st bl ol) (l : LayerId) (hl : l = bl ∨ l = ol) (k : String) :
    (layerEntry st l k).Nodup := by
  unfold layerEntry
  cases hg : sFind (getLayer st l) k with
  | none => exact List.nodup_nil
  | some c =>
      refine hh.branchNodup c ?_
      have hcin : c ∈ layerCells st l := by
        unfold layerCells
        exact List.mem_map.mpr ⟨(k, c), sFind_some_mem_pair hg, rfl⟩
      cases hl with
      | inl h => rw [h] at hcin; exact List.mem_append_left _ hcin
      | inr h => rw [h] at hcin; exact List.mem_append_right _ hcin

/-- A layer's materialized entries agree between states agreeing on the
layer and its cells. -/
theorem layerEntry_congr_of {st st' : St} {l : LayerId}
    (hl : getLayer st' l = getLayer st l)
    (hc : ∀ c, c ∈ layerCells st l → getCell st' c = getCell st c) :
    ∀ k, layerEntry st' l k = layerEntry st l k := by
  intro k
  unfold layerEntry
  rw [hl]
  cases hg : sFind (getLayer st l) k with
  | none => rfl
  | some c =>
      refine hc c ?_
      unfold layerCells
      exact List.mem_map.mpr ⟨(k, c), sFind_some_mem_pair hg, rfl⟩

/-- One step of the first merge loop of `visit_If` (over the body branch
keys): the processed key's top entry becomes the claimed merge of the
branch entries, all other state the merge reads is preserved, and the
invariant survives. -/
theorem mergeStep1_spec {st : St} {bl ol : LayerId} (d : String)
    (hh : MergeInv st bl ol) (hd : st.deadcode = 0) :
    ((if layerHasKey st ol d then
        setDefinition st d
          (.many (osetUnion (layerEntry st bl d) (layerEntry st ol d)))
      else
        extendDefinition st d (.many (layerEntry st bl d))).definitions
      = st.definitions) ∧
    ((if layerHasKey st ol d then
        setDefinition st d
          (.many (osetUnion (layerEntry st bl d) (layerEntry st ol d)))
      else
        extendDefinition st d (.many (layerEntry st bl d))).deadcode = 0) ∧
    MergeInv (if layerHasKey st ol d then
        setDefinition st d
          (.many (osetUnion (layerEntry st bl d) (layerEntry st ol d)))
      else
        extendDefinition st d (.many (layerEntry st bl d))) bl ol ∧
    getLayer (if layerHasKey st ol d then
        setDefinition st d
          (.many (osetUnion (layerEntry st bl d) (layerEntry st ol d)))
      else
        extendDefinition st d (.many (layerEntry st bl d))) bl
      = getLayer st bl ∧
    getLayer (if layerHasKey st ol d then
        setDefinition st d
          (.many (osetUnion (layerEntry st bl d) (layerEntry st ol d)))
      else
        extendDefinition st d (.many (layerEntry st bl d))) ol
      = getLayer st ol ∧
    (∀ c, c ∈ layerCells st bl ++ layerCells st ol →
      getCell (if layerHasKey st ol d then
        setDefinition st d
          (.many (osetUnion (layerEntry st bl d) (layerEntry st ol d)))
      else
        extendDefinition st d (.many (layerEntry st bl d))) c
        = getCell st c) ∧
    (∀ k, k ≠ d →
      sFind (getLayer (if layerHasKey st ol d then
        setDefinition st d
          (.many (osetUnion (layerEntry st bl d) (layerEntry st ol d)))
      else
        extendDefinition st d (.many (layerEntry st bl d)))
        (topD st.definitions 0)) k
        = sFind (getLayer st (topD st.definitions 0)) k) ∧
    (∀ k, k ≠ d →
      layerEntry (if layerHasKey st ol d then
        setDefinition st d
          (.many (osetUnion (layerEntry st bl d) (layerEntry st ol d)))
      else
        extendDefinition st d (.many (layerEntry st bl d)))
        (topD st.definitions 0) k
        = layerEntry st (topD st.definitions 0) k) ∧
    layerEntry (if layerHasKey st ol d then
        setDefinition st d
          (.many (osetUnion (layerEntry st bl d) (layerEntry st ol d)))
      else
        extendDefinition st d (.many (layerEntry st bl d)))
      (topD st.definitions 0) d
      = (if layerHasKey st ol d then
          osetUnion (layerEntry st bl d) (layerEntry st ol d)
        else
          osetUnion (layerEntry st (topD st.definitions 0) d)
            (layerEntry st bl d)) := by
  by_cases ho : layerHasKey st ol d
  · simp only [if_pos ho]
    obtain ⟨g1, g2, g3, g4, g5, g6, g7, g8, g9, g10⟩ := mergeOp_set d
      (.many (osetUnion (layerEntry st bl d) (layerEntry st ol d))) hh hd
    refine ⟨g1, g2, g3, g4, g5, g6, g8, g9, ?_⟩
    rw [g10]
    show osetOf (osetUnion (layerEntry st bl d) (layerEntry st ol d))
      = osetUnion (layerEntry st bl d) (layerEntry st ol d)
    exact osetOf_eq_self
      (osetUpdate_nodup _ (branchEntry_nodup hh bl (.inl rfl) d))
  · simp only [if_neg ho]
    obtain ⟨g1, g2, g3, g4, g5, g6, g7, g8, g9, g10⟩ := mergeOp_extend d
      (.many (layerEntry st bl d)) hh hd
    exact ⟨g1, g2, g3, g4, g5, g6, g8, g9, g10⟩

/-- One step of the second merge loop of `visit_If` (over the else
branch keys). -/
theorem mergeStep2_spec {st : St} {bl ol : LayerId} (d : String)
    (hh : MergeInv st bl ol) (hd : st.deadcode = 0) :
    ((if layerHasKey st bl d then st
      else extendDefinition st d (.many (layerEntry st ol d))).definitions
      = st.definitions) ∧
    ((if layerHasKey st bl d then st
      else extendDefinition st d (.many (layerEntry st ol d))).deadcode
      = 0) ∧
    MergeInv (if layerHasKey st bl d then st
      else extendDefinition st d (.many (layerEntry st ol d))) bl ol ∧
    getLayer (if layerHasKey st bl d then st
      else extendDefinition st d (.many (layerEntry st ol d))) bl
      = getLayer st bl ∧
    getLayer (if layerHasKey st bl d then st
      else extendDefinition st d (.many (layerEntry st ol d))) ol
      = getLayer st ol ∧
    (∀ c, c ∈ layerCells st bl ++ layerCells st ol →
      getCell (if layerHasKey st bl d then st
        else extendDefinition st d (.many (layerEntry st ol d))) c
        = getCell st c) ∧
    (∀ k, k ≠ d →
      sFind (getLayer (if layerHasKey st bl d then st
        else extendDefinition st d (.many (layerEntry st ol d)))
        (topD st.definitions 0)) k
        = sFind (getLayer st (topD st.definitions 0)) k) ∧
    (∀ k, k ≠ d →
      layerEntry (if layerHasKey st bl d then st
        else extendDefinition st d (.many (layerEntry st ol d)))
        (topD st.definitions 0) k
        = layerEntry st (topD st.definitions 0) k) ∧
    layerEntry (if layerHasKey st bl d then st
      else extendDefinition st d (.many (layerEntry st ol d)))
      (topD st.definitions 0) d
      = (if layerHasKey st bl d then
          layerEntry st (topD st.definitions 0) d
        else
          osetUnion (layerEntry st (topD st.definitions 0) d)
            (layerEntry st ol d)) := by
  by_cases hb : layerHasKey st bl d
  · have hif : (if layerHasKey st bl d then st
        else extendDefinition st d (.many (layerEntry st ol d))) = st :=
      if_pos hb
    rw [hif]
    refine ⟨rfl, hd, hh, rfl, rfl, fun c _ => rfl, fun k _ => rfl,
      fun k _ => rfl, ?_⟩
    rw [if_pos hb]
  · simp only [if_neg hb]
    obtain ⟨g1, g2, g3, g4, g5, g6, g7, g8, g9, g10⟩ := mergeOp_extend d
      (.many (layerEntry st ol d)) hh hd
    exact ⟨g1, g2, g3, g4, g5, g6, g8, g9, g10⟩

/-- The first merge loop of `visit_If` over a distinct key list: every
processed key's top entry becomes the union claimed for it, every other
key's entry is untouched, and the merge invariant survives. -/
theorem mergeFold1 {bl ol : LayerId} : ∀ (ks : List String) (st : St),
    MergeInv st bl ol → st.deadcode = 0 → ks.Nodup →
    (ks.foldl (fun st d =>
      if layerHasKey st ol d then
        setDefinition st d
          (.many (osetUnion (layerEntry st bl d) (layerEntry st ol d)))
      else
        extendDefinition st d (.many (layerEntry st bl d))) st).definitions
      = st.definitions ∧
    (ks.foldl (fun st d =>
      if layerHasKey st ol d then
        setDefinition st d
          (.many (osetUnion (layerEntry st bl d) (layerEntry st ol d)))
      else
        extendDefinition st d (.many (layerEntry st bl d))) st).deadcode
      = 0 ∧
    MergeInv (ks.foldl (fun st d =>
      if layerHasKey st ol d then
        setDefinition st d
          (.many (osetUnion (layerEntry st bl d) (layerEntry st ol d)))
      else
        extendDefinition st d (.many (layerEntry st bl d))) st) bl ol ∧
    getLayer (ks.foldl (fun st d =>
      if layerHasKey st ol d then
        setDefinition st d
          (.many (osetUnion (layerEntry st bl d) (layerEntry st ol d)))
      else
        extendDefinition st d (.many (layerEntry st bl d))) st) bl
      = getLayer st bl ∧
    getLayer (ks.foldl (fun st d =>
      if layerHasKey st ol d then
        setDefinition st d
          (.many (osetUnion (layerEntry st bl d) (layerEntry st ol d)))
      else
        extendDefinition st d (.many (layerEntry st bl d))) st) ol
      = getLayer st ol ∧
    (∀ c, c ∈ layerCells st bl ++ layerCells st ol →
      getCell (ks.foldl (fun st d =>
        if layerHasKey st ol d then
          setDefinition st d
            (.many (osetUnion (layerEntry st bl d) (layerEntry st ol d)))
        else
          extendDefinition st d (.many (layerEntry st bl d))) st) c
        = getCell st c) ∧
    (∀ k, k ∉ ks →
      sFind (getLayer (ks.foldl (fun st d =>
        if layerHasKey st ol d then
          setDefinition st d
            (.many (osetUnion (layerEntry st bl d) (layerEntry st ol d)))
        else
          extendDefinition st d (.many (layerEntry st bl d))) st)
        (topD st.definitions 0)) k
        = sFind (getLayer st (topD st.definitions 0)) k ∧
      layerEntry (ks.foldl (fun st d =>
        if layerHasKey st ol d then
          setDefinition st d
            (.many (osetUnion (layerEntry st bl d) (layerEntry st ol d)))
        else
          extendDefinition st d (.many (layerEntry st bl d))) st)
        (topD st.definitions 0) k
        = layerEntry st (topD st.definitions 0) k) ∧
    (∀ k, k ∈ ks →
      layerEntry (ks.foldl (fun st d =>
        if layerHasKey st ol d then
          setDefinition st d
            (.many (osetUnion (layerEntry st bl d) (layerEntry st ol d)))
        else
          extendDefinition st d (.many (layerEntry st bl d))) st)
        (topD st.definitions 0) k
        = (if layerHasKey st ol k then
            osetUnion (layerEntry st bl k) (layerEntry st ol k)
          else
            osetUnion (layerEntry st (topD st.definitions 0) k)
              (layerEntry st bl k)))
  | [], st, hh, hd, _ => by
      refine ⟨rfl, hd, hh, rfl, rfl, fun c _ => rfl,
        fun k _ => ⟨rfl, rfl⟩, fun k hk => absurd hk (by simp)⟩
  | d :: ks, st, hh, hd, hnd => by
      simp only [List.foldl_cons]
      obtain ⟨s1, s2, s3, s4, s5, s6, s7, s8, s9⟩ := mergeStep1_spec d hh hd
      set st1 := (if layerHasKey st ol d then
          setDefinition st d
            (.many (osetUnion (layerEntry st bl d) (layerEntry st ol d)))
        else
          extendDefinition st d (.many (layerEntry st bl d))) with hst1
      have hdks : d ∉ ks := (List.nodup_cons.mp hnd).1
      have ih := mergeFold1 ks st1 s3 s2 (List.nodup_cons.mp hnd).2
      obtain ⟨i1, i2, i3, i4, i5, i6, i7, i8⟩ := ih
      have htd : topD st1.definitions 0 = topD st.definitions 0 := by
        rw [s1]
      have hbc : layerCells st1 bl = layerCells st bl := by
        unfold layerCells; rw [s4]
      have hoc : layerCells st1 ol = layerCells st ol := by
        unfold layerCells; rw [s5]
      have hbE : ∀ k, layerEntry st1 bl k = layerEntry st bl k :=
        layerEntry_congr_of s4
          (fun c hc => s6 c (List.mem_append_left _ hc))
      have hoE : ∀ k, layerEntry st1 ol k = layerEntry st ol k :=
        layerEntry_congr_of s5
          (fun c hc => s6 c (List.mem_append_right _ hc))
      have hbK : ∀ k, layerHasKey st1 ol k = layerHasKey st ol k := by
        intro k; unfold layerHasKey; rw [s5]
      refine ⟨i1.trans s1, i2, i3, i4.trans s4, i5.trans s5, ?_, ?_, ?_⟩
      · intro c hc
        have hc1 : c ∈ layerCells st1 bl ++ layerCells st1 ol := by
          rw [hbc, hoc]; exact hc
        exact (i6 c hc1).trans (s6 c hc)
      · intro k hk
        have hkd : k ≠ d := by intro he; exact hk (he ▸ List.mem_cons_self d ks)
        have hkks : k ∉ ks := fun hm => hk (List.mem_cons_of_mem d hm)
        have h1 := i7 k hkks
        rw [htd] at h1
        exact ⟨h1.1.trans (s7 k hkd), h1.2.trans (s8 k hkd)⟩
      · intro k hk
        rw [List.mem_cons] at hk
        cases hk with
        | inl he =>
            subst he
            have h1 := (i7 k hdks).2
            rw [htd] at h1
            exact h1.trans s9
        | inr hm =>
            have hkd : k ≠ d := by
              intro he; subst he; exact hdks hm
            have h1 := i8 k hm
            rw [htd, hbK k, hbE k, hoE k, s8 k hkd] at h1
            exact h1

/-- The second merge loop of `visit_If` over a distinct key list. -/
theorem mergeFold2 {bl ol : LayerId} : ∀ (ks : List String) (st : St),
    MergeInv st bl ol → st.deadcode = 0 → ks.Nodup →
    (ks.foldl (fun st d =>
      if layerHasKey st bl d then st
      else extendDefinition st d (.many (layerEntry st ol d))) st).definitions
      = st.definitions ∧
    (ks.foldl (fun st d =>
      if layerHasKey st bl d then st
      else extendDefinition st d (.many (layerEntry st ol d))) st).deadcode
      = 0 ∧
    MergeInv (ks.foldl (fun st d =>
      if layerHasKey st bl d then st
      else extendDefinition st d (.many (layerEntry st ol d))) st) bl ol ∧
    getLayer (ks.foldl (fun st d =>
      if layerHasKey st bl d then st
      else extendDefinition st d (.many (layerEntry st ol d))) st) bl
      = getLayer st bl ∧
    getLayer (ks.foldl (fun st d =>
      if layerHasKey st bl d then st
      else extendDefinition st d (.many (layerEntry st ol d))) st) ol
      = getLayer st ol ∧
    (∀ c, c ∈ layerCells st bl ++ layerCells st ol →
      getCell (ks.foldl (fun st d =>
        if layerHasKey st bl d then st
        else extendDefinition st d (.many (layerEntry st ol d))) st) c
        = getCell st c) ∧
    (∀ k, k ∉ ks →
      sFind (getLayer (ks.foldl (fun st d =>
        if layerHasKey st bl d then st
        else extendDefinition st d (.many (layerEntry st ol d))) st)
        (topD st.definitions 0)) k
        = sFind (getLayer st (topD st.definitions 0)) k ∧
      layerEntry (ks.foldl (fun st d =>
        if layerHasKey st bl d then st
        else extendDefinition st d (.many (layerEntry st ol d))) st)
        (topD st.definitions 0) k
        = layerEntry st (topD st.definitions 0) k) ∧
    (∀ k, k ∈ ks →
      layerEntry (ks.foldl (fun st d =>
        if layerHasKey st bl d then st
        else extendDefinition st d (.many (layerEntry st ol d))) st)
        (topD st.definitions 0) k
        = (if layerHasKey st bl k then
            layerEntry st (topD st.definitions 0) k
          else
            osetUnion (layerEntry st (topD st.definitions 0) k)
              (layerEntry st ol k)))
  | [], st, hh, hd, _ => by
      refine ⟨rfl, hd, hh, rfl, rfl, fun c _ => rfl,
        fun k _ => ⟨rfl, rfl⟩, fun k hk => absurd hk (by simp)⟩
  | d :: ks, st, hh, hd, hnd => by
      simp only [List.foldl_cons]
      obtain ⟨s1, s2, s3, s4, s5, s6, s7, s8, s9⟩ := mergeStep2_spec d hh hd
      set st1 := (if layerHasKey st bl d then st
        else extendDefinition st d (.many (layerEntry st ol d))) with hst1
      have hdks : d ∉ ks := (List.nodup_cons.mp hnd).1
      have ih := mergeFold2 ks st1 s3 s2 (List.nodup_cons.mp hnd).2
      obtain ⟨i1, i2, i3, i4, i5, i6, i7, i8⟩ := ih
      have htd : topD st1.definitions 0 = topD st.definitions 0 := by
        rw [s1]
      have hbc : layerCells st1 bl = layerCells st bl := by
        unfold layerCells; rw [s4]
      have hoc : layerCells st1 ol = layerCells st ol := by
        unfold layerCells; rw [s5]
      have hoE : ∀ k, layerEntry st1 ol k = layerEntry st ol k :=
        layerEntry_congr_of s5
          (fun c hc => s6 c (List.mem_append_right _ hc))
      have hbK : ∀ k, layerHasKey st1 bl k = layerHasKey st bl k := by
        intro k; unfold layerHasKey; rw [s4]
      refine ⟨i1.trans s1, i2, i3, i4.trans s4, i5.trans s5, ?_, ?_, ?_⟩
      · intro c hc
        have hc1 : c ∈ layerCells st1 bl ++ layerCells st1 ol := by
          rw [hbc, hoc]; exact hc
        exact (i6 c hc1).trans (s6 c hc)
      · intro k hk
        have hkd : k ≠ d := by intro he; exact hk (he ▸ List.mem_cons_self d ks)
        have hkks : k ∉ ks := fun hm => hk (List.mem_cons_of_mem d hm)
        have h1 := i7 k hkks
        rw [htd] at h1
        exact ⟨h1.1.trans (s7 k hkd), h1.2.trans (s8 k hkd)⟩
      · intro k hk
        rw [List.mem_cons] at hk
        cases hk with
        | inl he =>
            subst he
            have h1 := (i7 k hdks).2
            rw [htd] at h1
            exact h1.trans s9
        | inr hm =>
            have hkd : k ≠ d := by
              intro he; subst he; exact hdks hm
            have h1 := i8 k hm
            rw [htd, hbK k, hoE k, s8 k hkd] at h1
            exact h1

/-- `dict.copy()`: the copied layer materializes to the source layer. -/
theorem copyLayer_spec (st : St) (l : LayerId) :
    getLayer (copyLayer st l).2 (copyLayer st l).1 = getLayer st l := by
  unfold copyLayer getLayer
  simp only
  exact getD_append_self _ _ _

/-- The branch merge state of the `C4` witness: a top layer (layer 0)
binding `x`, `y`, a body branch layer (1) binding `x`, `z`, and an else
branch layer (2) binding `x`, `w`, all through distinct cells. -/
def stMerge : St :=
  { defArena := [],
    cellArena := [[10], [11], [12], [13], [14], [15]],
    layerArena := [[("x", 0), ("y", 1)], [("x", 2), ("z", 3)],
      [("x", 4), ("w", 5)]],
    chains := [], localTab := [], builtins := [], defered := [],
    definitions := [0], scopeDepths := [-1], globalsStk := [[]],
    precompLocals := [[]], undefs := [], scopes := [⟨0, false⟩],
    deadcode := 0, diags := [], moduleId := 0 }

/-- C4: `visit_If` snapshots the current top layer into a copied branch
layer for each arm; merging the two branch layers then replaces the
outer entry of every name bound in both arms by the union of the two
branch entries, and extends (prior definitions first) the outer entry of
every name bound in exactly one arm. -/
theorem if_branch_copy_and_merge (t0 : Expr) (st0 st : St)
    (bl ol : LayerId) (k : String)
    (hh : MergeHygiene st bl ol) (hd : st.deadcode = 0) :
    getLayer (copyLayer (visitExpr t0 st0).2
        (topD (visitExpr t0 st0).2.definitions 0)).2
      (copyLayer (visitExpr t0 st0).2
        (topD (visitExpr t0 st0).2.definitions 0)).1
      = getLayer (visitExpr t0 st0).2
          (topD (visitExpr t0 st0).2.definitions 0) ∧
    (layerHasKey st bl k = true → layerHasKey st ol k = true →
      layerEntry (ifMerge st bl ol) (topD st.definitions 0) k
        = osetUnion (layerEntry st bl k) (layerEntry st ol k)) ∧
    (layerHasKey st bl k = true → layerHasKey st ol k = false →
      layerEntry (ifMerge st bl ol) (topD st.definitions 0) k
        = osetUnion (layerEntry st (topD st.definitions 0) k)
            (layerEntry st bl k)) ∧
    (layerHasKey st bl k = false → layerHasKey st ol k = true →
      layerEntry (ifMerge st bl ol) (topD st.definitions 0) k
        = osetUnion (layerEntry st (topD st.definitions 0) k)
            (layerEntry st ol k)) := by
  have hinv := mergeInv_of_hygiene hh
  obtain ⟨a1, a2, a3, a4, a5, a6, a7, a8⟩ :=
    mergeFold1 ((getLayer st bl).map (fun p => p.1)) st hinv hd hinv.blKeys
  set st1 := (((getLayer st bl).map (fun p => p.1)).foldl (fun st d =>
      if layerHasKey st ol d then
        setDefinition st d
          (.many (osetUnion (layerEntry st bl d) (layerEntry st ol d)))
      else
        extendDefinition st d (.many (layerEntry st bl d))) st) with hst1
  have hok : (getLayer st1 ol).map (fun p => p.1)
      = (getLayer st ol).map (fun p => p.1) := by rw [a5]
  obtain ⟨b1, b2, b3, b4, b5, b6, b7, b8⟩ :=
    mergeFold2 ((getLayer st1 ol).map (fun p => p.1)) st1 a3 a2
      (by rw [hok]; exact hinv.olKeys)
  have hmerge : ifMerge st bl ol
      = ((getLayer st1 ol).map (fun p => p.1)).foldl (fun st d =>
          if layerHasKey st bl d then st
          else extendDefinition st d (.many (layerEntry st ol d))) st1 := by
    unfold ifMerge
    rw [hst1]
  have htd1 : topD st1.definitions 0 = topD st.definitions 0 := by rw [a1]
  have hkb1 : ∀ k2, layerHasKey st1 bl k2 = layerHasKey st bl k2 := by
    intro k2; unfold layerHasKey; rw [a4]
  have hoE1 : ∀ k2, layerEntry st1 ol k2 = layerEntry st ol k2 :=
    layerEntry_congr_of a5 (fun c hc => a6 c (List.mem_append_right _ hc))
  refine ⟨copyLayer_spec _ _, ?_, ?_, ?_⟩
  · intro hbk hok2
    have hkb : k ∈ (getLayer st bl).map (fun p => p.1) :=
      (sFind_isSome_mem _ _).mp hbk
    have h1 := a8 k hkb
    rw [if_pos hok2] at h1
    have hko : k ∈ (getLayer st1 ol).map (fun p => p.1) := by
      rw [hok]
      exact (sFind_isSome_mem _ _).mp hok2
    have h2 := b8 k hko
    rw [htd1, hkb1 k, if_pos hbk] at h2
    rw [hmerge]
    exact h2.trans h1
  · intro hbk hnok
    have hkb : k ∈ (getLayer st bl).map (fun p => p.1) :=
      (sFind_isSome_mem _ _).mp hbk
    have h1 := a8 k hkb
    rw [if_neg (by rw [hnok]; exact Bool.false_ne_true)] at h1
    have hko : k ∉ (getLayer st1 ol).map (fun p => p.1) := by
      rw [hok]
      intro hm
      have h3 : layerHasKey st ol k = true :=
        (sFind_isSome_mem (getLayer st ol) k).mpr hm
      rw [hnok] at h3
      exact Bool.noConfusion h3
    have h2 := (b7 k hko).2
    rw [htd1] at h2
    rw [hmerge]
    exact h2.trans h1
  · intro hnbk hok2
    have hkb : k ∉ (getLayer st bl).map (fun p => p.1) := by
      intro hm
      have h3 : layerHasKey st bl k = true :=
        (sFind_isSome_mem (getLayer st bl) k).mpr hm
      rw [hnbk] at h3
      exact Bool.noConfusion h3
    have h1 := (a7 k hkb).2
    have hko : k ∈ (getLayer st1 ol).map (fun p => p.1) := by
      rw [hok]
      exact (sFind_isSome_mem _ _).mp hok2
    have h2 := b8 k hko
    rw [htd1, hkb1 k, if_neg (by rw [hnbk]; exact Bool.false_ne_true),
      h1, hoE1 k] at h2
    rw [hmerge]
    exact h2

theorem if_branch_copy_and_merge_witness :
    (MergeHygiene stMerge 1 2 ∧ stMerge.deadcode = 0) ∧
    (getLayer (copyLayer (visitExpr (.const 99) (initSt [])).2
        (topD (visitExpr (.const 99) (initSt [])).2.definitions 0)).2
      (copyLayer (visitExpr (.const 99) (initSt [])).2
        (topD (visitExpr (.const 99) (initSt [])).2.definitions 0)).1
      = getLayer (visitExpr (.const 99) (initSt [])).2
          (topD (visitExpr (.const 99) (initSt [])).2.definitions 0) ∧
    (layerHasKey stMerge 1 "x" = true → layerHasKey stMerge 2 "x" = true →
      layerEntry (ifMerge stMerge 1 2) (topD stMerge.definitions 0) "x"
        = osetUnion (layerEntry stMerge 1 "x") (layerEntry stMerge 2 "x")) ∧
    (layerHasKey stMerge 1 "x" = true → layerHasKey stMerge 2 "x" = false →
      layerEntry (ifMerge stMerge 1 2) (topD stMerge.definitions 0) "x"
        = osetUnion (layerEntry stMerge (topD stMerge.definitions 0) "x")
            (layerEntry stMerge 1 "x")) ∧
    (layerHasKey stMerge 1 "x" = false → layerHasKey stMerge 2 "x" = true →
      layerEntry (ifMerge stMerge 1 2) (topD stMerge.definitions 0) "x"
        = osetUnion (layerEntry stMerge (topD stMerge.definitions 0) "x")
            (layerEntry stMerge 2 "x"))) :=
  ⟨⟨by decide, by decide⟩,
    if_branch_copy_and_merge (.const 99) (initSt []) stMerge 1 2 "x"
      (by decide) (by decide)⟩

end Beniget